import Mathlib

/-!
Verification of interface-level properties of the HiGHS optimization suite.

The development shallowly embeds functions of
`src/highs/lp_data/HighsInterface.cpp` and `src/highs/io/HMpsFF.cpp`
in Lean and proves theorems about them.  IEEE doubles are modelled as
extended rationals (`XR`): a rational value or one of the two infinities;
`kHighsInf` in the source is IEEE infinity.  Helper routines of the
repository that live outside the given sources are modelled from the
specification; each such definition carries a doc comment saying so.
-/

namespace HighsSpec

/-- Status value returned by interface calls (`HighsStatus` in the source). -/
inductive HStatus where
  | kOk : HStatus
  | kWarning : HStatus
  | kError : HStatus
  deriving DecidableEq, Repr

/-- Model status (`HighsModelStatus` in the source); only the members used by
the embedded functions are included. -/
inductive MStatus where
  | kNotset : MStatus
  | kOptimal : MStatus
  | kInfeasible : MStatus
  | kUnbounded : MStatus
  | kUnboundedOrInfeasible : MStatus
  | kUnknown : MStatus
  | kSolveError : MStatus
  deriving DecidableEq, Repr

/-- Basis status of a column or row (`HighsBasisStatus` in the source). -/
inductive BStatus where
  | kLower : BStatus
  | kBasic : BStatus
  | kUpper : BStatus
  | kZero : BStatus
  | kNonbasic : BStatus
  deriving DecidableEq, Repr

/-- Variable kind (`HighsVarType` in the source). -/
inductive VarType where
  | kContinuous : VarType
  | kInteger : VarType
  | kSemiContinuous : VarType
  | kSemiInteger : VarType
  deriving DecidableEq, Repr

/-- Objective sense (`ObjSense` in the source). -/
inductive ObjSense where
  | kMinimize : ObjSense
  | kMaximize : ObjSense
  deriving DecidableEq, Repr

/-- Model of an IEEE double as used by the embedded code: a rational
number or one of the two infinities. -/
inductive XR where
  | negInf : XR
  | fin : ℚ → XR
  | posInf : XR
  deriving DecidableEq, Repr

namespace XR

/-- Strict comparison `a < b` of doubles. -/
def blt : XR → XR → Bool
  | negInf, negInf => false
  | negInf, _ => true
  | fin _, negInf => false
  | fin a, fin b => decide (a < b)
  | fin _, posInf => true
  | posInf, _ => false

/-- Comparison `a <= b` of doubles. -/
def ble : XR → XR → Bool
  | negInf, _ => true
  | fin _, negInf => false
  | fin a, fin b => decide (a ≤ b)
  | fin _, posInf => true
  | posInf, posInf => true
  | posInf, negInf => false
  | posInf, fin _ => false

/-- Negation of a double. -/
def neg : XR → XR
  | negInf => posInf
  | fin a => fin (-a)
  | posInf => negInf

/-- Absolute value of a double (`std::fabs`). -/
def fabs : XR → XR
  | negInf => posInf
  | fin a => fin |a|
  | posInf => posInf

/-- Round a double up to an integer (`std::ceil`); infinities are fixed. -/
def ceilv : XR → XR
  | fin a => fin ((-Rat.floor (-a) : ℤ) : ℚ)
  | x => x

/-- Round a double down to an integer (`std::floor`); infinities are fixed. -/
def floorv : XR → XR
  | fin a => fin ((Rat.floor a : ℤ) : ℚ)
  | x => x

/-- Multiplication of a double by a finite nonzero rational scale factor;
the sign of the factor flips infinities. -/
def scaleBy (s : ℚ) : XR → XR
  | fin a => fin (s * a)
  | negInf => if s < 0 then posInf else negInf
  | posInf => if s < 0 then negInf else posInf

end XR

/-- The value `kHighsInf` of the source: IEEE infinity. -/
def kHighsInf : XR := XR.posInf

/-- The scale factor `std::pow(2, k)` for an integer exponent. -/
def pow2 (k : ℤ) : ℚ := (2 : ℚ) ^ k

/-- Replace the entries of `xs` starting at position `a` by the entries of
`data` (entry `a + i` becomes `data[i]`), truncating at the end of `xs`;
the length of `xs` is preserved.  This models overwriting a contiguous
index interval of a `std::vector`. -/
def replaceFrom {α : Type} : List α → ℕ → List α → List α
  | [], _, _ => []
  | xs, 0, [] => xs
  | _ :: xs, 0, d :: ds => d :: replaceFrom xs 0 ds
  | x :: xs, n + 1, data => x :: replaceFrom xs n data

/-- Delete the entries of `xs` with positions in the interval `[a, b]`,
keeping the rest in order. -/
def deleteInterval {α : Type} (xs : List α) (a b : ℕ) : List α :=
  xs.take a ++ xs.drop (b + 1)

theorem length_replaceFrom {α : Type} (xs : List α) (a : ℕ) (data : List α) :
    (replaceFrom xs a data).length = xs.length := by
  induction xs generalizing a data with
  | nil => simp [replaceFrom]
  | cons x xs ih =>
    cases a with
    | zero =>
      cases data with
      | nil => simp [replaceFrom]
      | cons d ds => simpa [replaceFrom] using ih 0 ds
    | succ n => simpa [replaceFrom] using ih n data

theorem replaceFrom_zero_of_length_eq {α : Type} (xs data : List α)
    (h : data.length = xs.length) : replaceFrom xs 0 data = data := by
  induction xs generalizing data with
  | nil => cases data with
    | nil => simp [replaceFrom]
    | cons d ds => simp at h
  | cons x xs ih =>
    cases data with
    | nil => simp at h
    | cons d ds =>
      simp only [List.length_cons, Nat.succ.injEq] at h
      simp [replaceFrom, ih ds h]

theorem replaceFrom_nil_data {α : Type} (xs : List α) (a : ℕ) :
    replaceFrom xs a [] = xs := by
  induction xs generalizing a with
  | nil => simp [replaceFrom]
  | cons x xs ih =>
    cases a with
    | zero => simp [replaceFrom]
    | succ n => simp [replaceFrom, ih n]

/-! ## Claim C4: basis maintenance under deletion of columns or rows

Embedding of the static functions `deleteBasisEntries`, `deleteBasisCols`
and `deleteBasisRows` of `src/highs/lp_data/HighsInterface.cpp`.  The
`HighsIndexCollection` argument admits interval, set and mask forms with
equivalent semantics (specification, §4.G "Delete semantics"); it is
modelled as a boolean deletion mask processed entry by entry, which is the
union of the runs of deleted and kept entries that the source loop walks
through `updateOutInIndex`. -/

/-- The HiGHS basis of the facade (`HighsBasis`): full-length status
vectors and validity flags. -/
structure HBasis where
  col_status : List BStatus
  row_status : List BStatus
  valid : Bool
  useful : Bool
  alien : Bool
  was_alien : Bool
  deriving DecidableEq, Repr

/-- Walk the status vector and the deletion mask together: compact the kept
statuses in order, and record whether a basic, respectively a nonbasic,
entry was deleted.  Mirrors the loop of `deleteBasisEntries`. -/
def deleteBasisEntries : List BStatus → List Bool →
    List BStatus × Bool × Bool
  | [], _ => ([], false, false)
  | rest, [] => (rest, false, false)
  | s :: ss, d :: ds =>
    let r := deleteBasisEntries ss ds
    if d then
      (r.1, r.2.1 || decide (s = BStatus.kBasic),
        r.2.2 || decide (s ≠ BStatus.kBasic))
    else
      (s :: r.1, r.2.1, r.2.2)

/-- Column deletion: compact the column statuses; the basis becomes invalid
if a basic column was deleted (`deleteBasisCols`). -/
def deleteBasisCols (basis : HBasis) (mask : List Bool) : HBasis :=
  let r := deleteBasisEntries basis.col_status mask
  { basis with col_status := r.1, valid := if r.2.1 then false else basis.valid }

/-- Row deletion: compact the row statuses; the basis becomes invalid if a
nonbasic row was deleted (`deleteBasisRows`). -/
def deleteBasisRows (basis : HBasis) (mask : List Bool) : HBasis :=
  let r := deleteBasisEntries basis.row_status mask
  { basis with row_status := r.1, valid := if r.2.2 then false else basis.valid }

/-- The statuses kept by a deletion mask, in order. -/
def keptStatuses (status : List BStatus) (mask : List Bool) : List BStatus :=
  ((status.zip mask).filter (fun p => !p.2)).map Prod.fst ++
    status.drop mask.length

/-- Whether some deleted entry has the given property. -/
def someDeleted (status : List BStatus) (mask : List Bool)
    (p : BStatus → Bool) : Bool :=
  (status.zip mask).any (fun q => q.2 && p q.1)

theorem deleteBasisEntries_spec (status : List BStatus) (mask : List Bool) :
    deleteBasisEntries status mask =
      (keptStatuses status mask,
        someDeleted status mask (fun s => decide (s = BStatus.kBasic)),
        someDeleted status mask (fun s => decide (s ≠ BStatus.kBasic))) := by
  induction status generalizing mask with
  | nil =>
    cases mask <;> simp [deleteBasisEntries, keptStatuses, someDeleted]
  | cons s ss ih =>
    cases mask with
    | nil => simp [deleteBasisEntries, keptStatuses, someDeleted]
    | cons d ds =>
      simp only [deleteBasisEntries, ih ds]
      cases d <;>
        simp [keptStatuses, someDeleted, List.zip, List.filter, List.any_cons,
          Bool.or_comm]

/-- Claim C4: deleting columns or rows through the interface compacts the
basis status vector over the kept entries; the valid flag is cleared
exactly when a deleted column was basic (for columns), respectively a
deleted row was nonbasic (for rows); deleting only nonbasic columns or
only basic rows leaves the valid flag as it was. -/
theorem basis_deletion_claim (basis : HBasis) (maskC maskR : List Bool) :
    (deleteBasisCols basis maskC).col_status = keptStatuses basis.col_status maskC ∧
    (deleteBasisCols basis maskC).valid =
      (basis.valid &&
        !(someDeleted basis.col_status maskC (fun s => decide (s = BStatus.kBasic)))) ∧
    (deleteBasisRows basis maskR).row_status = keptStatuses basis.row_status maskR ∧
    (deleteBasisRows basis maskR).valid =
      (basis.valid &&
        !(someDeleted basis.row_status maskR (fun s => decide (s ≠ BStatus.kBasic)))) := by
  refine ⟨?_, ?_, ?_, ?_⟩ <;>
    simp only [deleteBasisCols, deleteBasisRows, deleteBasisEntries_spec] <;>
    cases hv : basis.valid <;>
    cases hd : someDeleted basis.col_status maskC (fun s => decide (s = BStatus.kBasic)) <;>
    cases hr : someDeleted basis.row_status maskR (fun s => decide (s ≠ BStatus.kBasic)) <;>
    simp [hv, hd, hr]

/-! ## Claim C8: doubling report frequency for aggregated MPS warnings

Embedding of the warning-aggregation mechanism of `HMpsFF::parseCols`,
`HMpsFF::parseRhs`, `HMpsFF::parseRanges` and `HMpsFF::parseBounds` in
`src/highs/io/HMpsFF.cpp`: a counter `num_ignored` starting at `0` and a
report frequency starting at `1`; at each occurrence the counter is
incremented, and if `count % frequency == 0` the warning is logged and the
frequency is doubled.  At the end of the section a summary warning is
issued exactly when the counter is positive. -/

/-- Counter state of one aggregated warning class. -/
structure WarnState where
  count : ℕ
  freq : ℕ
  deriving DecidableEq, Repr

/-- One occurrence of the warning: increment the counter; log (and double
the frequency) exactly when the counter is divisible by the frequency. -/
def warnStep (s : WarnState) : WarnState × Bool :=
  if (s.count + 1) % s.freq = 0 then (⟨s.count + 1, s.freq * 2⟩, true)
  else (⟨s.count + 1, s.freq⟩, false)

/-- Process `n` occurrences from state `s`; the resulting list tells, for
each occurrence in order, whether it was logged individually. -/
def warnRun : ℕ → WarnState → List Bool
  | 0, _ => []
  | n + 1, s =>
    let r := warnStep s
    r.2 :: warnRun n r.1

/-- The logging pattern for `n` occurrences of a warning class within one
section (counter `0`, frequency `1` at section start). -/
def warnSchedule (n : ℕ) : List Bool := warnRun n ⟨0, 1⟩

/-- Whether a summary warning is issued at section end after `n` ignored
occurrences (`warning_issued_ = num_ignored > 0`). -/
def warnSummaryIssued (n : ℕ) : Bool := decide (0 < n)

/-- The report frequency reachable after `i` occurrences. -/
def warnFreq (i : ℕ) : ℕ := if i = 0 then 1 else 2 ^ (Nat.log 2 i + 1)

/-- Whether a natural number is a power of two, as a computable test. -/
def isPow2 (n : ℕ) : Bool := decide (n = 2 ^ Nat.log 2 n)

theorem isPow2_iff (n : ℕ) : isPow2 n = true ↔ ∃ k, n = 2 ^ k := by
  unfold isPow2
  rw [decide_eq_true_iff]
  constructor
  · intro h; exact ⟨_, h⟩
  · rintro ⟨k, rfl⟩
    rw [Nat.log_pow (by norm_num)]

theorem warnFreq_pos (i : ℕ) : 0 < warnFreq i := by
  unfold warnFreq; split <;> positivity

theorem lt_warnFreq (i : ℕ) : i < warnFreq i := by
  unfold warnFreq
  split
  · omega
  · exact Nat.lt_pow_succ_log_self (by norm_num) i

theorem warnStep_spec (i : ℕ) :
    warnStep ⟨i, warnFreq i⟩ = (⟨i + 1, warnFreq (i + 1)⟩, isPow2 (i + 1)) := by
  rcases Nat.eq_zero_or_pos i with hi | hi
  · subst hi
    have h1 : Nat.log 2 1 = 0 := Nat.log_one_right 2
    simp [warnStep, warnFreq, isPow2, h1]
  · have hine : i ≠ 0 := by omega
    have hlt : i < 2 ^ (Nat.log 2 i + 1) := Nat.lt_pow_succ_log_self (by norm_num) i
    have hfreq : warnFreq i = 2 ^ (Nat.log 2 i + 1) := by
      unfold warnFreq; rw [if_neg hine]
    by_cases hpow : isPow2 (i + 1) = true
    · rw [isPow2_iff] at hpow
      obtain ⟨k, hk⟩ := hpow
      have hk1 : 1 ≤ k := by
        by_contra hne
        have hk0 : k = 0 := by omega
        rw [hk0, pow_zero] at hk
        omega
      have h2k : 2 ^ k = 2 * 2 ^ (k - 1) := by
        conv_lhs => rw [show k = (k - 1) + 1 by omega, pow_succ]
        ring
      have hp : 0 < 2 ^ (k - 1) := Nat.pos_pow_of_pos _ (by norm_num)
      have hlb : 2 ^ (k - 1) ≤ i := by omega
      have hub : i < 2 ^ ((k - 1) + 1) := by
        rw [show (k - 1) + 1 = k by omega]
        omega
      have hlog : Nat.log 2 i = k - 1 := Nat.log_eq_of_pow_le_of_lt_pow hlb hub
      have hfk : warnFreq i = 2 ^ k := by
        rw [hfreq, hlog, show (k - 1) + 1 = k by omega]
      have hmod : (i + 1) % warnFreq i = 0 := by
        rw [hfk, ← hk]; exact Nat.mod_self _
      have hnext : warnFreq i * 2 = warnFreq (i + 1) := by
        rw [hfk]
        unfold warnFreq
        rw [if_neg (by omega), hk, Nat.log_pow (by norm_num), pow_succ]
      have hdec : isPow2 (i + 1) = true := by
        rw [isPow2_iff]; exact ⟨k, hk⟩
      simp only [warnStep]
      rw [if_pos hmod, hnext, hdec]
    · have hne : i + 1 ≠ 2 ^ (Nat.log 2 i + 1) := by
        intro heq
        apply hpow
        rw [isPow2_iff]
        exact ⟨Nat.log 2 i + 1, heq⟩
      have hltf : i + 1 < warnFreq i := by rw [hfreq]; omega
      have hmod : ¬((i + 1) % warnFreq i = 0) := by
        rw [Nat.mod_eq_of_lt hltf]; omega
      have hlog : Nat.log 2 (i + 1) = Nat.log 2 i := by
        have hlb : 2 ^ Nat.log 2 i ≤ i + 1 :=
          le_trans (Nat.pow_log_le_self 2 hine) (by omega)
        have hub : i + 1 < 2 ^ (Nat.log 2 i + 1) := by omega
        exact Nat.log_eq_of_pow_le_of_lt_pow hlb hub
      have hnext : warnFreq i = warnFreq (i + 1) := by
        unfold warnFreq
        rw [if_neg hine, if_neg (by omega), hlog]
      have hdec : isPow2 (i + 1) = false := by
        rw [← Bool.not_eq_true]; exact hpow
      simp only [warnStep]
      rw [if_neg hmod, hnext, hdec]

theorem warnRun_spec (n i₀ : ℕ) :
    warnRun n ⟨i₀, warnFreq i₀⟩ =
      (List.range n).map (fun j => isPow2 (i₀ + j + 1)) := by
  induction n generalizing i₀ with
  | zero => simp [warnRun]
  | succ n ih =>
    simp only [warnRun, warnStep_spec i₀]
    rw [ih (i₀ + 1), List.range_succ_eq_map]
    simp only [List.map_cons, List.map_map, Nat.add_zero]
    congr 1
    apply List.map_congr_left
    intro j _
    simp only [Function.comp_apply]
    congr 1
    omega

/-- Claim C8: for every warning class aggregated by the MPS reader, the
`i`-th occurrence within a section is logged individually exactly when `i`
is a power of two, and a summary warning is issued at section end exactly
when at least one occurrence was ignored. -/
theorem mps_warning_schedule_claim (n i : ℕ) (h1 : 1 ≤ i) (h2 : i ≤ n) :
    ((warnSchedule n).get? (i - 1) = some true ↔ ∃ k, i = 2 ^ k) ∧
    (warnSummaryIssued n = true ↔ 1 ≤ n) := by
  constructor
  · have hrun : warnSchedule n = (List.range n).map (fun j => isPow2 (j + 1)) := by
      have h := warnRun_spec n 0
      simp only [Nat.zero_add] at h
      exact h
    rw [hrun]
    have hlt : i - 1 < n := by omega
    rw [List.get?_eq_getElem?, List.getElem?_map, List.getElem?_range hlt]
    simp only [Option.map_some', Option.some.injEq]
    rw [show i - 1 + 1 = i by omega]
    exact isPow2_iff i
  · simp only [warnSummaryIssued, decide_eq_true_eq]
    omega

/-- Witness for claim C8 at `n = 9`, `i = 8`: the eighth occurrence is
logged and the summary is issued. -/
theorem mps_warning_schedule_claim_witness :
    (1 ≤ 8 ∧ 8 ≤ 9) ∧
      (((warnSchedule 9).get? (8 - 1) = some true ↔ ∃ k, 8 = 2 ^ k) ∧
        (warnSummaryIssued 9 = true ↔ 1 ≤ 9)) :=
  ⟨⟨by norm_num, by norm_num⟩,
    mps_warning_schedule_claim 9 8 (by norm_num) (by norm_num)⟩

/-! ## Claim C7: fixed-format detection in the free-format MPS reader

Embedding of the line classification of `HMpsFF::parseRows` in
`src/highs/io/HMpsFF.cpp` (lines 609-701), together with
`HMpsFF::checkFirstWord`.  The string helpers `first_word`,
`first_word_end`, `is_end` and `trim` live in the reader's header, outside
the given sources; they are modelled from the specification of the reader:
a word is a maximal run of non-blank characters, `is_end` tests that only
blanks remain, and `trim` removes leading and trailing blanks (blank =
space or tab). -/

/-- Blank character as understood by the MPS reader's string helpers. -/
def isBlankC (c : Char) : Bool := c = ' ' || c = '\t'

/-- Position of the first non-blank character at or after `pos`
(`find_first_not_of`); the length of the line when there is none. -/
def firstNonBlankIdx (s : List Char) (pos : ℕ) : ℕ :=
  pos + ((s.drop pos).takeWhile isBlankC).length

/-- End position (exclusive) of the first word at or after `pos`
(`first_word_end`). -/
def firstWordEndIdx (s : List Char) (pos : ℕ) : ℕ :=
  let w := firstNonBlankIdx s pos
  w + ((s.drop w).takeWhile (fun c => !isBlankC c)).length

/-- The first word at or after `pos` (`first_word`). -/
def firstWordAt (s : List Char) (pos : ℕ) : List Char :=
  (s.drop (firstNonBlankIdx s pos)).takeWhile (fun c => !isBlankC c)

/-- Whether only blanks remain at or after `pos` (`is_end`). -/
def isEndIdx (s : List Char) (pos : ℕ) : Bool :=
  ((s.drop pos).dropWhile isBlankC).isEmpty

/-- Remove leading and trailing blanks (`trim`). -/
def trimC (s : List Char) : List Char :=
  ((s.dropWhile isBlankC).reverse.dropWhile isBlankC).reverse

/-- Upper-case a single ASCII character (`toupper`). -/
def toUpperC (c : Char) : Char :=
  if 'a' ≤ c && c ≤ 'z' then Char.ofNat (c.toNat - 32) else c

/-- Upper-case a word. -/
def toUpperL (s : List Char) : List Char := s.map toUpperC

/-- Section keys of the free-format MPS reader (`HMpsFF::Parsekey`). -/
inductive Parsekey where
  | kNone : Parsekey
  | kName : Parsekey
  | kObjsense : Parsekey
  | kMax : Parsekey
  | kMin : Parsekey
  | kRows : Parsekey
  | kCols : Parsekey
  | kRhs : Parsekey
  | kBounds : Parsekey
  | kRanges : Parsekey
  | kQsection : Parsekey
  | kQmatrix : Parsekey
  | kQuadobj : Parsekey
  | kQcmatrix : Parsekey
  | kCsection : Parsekey
  | kDelayedrows : Parsekey
  | kModelcuts : Parsekey
  | kUsercuts : Parsekey
  | kIndicators : Parsekey
  | kSets : Parsekey
  | kSos : Parsekey
  | kGencons : Parsekey
  | kPwlobj : Parsekey
  | kPwlnam : Parsekey
  | kPwlcon : Parsekey
  | kEnd : Parsekey
  | kFail : Parsekey
  | kFixedFormat : Parsekey
  | kTimeout : Parsekey
  deriving DecidableEq, Repr

/-- The keyword chain of `HMpsFF::checkFirstWord` applied to the
upper-cased first word. -/
def keywordOf (w : List Char) : Parsekey :=
  if w = "NAME".data then .kName
  else if w = "OBJSENSE".data then .kObjsense
  else if w.take 3 = "MAX".data then .kMax
  else if w.take 3 = "MIN".data then .kMin
  else if w = "ROWS".data then .kRows
  else if w = "COLUMNS".data then .kCols
  else if w = "RHS".data then .kRhs
  else if w = "BOUNDS".data then .kBounds
  else if w = "RANGES".data then .kRanges
  else if w = "QSECTION".data then .kQsection
  else if w = "QMATRIX".data then .kQmatrix
  else if w = "QUADOBJ".data then .kQuadobj
  else if w = "QCMATRIX".data then .kQcmatrix
  else if w = "CSECTION".data then .kCsection
  else if w = "DELAYEDROWS".data then .kDelayedrows
  else if w = "MODELCUTS".data then .kModelcuts
  else if w = "USERCUTS".data then .kUsercuts
  else if w = "INDICATORS".data then .kIndicators
  else if w = "SETS".data then .kSets
  else if w = "SOS".data then .kSos
  else if w = "GENCONS".data then .kGencons
  else if w = "PWLOBJ".data then .kPwlobj
  else if w = "PWLNAM".data then .kPwlnam
  else if w = "PWLCON".data then .kPwlcon
  else if w = "ENDATA".data then .kEnd
  else .kNone

/-- Result of `HMpsFF::checkFirstWord`: the recognized key and the first
word with its start and end positions. -/
structure FirstWord where
  key : Parsekey
  start : ℕ
  endIdx : ℕ
  word : List Char
  deriving DecidableEq, Repr

/-- Embedding of `HMpsFF::checkFirstWord` (the `section_args` bookkeeping,
which only stores text for later sections, is omitted). -/
def checkFirstWord (s : List Char) : FirstWord :=
  let start := firstNonBlankIdx s 0
  if start + 1 = s.length || isBlankC (s.getD (start + 1) ' ') then
    ⟨.kNone, start, start + 1, [s.getD start ' ']⟩
  else
    let e := firstWordEndIdx s (start + 1)
    let word := (s.drop start).take (e - start)
    let key := keywordOf (toUpperL word)
    if key = .kNone then ⟨.kNone, start, e, word⟩
    else if key = .kName || key = .kObjsense || key = .kQcmatrix ||
        key = .kQsection || key = .kCsection then ⟨key, start, e, word⟩
    else if isEndIdx s e then ⟨key, start, e, word⟩
    else ⟨.kNone, start, e, word⟩

/-- Classification of one line of the ROWS section by `HMpsFF::parseRows`. -/
inductive RowLineResult where
  | sectionEnd : Parsekey → RowLineResult
  | fail : RowLineResult
  | fixedFormat : RowLineResult
  | addRow : Bool → Bool → List Char → RowLineResult
  deriving DecidableEq, Repr

/-- Embedding of the per-line processing of `HMpsFF::parseRows`: recognize
the row type, detect fixed format when material follows the row name, and
otherwise record the row (`addRow isobj isFreeRow rowname`).  `hasobj`
tells whether an objective row was already seen. -/
def parseRowsLine (hasobj : Bool) (s : List Char) : RowLineResult :=
  let fw := checkFirstWord s
  if fw.key ≠ .kNone then .sectionEnd fw.key
  else
    let c := s.getD fw.start ' '
    if c = 'G' || c = 'E' || c = 'L' || c = 'N' then
      let rowname := firstWordAt s (fw.start + 1)
      let rownameEnd := firstWordEndIdx s (fw.start + 1)
      if !isEndIdx s rownameEnd then
        let name := trimC (s.drop (fw.start + 1))
        if name.length > 8 then .fail else .fixedFormat
      else
        .addRow (c = 'N' && !hasobj) (c = 'N' && hasobj) rowname
    else .fail

/-- Return codes of the free-format parse (`FreeFormatParserReturnCode`). -/
inductive FFReturnCode where
  | kSuccess : FFReturnCode
  | kParserError : FFReturnCode
  | kFixedFormat : FFReturnCode
  | kFileNotFound : FFReturnCode
  | kTimeout : FFReturnCode
  deriving DecidableEq, Repr

/-- How `HMpsFF::parse` maps a terminal key from a section parser to the
reader's return code: `kFail` aborts with a parser error, `kFixedFormat`
returns the fixed-format request. -/
def parseLoopOutcome : RowLineResult → Option FFReturnCode
  | .fail => some .kParserError
  | .fixedFormat => some .kFixedFormat
  | _ => none

/-- Counterexample to claim C7 as stated: on the ROWS line
`"L LONGROWNAME X"` the heuristic detects a row name with spaces whose
trimmed text `"LONGROWNAME X"` has 13 > 8 characters; the reader fails
with a parser error instead of escalating to the fixed-format request. -/
theorem mps_fixed_format_counterexample :
    parseRowsLine false ("L LONGROWNAME X".data) = RowLineResult.fail ∧
    parseLoopOutcome (parseRowsLine false ("L LONGROWNAME X".data)) =
      some FFReturnCode.kParserError ∧
    parseRowsLine false ("L LONGROWNAME X".data) ≠ RowLineResult.fixedFormat := by
  refine ⟨by decide, by decide, by decide⟩

/-- Claim C7, amended: when the fixed-format heuristic of the free-format
row parser fires (material follows the row name on a recognized row-type
line), the reader escalates to the fixed-format request exactly when the
trimmed row-name text fits in the 8-character fixed-format field; a longer
name fails the parse with a parser error. -/
theorem mps_fixed_format_claim (hasobj : Bool) (s : List Char)
    (hkey : (checkFirstWord s).key = .kNone)
    (htype : (fun c => c = 'G' || c = 'E' || c = 'L' || c = 'N')
      (s.getD (checkFirstWord s).start ' ') = true)
    (hdetect : isEndIdx s (firstWordEndIdx s ((checkFirstWord s).start + 1)) = false) :
    parseRowsLine hasobj s =
      (if (trimC (s.drop ((checkFirstWord s).start + 1))).length ≤ 8 then
        RowLineResult.fixedFormat else RowLineResult.fail) ∧
    (parseLoopOutcome (parseRowsLine hasobj s) =
      some (if (trimC (s.drop ((checkFirstWord s).start + 1))).length ≤ 8 then
        FFReturnCode.kFixedFormat else FFReturnCode.kParserError)) := by
  simp only [parseRowsLine, hkey]
  simp only [ne_eq, not_true_eq_false, if_false, reduceIte]
  simp only at htype
  rw [htype]
  simp only [if_true, hdetect, Bool.not_false, if_pos rfl]
  by_cases hlen : (trimC (s.drop ((checkFirstWord s).start + 1))).length ≤ 8
  · rw [if_neg (by omega : ¬(trimC (s.drop ((checkFirstWord s).start + 1))).length > 8),
      if_pos hlen, if_pos hlen]
    exact ⟨rfl, rfl⟩
  · rw [if_pos (by omega : (trimC (s.drop ((checkFirstWord s).start + 1))).length > 8),
      if_neg hlen, if_neg hlen]
    exact ⟨rfl, rfl⟩

/-- Witness for the amended claim C7: the line `"L R OWNAME"` triggers the
heuristic with name `"R OWNAME"` of 8 characters and escalates to the
fixed-format request. -/
theorem mps_fixed_format_claim_witness :
    ((checkFirstWord ("L R OWNAME".data)).key = .kNone ∧
      (fun c => c = 'G' || c = 'E' || c = 'L' || c = 'N')
        (("L R OWNAME".data).getD (checkFirstWord ("L R OWNAME".data)).start ' ') = true ∧
      isEndIdx ("L R OWNAME".data)
        (firstWordEndIdx ("L R OWNAME".data)
          ((checkFirstWord ("L R OWNAME".data)).start + 1)) = false) ∧
    parseRowsLine true ("L R OWNAME".data) =
      (if (trimC (("L R OWNAME".data).drop
          ((checkFirstWord ("L R OWNAME".data)).start + 1))).length ≤ 8 then
        RowLineResult.fixedFormat else RowLineResult.fail) :=
  ⟨⟨by decide, by decide, by decide⟩,
    (mps_fixed_format_claim true ("L R OWNAME".data) (by decide) (by decide)
      (by decide)).1⟩

/-! ## Claim C3: tolerance gating of the Optimal status by the KKT checker

Embedding of the state-relevant part of `Highs::lpKktCheck` in
`src/highs/lp_data/HighsInterface.cpp` (lines 2583-2869).  The
recomputation of the objective and the call of `getLpKktFailures`, which
populate `info`, happen before the gating and are outside the sources'
reach; the embedded function takes the populated `info` as input.  Logging
and the debug assertions (including the `computeDualObjectiveValue` call,
used only for logging) carry no state and are omitted. -/

/-- Solution status values (`kSolutionStatusNone` etc.). -/
inductive SolStatus where
  | kNone : SolStatus
  | kInfeasible : SolStatus
  | kFeasible : SolStatus
  deriving DecidableEq, Repr

/-- The fields of `HighsInfo` that `lpKktCheck` reads or writes.  Counts
are integers since `kHighsIllegalInfeasibilityCount` and
`kHighsIllegalResidualCount` are `-1`. -/
structure KktInfo where
  num_primal_infeasibilities : ℤ
  max_primal_infeasibility : ℚ
  sum_primal_infeasibilities : ℚ
  num_dual_infeasibilities : ℤ
  max_dual_infeasibility : ℚ
  sum_dual_infeasibilities : ℚ
  num_complementarity_violations : ℤ
  primal_dual_objective_error : ℚ
  num_primal_residual_errors : ℤ
  num_relative_primal_residual_errors : ℤ
  num_relative_dual_residual_errors : ℤ
  max_relative_primal_residual_error : ℚ
  max_relative_dual_residual_error : ℚ
  num_relative_primal_infeasibilities : ℤ
  max_relative_primal_infeasibility : ℚ
  num_relative_dual_infeasibilities : ℤ
  max_relative_dual_infeasibility : ℚ
  primal_solution_status : SolStatus
  dual_solution_status : SolStatus
  deriving DecidableEq, Repr

/-- The tolerance options read by `lpKktCheck`. -/
structure KktOptions where
  primal_feasibility_tolerance : ℚ
  dual_feasibility_tolerance : ℚ
  primal_residual_tolerance : ℚ
  dual_residual_tolerance : ℚ
  optimality_tolerance : ℚ
  kkt_tolerance : ℚ
  deriving DecidableEq, Repr

/-- The default of the `kkt_tolerance` option (`kDefaultKktTolerance`);
when the option differs from it, it overrides all five tolerances. -/
def kDefaultKktTolerance : ℚ := 1 / 10 ^ 7

/-- Sentinel for unknown residual counts (`kHighsIllegalResidualCount`). -/
def kHighsIllegalResidualCount : ℤ := -1

/-- The hard-wired margin `max_allowed_tolerance_relative_violation`. -/
def maxAllowedToleranceRelativeViolation : ℚ := 100

/-- The five effective tolerances of `lpKktCheck` after the possible
`kkt_tolerance` override. -/
def kktEffTol (opts : KktOptions) : ℚ × ℚ × ℚ × ℚ × ℚ :=
  if opts.kkt_tolerance ≠ kDefaultKktTolerance then
    (opts.kkt_tolerance, opts.kkt_tolerance, opts.kkt_tolerance,
      opts.kkt_tolerance, opts.kkt_tolerance)
  else
    (opts.primal_feasibility_tolerance, opts.dual_feasibility_tolerance,
      opts.primal_residual_tolerance, opts.dual_residual_tolerance,
      opts.optimality_tolerance)

/-- The primal, dual and objective relative tolerance violations computed
by `lpKktCheck`, following the two branches on `basis_valid`. -/
def kktRelViolations (opts : KktOptions) (basisValid : Bool) (info : KktInfo) :
    ℚ × ℚ × ℚ :=
  let t := kktEffTol opts
  let ptol := t.1
  let dtol := t.2.1
  let prtol := t.2.2.1
  let drtol := t.2.2.2.1
  let otol := t.2.2.2.2
  if basisValid then
    let mp := if 0 < info.num_primal_infeasibilities then
      max (info.max_primal_infeasibility / ptol) 0 else 0
    let md := if 0 < info.num_dual_infeasibilities then
      max (info.max_dual_infeasibility / dtol) 0 else 0
    let haveResiduals := info.num_primal_residual_errors ≠ kHighsIllegalResidualCount
    let mp := if haveResiduals then
      max (info.max_relative_primal_residual_error / prtol) mp else mp
    let md := if haveResiduals then
      max (info.max_relative_dual_residual_error / drtol) md else md
    let pdo := info.primal_dual_objective_error / otol
    (mp, md, pdo)
  else
    let mp := max (info.max_relative_primal_infeasibility / ptol) 0
    let md := max (info.max_relative_dual_infeasibility / dtol) 0
    let mp := max (info.max_relative_primal_residual_error / prtol) mp
    let md := max (info.max_relative_dual_residual_error / drtol) md
    let pdo := if otol < info.primal_dual_objective_error then
      info.primal_dual_objective_error / otol else 0
    (mp, md, pdo)

/-- The quantity `max_tolerance_relative_violation` of `lpKktCheck`. -/
def kktMaxRelViolation (opts : KktOptions) (basisValid : Bool)
    (info : KktInfo) : ℚ :=
  let v := kktRelViolations opts basisValid info
  max v.2.1 (max v.1 v.2.2)

/-- Embedding of `Highs::lpKktCheck`: returns the new model status and the
updated solution statuses of `info`. -/
def lpKktCheck (opts : KktOptions) (basisValid valueValid : Bool)
    (status : MStatus) (info : KktInfo) : MStatus × KktInfo :=
  if !valueValid then (status, info)
  else
    let status1 := if status = MStatus.kUnboundedOrInfeasible ∧
        info.num_primal_infeasibilities = 0 ∧
        (basisValid = true ∨ info.num_primal_residual_errors = 0) then
      MStatus.kUnbounded else status
    let v := kktRelViolations opts basisValid info
    let mp := v.1
    let md := v.2.1
    let info1 :=
      if basisValid then
        let i1 := { info with
          primal_solution_status := if info.num_primal_infeasibilities ≠ 0 then
            SolStatus.kInfeasible else SolStatus.kFeasible,
          dual_solution_status := if info.num_dual_infeasibilities ≠ 0 then
            SolStatus.kInfeasible else SolStatus.kFeasible }
        let i2 := if maxAllowedToleranceRelativeViolation < mp then
          { i1 with primal_solution_status := SolStatus.kInfeasible } else i1
        if maxAllowedToleranceRelativeViolation < md then
          { i2 with dual_solution_status := SolStatus.kInfeasible } else i2
      else
        { info with
          primal_solution_status := if maxAllowedToleranceRelativeViolation < mp
            then SolStatus.kInfeasible else SolStatus.kFeasible,
          dual_solution_status := if maxAllowedToleranceRelativeViolation < md
            then SolStatus.kInfeasible else SolStatus.kFeasible }
    let maxViol := kktMaxRelViolation opts basisValid info
    let status2 :=
      if status1 = MStatus.kOptimal then
        if maxAllowedToleranceRelativeViolation < maxViol then MStatus.kUnknown
        else status1
      else if status1 = MStatus.kUnknown ∧
          maxViol ≤ maxAllowedToleranceRelativeViolation then MStatus.kOptimal
      else status1
    (status2, info1)

/-- Claim C3: for a checked LP solution whose model status is `Optimal` or
`Unknown`, the status after `lpKktCheck` is `Unknown` exactly when the
maximum relative tolerance violation exceeds the margin of 100, and
`Optimal` otherwise; in particular `Optimal` is downgraded exactly when
the margin is exceeded, and `Unknown` within the margin is upgraded back
to `Optimal`. -/
theorem lp_kkt_gating_claim (opts : KktOptions) (basisValid : Bool)
    (status : MStatus) (info : KktInfo)
    (hst : status = MStatus.kOptimal ∨ status = MStatus.kUnknown) :
    (lpKktCheck opts basisValid true status info).1 =
      (if maxAllowedToleranceRelativeViolation <
          kktMaxRelViolation opts basisValid info then
        MStatus.kUnknown else MStatus.kOptimal) := by
  rcases hst with h | h <;> subst h <;>
    by_cases hm : maxAllowedToleranceRelativeViolation <
      kktMaxRelViolation opts basisValid info <;>
    simp [lpKktCheck, hm, le_of_not_lt]

/-- Witness for claim C3 on a concrete no-basis `info` whose only
violation is a primal infeasibility of 1 against tolerance 1/1000000:
status `Optimal` is downgraded to `Unknown`. -/
theorem lp_kkt_gating_claim_witness :
    (MStatus.kOptimal = MStatus.kOptimal ∨ MStatus.kOptimal = MStatus.kUnknown) ∧
    (lpKktCheck
        ⟨1 / 10 ^ 6, 1 / 10 ^ 6, 1 / 10 ^ 6, 1 / 10 ^ 6, 1 / 10 ^ 6,
          kDefaultKktTolerance⟩ false true MStatus.kOptimal
        ⟨1, 1, 1, 0, 0, 0, 0, 0, -1, 0, 0, 0, 0, 1, 1, 0, 0,
          SolStatus.kFeasible, SolStatus.kFeasible⟩).1 =
      (if maxAllowedToleranceRelativeViolation <
          kktMaxRelViolation
            ⟨1 / 10 ^ 6, 1 / 10 ^ 6, 1 / 10 ^ 6, 1 / 10 ^ 6, 1 / 10 ^ 6,
              kDefaultKktTolerance⟩ false
            ⟨1, 1, 1, 0, 0, 0, 0, 0, -1, 0, 0, 0, 0, 1, 1, 0, 0,
              SolStatus.kFeasible, SolStatus.kFeasible⟩ then
        MStatus.kUnknown else MStatus.kOptimal) :=
  ⟨Or.inl rfl,
    lp_kkt_gating_claim _ false MStatus.kOptimal _ (Or.inl rfl)⟩

/-! ## Shared LP data model

The LP state components that the interface claims are about (`HighsLp`):
column costs, column and row bounds, integrality, the objective sense, the
user scale exponents, the infinite-cost flag and the modifications log.
Dimensions are the lengths of the vectors.  The constraint matrix is kept
separately where a claim needs it. -/

structure Lp where
  colCost : List XR
  colLower : List XR
  colUpper : List XR
  integrality : List VarType
  rowLower : List XR
  rowUpper : List XR
  sense : ObjSense
  userBoundScale : ℤ
  userCostScale : ℤ
  hasInfiniteCost : Bool
  mods : List (ℕ × XR × XR × XR)
  deriving DecidableEq, Repr

/-- Number of columns (`num_col_`). -/
def Lp.numCol (lp : Lp) : ℕ := lp.colCost.length

/-- Number of rows (`num_row_`). -/
def Lp.numRow (lp : Lp) : ℕ := lp.rowLower.length

/-- The options read by the embedded interface functions. -/
structure HOptions where
  infiniteCost : ℚ
  infiniteBound : ℚ
  smallMatrixValue : ℚ
  largeMatrixValue : ℚ
  primalFeasTolerance : ℚ
  deriving DecidableEq, Repr

/-! ## Claim C6: change of a single matrix coefficient

Embedding of `Highs::changeCoefficientInterface` in
`src/highs/lp_data/HighsInterface.cpp` (lines 1094-1127).  The state it
touches: the constraint matrix (kept here as an entry list),
`basis_.alien` / `basis_.was_alien`, and — through
`invalidateModelStatusSolutionAndInfo`, whose body lives outside the
sources and is modelled from the specification (§4.G: mutations
"invalidate derived state (model status, solution, info)") — the model
status and the solution and info validity.  The
`ekk_instance_.updateStatus(LpAction::kNewRows)` notification acts on
engine state outside the sources and is not modelled. -/

/-- The state read and written by a coefficient change. -/
structure CoeffState where
  aEntries : List (ℕ × ℕ × ℚ)
  basis : HBasis
  model_status : MStatus
  solution_value_valid : Bool
  solution_dual_valid : Bool
  info_valid : Bool
  deriving DecidableEq, Repr

/-- Modelled from the spec: `changeLpMatrixCoefficient` sets entry
`(row, col)` of the matrix to the new value, or removes it when the new
value counts as zero. -/
def setMatrixEntry (m : List (ℕ × ℕ × ℚ)) (r c : ℕ) (v : ℚ)
    (zero : Bool) : List (ℕ × ℕ × ℚ) :=
  let without := m.filter (fun e => !(decide (e.1 = r) && decide (e.2.1 = c)))
  if zero then without else (r, c, v) :: without

/-- Embedding of `Highs::changeCoefficientInterface`. -/
def changeCoefficientInterface (opts : HOptions) (st : CoeffState)
    (r c : ℕ) (v : ℚ) : CoeffState :=
  let zeroNewValue := decide (|v| ≤ opts.smallMatrixValue)
  let m1 := setMatrixEntry st.aEntries r c v zeroNewValue
  let basicColumn := st.basis.col_status.getD c BStatus.kNonbasic = BStatus.kBasic
  let st1 := { st with
    aEntries := m1,
    model_status := MStatus.kNotset,
    solution_value_valid := false,
    solution_dual_valid := false,
    info_valid := false }
  if basicColumn then
    { st1 with basis := { st1.basis with alien := true, was_alien := true } }
  else st1

/-- Counterexample to claim C6 as stated: changing a coefficient in a
nonbasic column does not leave the model status and primal solution
intact — both are invalidated exactly as in the basic case, since the
function's comment says it treats the change as if a new row were added. -/
theorem change_coefficient_counterexample :
    (changeCoefficientInterface ⟨10 ^ 20, 10 ^ 20, 1 / 10 ^ 9, 10 ^ 15, 1 / 10 ^ 7⟩
        ⟨[(0, 0, 1)], ⟨[BStatus.kLower], [BStatus.kBasic], true, true, false, false⟩,
          MStatus.kOptimal, true, true, true⟩ 0 0 2).model_status ≠
      MStatus.kOptimal ∧
    (changeCoefficientInterface ⟨10 ^ 20, 10 ^ 20, 1 / 10 ^ 9, 10 ^ 15, 1 / 10 ^ 7⟩
        ⟨[(0, 0, 1)], ⟨[BStatus.kLower], [BStatus.kBasic], true, true, false, false⟩,
          MStatus.kOptimal, true, true, true⟩ 0 0 2).solution_value_valid ≠ true ∧
    (⟨[BStatus.kLower], [BStatus.kBasic], true, true, false, false⟩ :
        HBasis).col_status.getD 0 BStatus.kNonbasic ≠ BStatus.kBasic := by
  refine ⟨by decide, by decide, by decide⟩

/-- Claim C6, amended: a single-coefficient change always invalidates the
model status, the solution and the info (the source treats it as adding a
new row in both cases); the basis status vectors and the valid flag are
retained; and the basis is additionally marked alien exactly when the
changed column is currently basic. -/
theorem change_coefficient_claim (opts : HOptions) (st : CoeffState)
    (r c : ℕ) (v : ℚ) :
    (changeCoefficientInterface opts st r c v).model_status = MStatus.kNotset ∧
    (changeCoefficientInterface opts st r c v).solution_value_valid = false ∧
    (changeCoefficientInterface opts st r c v).solution_dual_valid = false ∧
    (changeCoefficientInterface opts st r c v).info_valid = false ∧
    (changeCoefficientInterface opts st r c v).basis.col_status =
      st.basis.col_status ∧
    (changeCoefficientInterface opts st r c v).basis.row_status =
      st.basis.row_status ∧
    (changeCoefficientInterface opts st r c v).basis.valid = st.basis.valid ∧
    (changeCoefficientInterface opts st r c v).basis.alien =
      (if st.basis.col_status.getD c BStatus.kNonbasic = BStatus.kBasic then
        true else st.basis.alien) := by
  by_cases hb : st.basis.col_status.getD c BStatus.kNonbasic = BStatus.kBasic <;>
    simp only [changeCoefficientInterface, hb, if_true, if_false, eq_self_iff_true,
      not_true, not_false_iff, reduceIte] <;>
    simp [hb]

/-! ## Claim C10: scaling a column or row of the model

Embedding of `Highs::scaleColInterface` and `Highs::scaleRowInterface` in
`src/highs/lp_data/HighsInterface.cpp` (lines 1129-1219).
`applyScalingToLpCol` / `applyScalingToLpRow` live outside the sources and
are modelled from the specification (§4.A `apply_col_scale` /
`apply_row_scale`): the column (its cost and matrix entries) is multiplied
by the factor and its bounds are divided by it, swapped for a negative
factor; a row's bounds are multiplied, swapped for a negative factor.
The matrix itself is not part of the modelled state.  As in C6, the
`invalidateModelStatusSolutionAndInfo` effect is modelled from the
specification, and `updateStatus(kScaledCol/kScaledRow)` acts on engine
state outside the sources. -/

/-- The nonbasic-move value `kNonbasicMoveUp`. -/
def kNonbasicMoveUp : ℤ := 1

/-- The nonbasic-move value `kNonbasicMoveDn`. -/
def kNonbasicMoveDn : ℤ := -1

/-- The state read and written by the scale interfaces. -/
structure ScaleState where
  lp : Lp
  basis : HBasis
  ekkInitialisedForSolve : Bool
  ekkHasBasis : Bool
  nonbasicMove : List ℤ
  model_status : MStatus
  deriving DecidableEq, Repr

/-- Modelled from the spec: `applyScalingToLpCol` multiplies the column
cost by the scale factor and divides the column bounds by it, swapping
lower and upper for a negative factor. -/
def applyScalingToLpCol (lp : Lp) (c : ℕ) (scale : ℚ) : Lp :=
  let lp1 := { lp with
    colCost := lp.colCost.set c ((lp.colCost.getD c (XR.fin 0)).scaleBy scale) }
  if 0 < scale then
    { lp1 with
      colLower := lp1.colLower.set c
        ((lp1.colLower.getD c (XR.fin 0)).scaleBy scale⁻¹),
      colUpper := lp1.colUpper.set c
        ((lp1.colUpper.getD c (XR.fin 0)).scaleBy scale⁻¹) }
  else
    { lp1 with
      colLower := lp1.colLower.set c
        ((lp1.colUpper.getD c (XR.fin 0)).scaleBy scale⁻¹),
      colUpper := lp1.colUpper.set c
        ((lp1.colLower.getD c (XR.fin 0)).scaleBy scale⁻¹) }

/-- Modelled from the spec: `applyScalingToLpRow` multiplies the row
bounds by the scale factor, swapping them for a negative factor. -/
def applyScalingToLpRow (lp : Lp) (r : ℕ) (scale : ℚ) : Lp :=
  if 0 < scale then
    { lp with
      rowLower := lp.rowLower.set r ((lp.rowLower.getD r (XR.fin 0)).scaleBy scale),
      rowUpper := lp.rowUpper.set r ((lp.rowUpper.getD r (XR.fin 0)).scaleBy scale) }
  else
    { lp with
      rowLower := lp.rowLower.set r ((lp.rowUpper.getD r (XR.fin 0)).scaleBy scale),
      rowUpper := lp.rowUpper.set r ((lp.rowLower.getD r (XR.fin 0)).scaleBy scale) }

/-- The status flip applied to a nonbasic status under a negative scale. -/
def flipLowerUpper : BStatus → BStatus
  | BStatus.kLower => BStatus.kUpper
  | BStatus.kUpper => BStatus.kLower
  | s => s

/-- The move flip applied to a nonbasic move under a negative scale. -/
def flipMove (m : ℤ) : ℤ :=
  if m = kNonbasicMoveUp then kNonbasicMoveDn
  else if m = kNonbasicMoveDn then kNonbasicMoveUp
  else m

/-- Embedding of `Highs::scaleColInterface`. -/
def scaleColInterface (st : ScaleState) (col : ℤ) (scale : ℚ) :
    HStatus × ScaleState :=
  if col < 0 then (.kError, st)
  else if (st.lp.numCol : ℤ) ≤ col then (.kError, st)
  else if scale = 0 then (.kError, st)
  else
    let c := col.toNat
    let lp1 := applyScalingToLpCol st.lp c scale
    let basis1 :=
      if scale < 0 ∧ st.basis.valid = true then
        { st.basis with
          col_status := st.basis.col_status.set c (flipLowerUpper (st.basis.col_status.getD c BStatus.kNonbasic)) }
      else st.basis
    let move1 :=
      if st.ekkInitialisedForSolve = true then
        if scale < 0 ∧ st.ekkHasBasis = true then
          st.nonbasicMove.set c (flipMove (st.nonbasicMove.getD c 0))
        else st.nonbasicMove
      else st.nonbasicMove
    let st1 : ScaleState :=
      { st with lp := lp1, basis := basis1, nonbasicMove := move1, model_status := MStatus.kNotset }
    (.kOk, st1)

/-- Embedding of `Highs::scaleRowInterface`. -/
def scaleRowInterface (st : ScaleState) (row : ℤ) (scale : ℚ) :
    HStatus × ScaleState :=
  if row < 0 then (.kError, st)
  else if (st.lp.numRow : ℤ) ≤ row then (.kError, st)
  else if scale = 0 then (.kError, st)
  else
    let r := row.toNat
    let lp1 := applyScalingToLpRow st.lp r scale
    let basis1 :=
      if scale < 0 ∧ st.basis.valid = true then
        { st.basis with
          row_status := st.basis.row_status.set r (flipLowerUpper (st.basis.row_status.getD r BStatus.kNonbasic)) }
      else st.basis
    let var := st.lp.numCol + r
    let move1 :=
      if st.ekkInitialisedForSolve = true then
        if scale < 0 ∧ st.ekkHasBasis = true then
          st.nonbasicMove.set var (flipMove (st.nonbasicMove.getD var 0))
        else st.nonbasicMove
      else st.nonbasicMove
    let st1 : ScaleState :=
      { st with lp := lp1, basis := basis1, nonbasicMove := move1, model_status := MStatus.kNotset }
    (.kOk, st1)

/-- Claim C10: an out-of-range index or a zero scale value makes
`scaleColInterface` / `scaleRowInterface` return an error with the state
unchanged; a strictly negative scale under a valid basis flips the
at-lower/at-upper status of the scaled column (row) — leaving basic and
other statuses unchanged — and, when a simplex basis exists (which under
the monotone flag chain implies the simplex data is initialised), flips
the corresponding nonbasicMove direction. -/
theorem scale_interface_claim (st : ScaleState) (col row : ℤ) (scale : ℚ)
    (hmono : st.ekkHasBasis = true → st.ekkInitialisedForSolve = true) :
    ((col < 0 ∨ (st.lp.numCol : ℤ) ≤ col ∨ scale = 0) →
      scaleColInterface st col scale = (.kError, st)) ∧
    ((row < 0 ∨ (st.lp.numRow : ℤ) ≤ row ∨ scale = 0) →
      scaleRowInterface st row scale = (.kError, st)) ∧
    (0 ≤ col → col < (st.lp.numCol : ℤ) → scale < 0 → st.basis.valid = true →
      (scaleColInterface st col scale).2.basis.col_status =
        st.basis.col_status.set col.toNat
          (flipLowerUpper (st.basis.col_status.getD col.toNat BStatus.kNonbasic)) ∧
      (scaleColInterface st col scale).2.basis.row_status = st.basis.row_status ∧
      (scaleColInterface st col scale).2.basis.valid = true ∧
      (scaleColInterface st col scale).2.nonbasicMove =
        (if st.ekkHasBasis = true then
          st.nonbasicMove.set col.toNat
            (flipMove (st.nonbasicMove.getD col.toNat 0))
        else st.nonbasicMove)) ∧
    (0 ≤ row → row < (st.lp.numRow : ℤ) → scale < 0 → st.basis.valid = true →
      (scaleRowInterface st row scale).2.basis.row_status =
        st.basis.row_status.set row.toNat
          (flipLowerUpper (st.basis.row_status.getD row.toNat BStatus.kNonbasic)) ∧
      (scaleRowInterface st row scale).2.basis.col_status = st.basis.col_status ∧
      (scaleRowInterface st row scale).2.basis.valid = true ∧
      (scaleRowInterface st row scale).2.nonbasicMove =
        (if st.ekkHasBasis = true then
          st.nonbasicMove.set (st.lp.numCol + row.toNat)
            (flipMove (st.nonbasicMove.getD (st.lp.numCol + row.toNat) 0))
        else st.nonbasicMove)) ∧
    flipLowerUpper BStatus.kBasic = BStatus.kBasic ∧
    flipLowerUpper BStatus.kZero = BStatus.kZero := by
  refine ⟨?_, ?_, ?_, ?_, rfl, rfl⟩
  · rintro (h | h | h) <;> simp [scaleColInterface, h]
  · rintro (h | h | h) <;> simp [scaleRowInterface, h]
  · intro h0 hlt hneg hvalid
    have h1 : ¬ col < 0 := by omega
    have h2 : ¬ (st.lp.numCol : ℤ) ≤ col := by omega
    have h3 : ¬ scale = 0 := by
      intro h; rw [h] at hneg; exact absurd hneg (by norm_num)
    simp only [scaleColInterface, if_neg h1, if_neg h2, if_neg h3]
    by_cases hb : st.ekkHasBasis = true
    · have hinit := hmono hb
      simp [hneg, hvalid, hb, hinit]
    · simp only [Bool.not_eq_true] at hb
      by_cases hi : st.ekkInitialisedForSolve = true <;>
        simp [hneg, hvalid, hb, hi]
  · intro h0 hlt hneg hvalid
    have h1 : ¬ row < 0 := by omega
    have h2 : ¬ (st.lp.numRow : ℤ) ≤ row := by omega
    have h3 : ¬ scale = 0 := by
      intro h; rw [h] at hneg; exact absurd hneg (by norm_num)
    simp only [scaleRowInterface, if_neg h1, if_neg h2, if_neg h3]
    by_cases hb : st.ekkHasBasis = true
    · have hinit := hmono hb
      simp [hneg, hvalid, hb, hinit]
    · simp only [Bool.not_eq_true] at hb
      by_cases hi : st.ekkInitialisedForSolve = true <;>
        simp [hneg, hvalid, hb, hi]

/-- Concrete state for the claim C10 witness: one column at lower bound,
one basic row, valid basis, simplex basis present. -/
def scaleWitnessState : ScaleState :=
  ⟨⟨[XR.fin 1], [XR.fin 0], [XR.fin 2], [], [XR.fin 0], [XR.fin 1],
      ObjSense.kMinimize, 0, 0, false, []⟩,
    ⟨[BStatus.kLower], [BStatus.kBasic], true, true, false, false⟩,
    true, true, [1, 0], MStatus.kOptimal⟩

/-- Witness for claim C10: on `scaleWitnessState`, scaling column 1 (out
of range) errors with the state unchanged, and scaling column 0 by -1
flips its at-lower status to at-upper. -/
theorem scale_interface_claim_witness :
    (scaleWitnessState.ekkHasBasis = true →
      scaleWitnessState.ekkInitialisedForSolve = true) ∧
    scaleColInterface scaleWitnessState 1 (-1) = (.kError, scaleWitnessState) ∧
    (scaleColInterface scaleWitnessState 0 (-1)).2.basis.col_status =
      scaleWitnessState.basis.col_status.set 0
        (flipLowerUpper (scaleWitnessState.basis.col_status.getD 0 BStatus.kNonbasic)) :=
  ⟨fun h => h,
    (scale_interface_claim scaleWitnessState 1 0 (-1) (fun h => h)).1
      (Or.inr (Or.inl (by decide))),
    ((scale_interface_claim scaleWitnessState 0 0 (-1) (fun h => h)).2.2.1
      (by decide) (by decide) (by norm_num) (by decide)).1⟩

/-! ## Model-mutation interfaces

Embeddings of `Highs::addColsInterface`, `Highs::addRowsInterface`,
`Highs::changeCostsInterface`, `Highs::changeColBoundsInterface`,
`Highs::changeRowBoundsInterface`, `Highs::changeIntegralityInterface`,
`Highs::deleteColsInterface`, `Highs::deleteRowsInterface` and
`Highs::optionChangeAction` from `src/highs/lp_data/HighsInterface.cpp`,
over the `Lp` state.  Null user arrays are `Option` values.  The index
collections of the change and delete interfaces are taken in interval form
`[a, b]` (the forms are equivalent; specification §4.G).  The helpers
`assessCosts`, `assessBounds`, `boundScaleOk`, `costScaleOk` and the
matrix `assess` live outside the given sources and are modelled from the
specification (§4.A, §4.C, §3 "Scaling"); basis updates and simplex-engine
notifications act on state outside the `Lp` record and are not modelled
here (claims C4, C6 and C10 treat them separately). -/

/-- Modelled from the spec: `assessBounds` normalizes a bound against the
infinite-bound threshold, treating values at or beyond it as infinite. -/
def snapBound (ib : ℚ) : XR → XR
  | XR.fin q => if ib ≤ q then XR.posInf else if q ≤ -ib then XR.negInf else XR.fin q
  | x => x

/-- Modelled from the spec: normalization of bound vectors by
`assessBounds` (which reports only warnings for the values themselves). -/
def assessBoundsN (ib : ℚ) (lower upper : List XR) : List XR × List XR :=
  (lower.map (snapBound ib), upper.map (snapBound ib))

/-- Modelled from the spec (§4.C): detection by `assessCosts` of a cost at
or beyond the infinite-cost threshold. -/
def hasInfiniteCostIn (ic : ℚ) (costs : List XR) : Bool :=
  costs.any (fun c => (XR.fin ic).ble c.fabs)

/-- Whether a finite value scaled by `2 ^ k` stays strictly below the
threshold `t` in magnitude; infinite values are exempt. -/
def scaledValueOk (k : ℤ) (t : ℚ) : XR → Bool
  | XR.fin q => decide (|q * pow2 k| < t)
  | _ => true

/-- Modelled from the spec (§3 "Scaling" invariant): `boundScaleOk` holds
when scaling the finite bounds by `2 ^ k` produces no bound at or beyond
the infinite-bound threshold. -/
def boundScaleOk (lower upper : List XR) (k : ℤ) (ib : ℚ) : Bool :=
  lower.all (scaledValueOk k ib) && upper.all (scaledValueOk k ib)

/-- Modelled from the spec (§3 "Scaling" invariant): `costScaleOk` holds
when scaling the finite costs by `2 ^ k` produces no cost at or beyond the
infinite-cost threshold. -/
def costScaleOk (cost : List XR) (k : ℤ) (ic : ℚ) : Bool :=
  cost.all (scaledValueOk k ic)

/-- Modelled from the spec (§4.A): the matrix `assess` rejects entries
larger than the large-matrix-value threshold in magnitude (entries below
the small threshold are dropped with a warning, which needs no model
here). -/
def assessMatrixOk (largeValue : ℚ) (values : List XR) : Bool :=
  values.all (fun v => v.fabs.ble (XR.fin largeValue))

/-- Embedding of `Highs::addColsInterface`.  The constraint-matrix payload
takes part in the guards and the value assessment; its entries are not
part of the `Lp` record.  When the matrix assessment fails, the source has
already appended the cost and bound vectors and returns with them in
place, which the error state reflects. -/
def addColsInterface (opts : HOptions) (lp : Lp) (extNumNewCol : ℤ)
    (extColCost extColLower extColUpper : Option (List XR))
    (extNumNewNz : ℤ) (extAStart extAIndex : Option (List ℤ))
    (extAValue : Option (List XR)) : HStatus × Lp :=
  if extNumNewCol < 0 then (.kError, lp)
  else if extNumNewNz < 0 then (.kError, lp)
  else if extNumNewCol = 0 then (.kOk, lp)
  else if extColCost.isNone || extColLower.isNone || extColUpper.isNone then
    (.kError, lp)
  else if 0 < extNumNewNz &&
      (extAStart.isNone || extAIndex.isNone || extAValue.isNone) then
    (.kError, lp)
  else if lp.numRow = 0 && 0 < extNumNewNz then (.kError, lp)
  else
    let n := extNumNewCol.toNat
    let localCost := (extColCost.getD []).take n
    let localHasInfiniteCost := hasInfiniteCostIn opts.infiniteCost localCost
    let lu := assessBoundsN opts.infiniteBound ((extColLower.getD []).take n)
      ((extColUpper.getD []).take n)
    if lp.userBoundScale ≠ 0 &&
        !boundScaleOk lu.1 lu.2 lp.userBoundScale opts.infiniteBound then
      (.kError, lp)
    else
      let localLower := if lp.userBoundScale ≠ 0 then
        lu.1.map (XR.scaleBy (pow2 lp.userBoundScale)) else lu.1
      let localUpper := if lp.userBoundScale ≠ 0 then
        lu.2.map (XR.scaleBy (pow2 lp.userBoundScale)) else lu.2
      if lp.userCostScale ≠ 0 &&
          !costScaleOk localCost lp.userCostScale opts.infiniteCost then
        (.kError, lp)
      else
        let localCost2 := if lp.userCostScale ≠ 0 then
          localCost.map (XR.scaleBy (pow2 lp.userCostScale)) else localCost
        let lp1 := { lp with
          colCost := lp.colCost ++ localCost2,
          colLower := lp.colLower ++ localLower,
          colUpper := lp.colUpper ++ localUpper,
          integrality := if lp.integrality.isEmpty then [] else
            lp.integrality ++ List.replicate n VarType.kContinuous }
        if 0 < extNumNewNz &&
            !assessMatrixOk opts.largeMatrixValue (extAValue.getD []) then
          (.kError, lp1)
        else
          (.kOk, { lp1 with
            hasInfiniteCost := lp1.hasInfiniteCost || localHasInfiniteCost })

/-- Embedding of `Highs::addRowsInterface`. -/
def addRowsInterface (opts : HOptions) (lp : Lp) (extNumNewRow : ℤ)
    (extRowLower extRowUpper : Option (List XR))
    (extNumNewNz : ℤ) (extARStart extARIndex : Option (List ℤ))
    (extARValue : Option (List XR)) : HStatus × Lp :=
  if extNumNewRow < 0 then (.kError, lp)
  else if extNumNewNz < 0 then (.kError, lp)
  else if extNumNewRow = 0 then (.kOk, lp)
  else if extRowLower.isNone || extRowUpper.isNone then (.kError, lp)
  else if 0 < extNumNewNz &&
      (extARStart.isNone || extARIndex.isNone || extARValue.isNone) then
    (.kError, lp)
  else if lp.numCol = 0 && 0 < extNumNewNz then (.kError, lp)
  else
    let n := extNumNewRow.toNat
    let lu := assessBoundsN opts.infiniteBound ((extRowLower.getD []).take n)
      ((extRowUpper.getD []).take n)
    if lp.userBoundScale ≠ 0 &&
        !boundScaleOk lu.1 lu.2 lp.userBoundScale opts.infiniteBound then
      (.kError, lp)
    else
      let localLower := if lp.userBoundScale ≠ 0 then
        lu.1.map (XR.scaleBy (pow2 lp.userBoundScale)) else lu.1
      let localUpper := if lp.userBoundScale ≠ 0 then
        lu.2.map (XR.scaleBy (pow2 lp.userBoundScale)) else lu.2
      let lp1 := { lp with
        rowLower := lp.rowLower ++ localLower,
        rowUpper := lp.rowUpper ++ localUpper }
      if 0 < extNumNewNz &&
          !assessMatrixOk opts.largeMatrixValue (extARValue.getD []) then
        (.kError, lp1)
      else
        (.kOk, lp1)

/-- Embedding of `Highs::changeCostsInterface` for an interval collection
`[a, b]`.  The `infinite_cost` argument of `changeLpCosts` feeds the
infinite-cost flag, which the interface recomputes itself; values are
installed verbatim. -/
def changeCostsInterface (opts : HOptions) (lp : Lp) (a b : ℤ)
    (cost : Option (List XR)) : HStatus × Lp :=
  let numCost := b - a + 1
  if numCost ≤ 0 then (.kOk, lp)
  else if cost.isNone then (.kError, lp)
  else
    let data := (cost.getD []).take numCost.toNat
    let localHasInfiniteCost := hasInfiniteCostIn opts.infiniteCost data
    if lp.userCostScale ≠ 0 &&
        !costScaleOk data lp.userCostScale opts.infiniteCost then
      (.kError, lp)
    else
      let data2 := if lp.userCostScale ≠ 0 then
        data.map (XR.scaleBy (pow2 lp.userCostScale)) else data
      (.kOk, { lp with
        colCost := replaceFrom lp.colCost a.toNat data2,
        hasInfiniteCost := lp.hasInfiniteCost || localHasInfiniteCost })

/-- Embedding of `Highs::changeColBoundsInterface` for an interval
collection `[a, b]` (the `setNonbasicStatusInterface` update of the basis
acts on state outside the `Lp` record). -/
def changeColBoundsInterface (opts : HOptions) (lp : Lp) (a b : ℤ)
    (colLowerA colUpperA : Option (List XR)) : HStatus × Lp :=
  let numColBounds := b - a + 1
  if numColBounds ≤ 0 then (.kOk, lp)
  else if colLowerA.isNone || colUpperA.isNone then (.kError, lp)
  else
    let lu := assessBoundsN opts.infiniteBound
      ((colLowerA.getD []).take numColBounds.toNat)
      ((colUpperA.getD []).take numColBounds.toNat)
    if lp.userBoundScale ≠ 0 &&
        !boundScaleOk lu.1 lu.2 lp.userBoundScale opts.infiniteBound then
      (.kError, lp)
    else
      let localLower := if lp.userBoundScale ≠ 0 then
        lu.1.map (XR.scaleBy (pow2 lp.userBoundScale)) else lu.1
      let localUpper := if lp.userBoundScale ≠ 0 then
        lu.2.map (XR.scaleBy (pow2 lp.userBoundScale)) else lu.2
      (.kOk, { lp with
        colLower := replaceFrom lp.colLower a.toNat localLower,
        colUpper := replaceFrom lp.colUpper a.toNat localUpper })

/-- Embedding of `Highs::changeRowBoundsInterface` for an interval
collection `[a, b]`. -/
def changeRowBoundsInterface (opts : HOptions) (lp : Lp) (a b : ℤ)
    (rowLowerA rowUpperA : Option (List XR)) : HStatus × Lp :=
  let numRowBounds := b - a + 1
  if numRowBounds ≤ 0 then (.kOk, lp)
  else if rowLowerA.isNone || rowUpperA.isNone then (.kError, lp)
  else
    let lu := assessBoundsN opts.infiniteBound
      ((rowLowerA.getD []).take numRowBounds.toNat)
      ((rowUpperA.getD []).take numRowBounds.toNat)
    if lp.userBoundScale ≠ 0 &&
        !boundScaleOk lu.1 lu.2 lp.userBoundScale opts.infiniteBound then
      (.kError, lp)
    else
      let localLower := if lp.userBoundScale ≠ 0 then
        lu.1.map (XR.scaleBy (pow2 lp.userBoundScale)) else lu.1
      let localUpper := if lp.userBoundScale ≠ 0 then
        lu.2.map (XR.scaleBy (pow2 lp.userBoundScale)) else lu.2
      (.kOk, { lp with
        rowLower := replaceFrom lp.rowLower a.toNat localLower,
        rowUpper := replaceFrom lp.rowUpper a.toNat localUpper })

/-- Embedding of `Highs::changeIntegralityInterface` for an interval
collection `[a, b]`.  `changeLpIntegrality` overwrites the tracked kinds;
it is never invoked here on a model without a tracked integrality
vector. -/
def changeIntegralityInterface (lp : Lp) (a b : ℤ)
    (integrality : Option (List VarType)) : HStatus × Lp :=
  let numIntegrality := b - a + 1
  if numIntegrality ≤ 0 then (.kOk, lp)
  else if integrality.isNone then (.kError, lp)
  else
    let data := (integrality.getD []).take numIntegrality.toNat
    (.kOk, { lp with integrality := replaceFrom lp.integrality a.toNat data })

/-- Embedding of the `Lp` effect of `Highs::deleteColsInterface` for an
interval collection `[a, b]`: the column vectors lose the interval (an
empty interval deletes nothing). -/
def deleteColsInterface (lp : Lp) (a b : ℤ) : Lp :=
  if b < a then lp
  else { lp with
    colCost := deleteInterval lp.colCost a.toNat b.toNat,
    colLower := deleteInterval lp.colLower a.toNat b.toNat,
    colUpper := deleteInterval lp.colUpper a.toNat b.toNat,
    integrality := deleteInterval lp.integrality a.toNat b.toNat }

/-- Embedding of the `Lp` effect of `Highs::deleteRowsInterface` for an
interval collection `[a, b]`. -/
def deleteRowsInterface (lp : Lp) (a b : ℤ) : Lp :=
  if b < a then lp
  else { lp with
    rowLower := deleteInterval lp.rowLower a.toNat b.toNat,
    rowUpper := deleteInterval lp.rowUpper a.toNat b.toNat }

/-! ### User scale changes through the option system -/

/-- Modelled from the spec: `HighsLp::userBoundScaleOk` checks that
scaling all finite bounds by the change of exponent keeps them below the
infinite-bound threshold. -/
def lpUserBoundScaleOk (lp : Lp) (newScale : ℤ) (ib : ℚ) : Bool :=
  boundScaleOk lp.colLower lp.colUpper (newScale - lp.userBoundScale) ib &&
    boundScaleOk lp.rowLower lp.rowUpper (newScale - lp.userBoundScale) ib

/-- Modelled from the spec: `HighsLp::userBoundScale` multiplies all
bounds by two to the change of exponent and records the new exponent. -/
def lpApplyUserBoundScale (lp : Lp) (newScale : ℤ) : Lp :=
  let s := pow2 (newScale - lp.userBoundScale)
  { lp with
    colLower := lp.colLower.map (XR.scaleBy s),
    colUpper := lp.colUpper.map (XR.scaleBy s),
    rowLower := lp.rowLower.map (XR.scaleBy s),
    rowUpper := lp.rowUpper.map (XR.scaleBy s),
    userBoundScale := newScale }

/-- Modelled from the spec: `HighsModel::userCostScaleOk` checks the costs
against the infinite-cost threshold under the change of exponent (its
matrix-value arguments concern the Hessian of a QP, which is not part of
this state). -/
def modelUserCostScaleOk (lp : Lp) (newScale : ℤ) (ic : ℚ) : Bool :=
  costScaleOk lp.colCost (newScale - lp.userCostScale) ic

/-- Modelled from the spec: `HighsModel::userCostScale` multiplies the
costs by two to the change of exponent and records the new exponent. -/
def lpApplyUserCostScale (lp : Lp) (newScale : ℤ) : Lp :=
  { lp with
    colCost := lp.colCost.map (XR.scaleBy (pow2 (newScale - lp.userCostScale))),
    userCostScale := newScale }

/-- The two option values that `optionChangeAction` compares against the
exponents stored in the LP. -/
structure OptionScales where
  userBoundScaleOpt : ℤ
  userCostScaleOpt : ℤ
  deriving DecidableEq, Repr

/-- Embedding of the user-scaling part of `Highs::optionChangeAction`
(lines 3007-3162): an infeasible new bound (cost) scale is refused, the
option is reverted to the exponent stored in the LP and the call returns
an error; otherwise the scaling is applied to the LP.  The rescaling of
`info_` and of the solution values on the success path concerns state
outside the `Lp` record. -/
def optionChangeAction (opts : HOptions) (optScales : OptionScales) (lp : Lp) :
    HStatus × OptionScales × Lp :=
  let changedB := optScales.userBoundScaleOpt ≠ lp.userBoundScale
  let okB := !changedB ||
    lpUserBoundScaleOk lp optScales.userBoundScaleOpt opts.infiniteBound
  let p1 :=
    if !okB then ({ optScales with userBoundScaleOpt := lp.userBoundScale }, lp)
    else if changedB then
      (optScales, lpApplyUserBoundScale lp optScales.userBoundScaleOpt)
    else (optScales, lp)
  let changedC := p1.1.userCostScaleOpt ≠ p1.2.userCostScale
  let okC := !changedC ||
    modelUserCostScaleOk p1.2 p1.1.userCostScaleOpt opts.infiniteCost
  let p2 :=
    if !okC then ({ p1.1 with userCostScaleOpt := p1.2.userCostScale }, p1.2)
    else if changedC then
      (p1.1, lpApplyUserCostScale p1.2 p1.1.userCostScaleOpt)
    else (p1.1, p1.2)
  (if !okB || !okC then .kError else .kOk, p2)

/-! ## Claim C9: input validation of addColsInterface and addRowsInterface -/

/-- An empty model used by concrete checks. -/
def lpEmpty : Lp :=
  ⟨[], [], [], [], [], [], ObjSense.kMinimize, 0, 0, false, []⟩

/-- Default-like options used by concrete checks. -/
def optsDefault : HOptions :=
  ⟨10 ^ 20, 10 ^ 20, 1 / 10 ^ 9, 10 ^ 15, 1 / 10 ^ 7⟩

/-- Counterexample to claim C9 as stated: a zero column count does not
always return Ok — with a negative nonzero count the call errors (the
negative-nonzero check precedes the zero-count early return); and a
positive nonzero count on a model with no rows does not always error —
with a zero column count the call returns Ok before the no-rows check is
reached. -/
theorem add_interface_counterexample :
    (addColsInterface optsDefault lpEmpty 0 none none none (-1) none none none).1 =
      HStatus.kError ∧
    HStatus.kError ≠ HStatus.kOk ∧
    addColsInterface optsDefault lpEmpty 0 none none none 5 none none none =
      (.kOk, lpEmpty) ∧
    lpEmpty.numRow = 0 := by
  refine ⟨by decide, by decide, by decide, by decide⟩

/-- Claim C9, amended: for `addColsInterface` (`addRowsInterface`), the
checks apply in source order — a negative count of new columns (rows) or
of new nonzeros errors; otherwise a zero count returns Ok with the model
unchanged (even with null pointers or a positive nonzero count); for a
positive count, a null cost/bound (bound) pointer errors; a positive
nonzero count with a null matrix pointer errors; and a positive nonzero
count while the model has no rows (columns) errors — all before any model
data are modified. -/
theorem add_interface_claim (opts : HOptions) (lp : Lp) (count nz : ℤ)
    (cost lower upper : Option (List XR)) (ast aidx : Option (List ℤ))
    (aval : Option (List XR)) :
    (count = 0 → 0 ≤ nz →
      addColsInterface opts lp count cost lower upper nz ast aidx aval =
        (.kOk, lp) ∧
      addRowsInterface opts lp count lower upper nz ast aidx aval =
        (.kOk, lp)) ∧
    (count < 0 ∨ nz < 0 →
      addColsInterface opts lp count cost lower upper nz ast aidx aval =
        (.kError, lp) ∧
      addRowsInterface opts lp count lower upper nz ast aidx aval =
        (.kError, lp)) ∧
    (0 < count → (cost.isNone ∨ lower.isNone ∨ upper.isNone) →
      addColsInterface opts lp count cost lower upper nz ast aidx aval =
        (.kError, lp)) ∧
    (0 < count → (lower.isNone ∨ upper.isNone) →
      addRowsInterface opts lp count lower upper nz ast aidx aval =
        (.kError, lp)) ∧
    (0 < count → 0 < nz → (ast.isNone ∨ aidx.isNone ∨ aval.isNone) →
      addColsInterface opts lp count cost lower upper nz ast aidx aval =
        (.kError, lp) ∧
      addRowsInterface opts lp count lower upper nz ast aidx aval =
        (.kError, lp)) ∧
    (0 < count → 0 < nz → lp.numRow = 0 →
      addColsInterface opts lp count cost lower upper nz ast aidx aval =
        (.kError, lp)) ∧
    (0 < count → 0 < nz → lp.numCol = 0 →
      addRowsInterface opts lp count lower upper nz ast aidx aval =
        (.kError, lp)) := by
  refine ⟨?_, ?_, ?_, ?_, ?_, ?_, ?_⟩
  · intro h1 h2
    constructor <;>
      · simp only [addColsInterface, addRowsInterface]
        rw [if_neg (by omega), if_neg (by omega), if_pos h1]
  · rintro (h | h)
    · constructor <;>
        · simp only [addColsInterface, addRowsInterface]
          rw [if_pos h]
    · constructor <;>
        · simp only [addColsInterface, addRowsInterface]
          rcases lt_or_ge count 0 with hc | hc
          · rw [if_pos hc]
          · rw [if_neg (by omega), if_pos h]
  · intro h1 h2
    simp only [addColsInterface]
    rcases lt_or_ge nz 0 with hn | hn
    · rw [if_neg (by omega), if_pos hn]
    · rw [if_neg (by omega), if_neg (by omega), if_neg (by omega),
        if_pos (by simpa [Option.isNone_iff_eq_none, Option.eq_none_iff_forall_not_mem] using
          (by rcases h2 with h | h | h <;> simp [Option.isNone_iff_eq_none] at h <;>
            simp [h] : (cost.isNone || lower.isNone || upper.isNone) = true))]
  · intro h1 h2
    simp only [addRowsInterface]
    rcases lt_or_ge nz 0 with hn | hn
    · rw [if_neg (by omega), if_pos hn]
    · rw [if_neg (by omega), if_neg (by omega), if_neg (by omega),
        if_pos (by rcases h2 with h | h <;> simp [Option.isNone_iff_eq_none] at h <;>
          simp [h] : (lower.isNone || upper.isNone) = true)]
  · intro h1 h2 h3
    have hm : (ast.isNone || aidx.isNone || aval.isNone) = true := by
      rcases h3 with h | h | h <;> simp [Option.isNone_iff_eq_none] at h <;> simp [h]
    constructor
    · simp only [addColsInterface]
      by_cases hnull : (cost.isNone || lower.isNone || upper.isNone) = true
      · rw [if_neg (by omega), if_neg (by omega), if_neg (by omega), if_pos hnull]
      · rw [if_neg (by omega), if_neg (by omega), if_neg (by omega),
          if_neg hnull, if_pos (by simp [h2, hm])]
    · simp only [addRowsInterface]
      by_cases hnull : (lower.isNone || upper.isNone) = true
      · rw [if_neg (by omega), if_neg (by omega), if_neg (by omega), if_pos hnull]
      · rw [if_neg (by omega), if_neg (by omega), if_neg (by omega),
          if_neg hnull, if_pos (by simp [h2, hm])]
  · intro h1 h2 h3
    simp only [addColsInterface]
    by_cases hnull : (cost.isNone || lower.isNone || upper.isNone) = true
    · rw [if_neg (by omega), if_neg (by omega), if_neg (by omega), if_pos hnull]
    · by_cases hmat : (ast.isNone || aidx.isNone || aval.isNone) = true
      · rw [if_neg (by omega), if_neg (by omega), if_neg (by omega),
          if_neg hnull, if_pos (by simp [h2, hmat])]
      · rw [if_neg (by omega), if_neg (by omega), if_neg (by omega),
          if_neg hnull, if_neg (by simp [hmat]), if_pos (by simp [h2, h3])]
  · intro h1 h2 h3
    simp only [addRowsInterface]
    by_cases hnull : (lower.isNone || upper.isNone) = true
    · rw [if_neg (by omega), if_neg (by omega), if_neg (by omega), if_pos hnull]
    · by_cases hmat : (ast.isNone || aidx.isNone || aval.isNone) = true
      · rw [if_neg (by omega), if_neg (by omega), if_neg (by omega),
          if_neg hnull, if_pos (by simp [h2, hmat])]
      · rw [if_neg (by omega), if_neg (by omega), if_neg (by omega),
          if_neg hnull, if_neg (by simp [hmat]), if_pos (by simp [h2, h3])]

/-- Witness for the amended claim C9: adding zero columns with zero
nonzeros to the empty model returns Ok unchanged, and adding one column
with null data errors unchanged. -/
theorem add_interface_claim_witness :
    ((0 : ℤ) = 0 ∧ (0 : ℤ) ≤ 0 ∧
      addColsInterface optsDefault lpEmpty 0 none none none 0 none none none =
        (.kOk, lpEmpty)) ∧
    ((0 : ℤ) < 1 ∧
      addColsInterface optsDefault lpEmpty 1 none none none 0 none none none =
        (.kError, lpEmpty)) :=
  ⟨⟨rfl, le_refl 0,
      ((add_interface_claim optsDefault lpEmpty 0 0 none none none none none
        none).1 rfl (le_refl 0)).1⟩,
    ⟨by norm_num,
      (add_interface_claim optsDefault lpEmpty 1 0 none none none none none
        none).2.2.1 (by norm_num) (Or.inl rfl)⟩⟩

/-! ## Claim C5: user scaling never overflows the infinite thresholds -/

/-- Claim C5: under a nonzero user bound- or cost-scale exponent, an API
call (`addCols`, `addRows`, `changeCosts`, `changeColBounds`,
`changeRowBounds`) whose scaled data would reach the infinite-bound or
infinite-cost threshold returns an error with the LP unchanged; and a
change of the user scale exponent option that would overflow is refused by
`optionChangeAction`: the call errors, the option is reverted to the
exponent stored in the LP, and the corresponding LP data are unchanged.
The overflow tests apply to the normalized (assessed) local copies, as in
the source. -/
theorem user_scale_rollback_claim (opts : HOptions) (lp : Lp)
    (optScales : OptionScales) (count nz a b : ℤ)
    (cost lower upper : Option (List XR)) (ast aidx : Option (List ℤ))
    (aval : Option (List XR)) :
    (0 < count → 0 ≤ nz →
      (0 < nz → ast.isNone = false ∧ aidx.isNone = false ∧
        aval.isNone = false ∧ 0 < lp.numRow) →
      cost.isNone = false → lower.isNone = false → upper.isNone = false →
      lp.userBoundScale ≠ 0 →
      boundScaleOk
        (assessBoundsN opts.infiniteBound ((lower.getD []).take count.toNat)
          ((upper.getD []).take count.toNat)).1
        (assessBoundsN opts.infiniteBound ((lower.getD []).take count.toNat)
          ((upper.getD []).take count.toNat)).2
        lp.userBoundScale opts.infiniteBound = false →
      addColsInterface opts lp count cost lower upper nz ast aidx aval =
        (.kError, lp)) ∧
    (0 < count → 0 ≤ nz →
      (0 < nz → ast.isNone = false ∧ aidx.isNone = false ∧
        aval.isNone = false ∧ 0 < lp.numRow) →
      cost.isNone = false → lower.isNone = false → upper.isNone = false →
      lp.userCostScale ≠ 0 →
      costScaleOk ((cost.getD []).take count.toNat) lp.userCostScale
        opts.infiniteCost = false →
      addColsInterface opts lp count cost lower upper nz ast aidx aval =
        (.kError, lp)) ∧
    (0 < count → 0 ≤ nz →
      (0 < nz → ast.isNone = false ∧ aidx.isNone = false ∧
        aval.isNone = false ∧ 0 < lp.numCol) →
      lower.isNone = false → upper.isNone = false →
      lp.userBoundScale ≠ 0 →
      boundScaleOk
        (assessBoundsN opts.infiniteBound ((lower.getD []).take count.toNat)
          ((upper.getD []).take count.toNat)).1
        (assessBoundsN opts.infiniteBound ((lower.getD []).take count.toNat)
          ((upper.getD []).take count.toNat)).2
        lp.userBoundScale opts.infiniteBound = false →
      addRowsInterface opts lp count lower upper nz ast aidx aval =
        (.kError, lp)) ∧
    (0 < b - a + 1 → cost.isNone = false →
      lp.userCostScale ≠ 0 →
      costScaleOk ((cost.getD []).take (b - a + 1).toNat) lp.userCostScale
        opts.infiniteCost = false →
      changeCostsInterface opts lp a b cost = (.kError, lp)) ∧
    (0 < b - a + 1 → lower.isNone = false → upper.isNone = false →
      lp.userBoundScale ≠ 0 →
      boundScaleOk
        (assessBoundsN opts.infiniteBound ((lower.getD []).take (b - a + 1).toNat)
          ((upper.getD []).take (b - a + 1).toNat)).1
        (assessBoundsN opts.infiniteBound ((lower.getD []).take (b - a + 1).toNat)
          ((upper.getD []).take (b - a + 1).toNat)).2
        lp.userBoundScale opts.infiniteBound = false →
      changeColBoundsInterface opts lp a b lower upper = (.kError, lp) ∧
      changeRowBoundsInterface opts lp a b lower upper = (.kError, lp)) ∧
    (optScales.userBoundScaleOpt ≠ lp.userBoundScale →
      lpUserBoundScaleOk lp optScales.userBoundScaleOpt opts.infiniteBound = false →
      (optionChangeAction opts optScales lp).1 = .kError ∧
      (optionChangeAction opts optScales lp).2.1.userBoundScaleOpt =
        lp.userBoundScale ∧
      (optionChangeAction opts optScales lp).2.2.colLower = lp.colLower ∧
      (optionChangeAction opts optScales lp).2.2.colUpper = lp.colUpper ∧
      (optionChangeAction opts optScales lp).2.2.rowLower = lp.rowLower ∧
      (optionChangeAction opts optScales lp).2.2.rowUpper = lp.rowUpper ∧
      (optionChangeAction opts optScales lp).2.2.userBoundScale =
        lp.userBoundScale) ∧
    (optScales.userCostScaleOpt ≠ lp.userCostScale →
      modelUserCostScaleOk lp optScales.userCostScaleOpt opts.infiniteCost = false →
      (optionChangeAction opts optScales lp).1 = .kError ∧
      (optionChangeAction opts optScales lp).2.1.userCostScaleOpt =
        lp.userCostScale ∧
      (optionChangeAction opts optScales lp).2.2.colCost = lp.colCost ∧
      (optionChangeAction opts optScales lp).2.2.userCostScale =
        lp.userCostScale) := by
  refine ⟨?_, ?_, ?_, ?_, ?_, ?_, ?_⟩
  · intro hcount hnz0 hmat hc hl hu hbs hfail
    simp only [addColsInterface]
    rw [if_neg (by omega), if_neg (by omega), if_neg (by omega),
      if_neg (by simp [hc, hl, hu])]
    by_cases hnz : 0 < nz
    · obtain ⟨h1, h2, h3, h4⟩ := hmat hnz
      rw [if_neg (by simp [h1, h2, h3]), if_neg (by simp; omega),
        if_pos (by simp [hbs, hfail])]
    · have hz : nz = 0 := by omega
      subst hz
      rw [if_neg (by simp), if_neg (by simp), if_pos (by simp [hbs, hfail])]
  · intro hcount hnz0 hmat hc hl hu hcs hfail
    simp only [addColsInterface]
    rw [if_neg (by omega), if_neg (by omega), if_neg (by omega),
      if_neg (by simp [hc, hl, hu])]
    have htail : ∀ g : Bool,
        (if (lp.userBoundScale ≠ 0 && !g) = true then ((HStatus.kError, lp) : HStatus × Lp)
          else if (lp.userCostScale ≠ 0 &&
              !costScaleOk ((cost.getD []).take count.toNat) lp.userCostScale
                opts.infiniteCost) = true then (HStatus.kError, lp)
          else (HStatus.kError, lp)) = (HStatus.kError, lp) := by
      intro g
      split <;> [rfl; split <;> rfl]
    by_cases hnz : 0 < nz
    · obtain ⟨h1, h2, h3, h4⟩ := hmat hnz
      rw [if_neg (by simp [h1, h2, h3]), if_neg (by simp; omega)]
      by_cases hb : (lp.userBoundScale ≠ 0 &&
          !boundScaleOk
            (assessBoundsN opts.infiniteBound ((lower.getD []).take count.toNat)
              ((upper.getD []).take count.toNat)).1
            (assessBoundsN opts.infiniteBound ((lower.getD []).take count.toNat)
              ((upper.getD []).take count.toNat)).2
            lp.userBoundScale opts.infiniteBound) = true
      · rw [if_pos hb]
      · rw [if_neg hb, if_pos (by simp [hcs, hfail])]
    · have hz : nz = 0 := by omega
      subst hz
      rw [if_neg (by simp), if_neg (by simp)]
      by_cases hb : (lp.userBoundScale ≠ 0 &&
          !boundScaleOk
            (assessBoundsN opts.infiniteBound ((lower.getD []).take count.toNat)
              ((upper.getD []).take count.toNat)).1
            (assessBoundsN opts.infiniteBound ((lower.getD []).take count.toNat)
              ((upper.getD []).take count.toNat)).2
            lp.userBoundScale opts.infiniteBound) = true
      · rw [if_pos hb]
      · rw [if_neg hb, if_pos (by simp [hcs, hfail])]
  · intro hcount hnz0 hmat hl hu hbs hfail
    simp only [addRowsInterface]
    rw [if_neg (by omega), if_neg (by omega), if_neg (by omega),
      if_neg (by simp [hl, hu])]
    by_cases hnz : 0 < nz
    · obtain ⟨h1, h2, h3, h4⟩ := hmat hnz
      rw [if_neg (by simp [h1, h2, h3]), if_neg (by simp; omega),
        if_pos (by simp [hbs, hfail])]
    · have hz : nz = 0 := by omega
      subst hz
      rw [if_neg (by simp), if_neg (by simp), if_pos (by simp [hbs, hfail])]
  · intro hn hc hcs hfail
    simp only [changeCostsInterface]
    rw [if_neg (by omega), if_neg (by simp [hc]), if_pos (by simp [hcs, hfail])]
  · intro hn hl hu hbs hfail
    constructor
    · simp only [changeColBoundsInterface]
      rw [if_neg (by omega), if_neg (by simp [hl, hu]),
        if_pos (by simp [hbs, hfail])]
    · simp only [changeRowBoundsInterface]
      rw [if_neg (by omega), if_neg (by simp [hl, hu]),
        if_pos (by simp [hbs, hfail])]
  · intro hch hfail
    simp only [optionChangeAction]
    split_ifs <;>
      simp_all [lpApplyUserBoundScale, lpApplyUserCostScale, modelUserCostScaleOk]
  · intro hch hfail
    simp only [optionChangeAction]
    split_ifs <;>
      simp_all [lpApplyUserBoundScale, lpApplyUserCostScale, modelUserCostScaleOk]

/-- Concrete LP for the claim C5 witness: one column whose upper bound
and cost are one tenth of the infinite thresholds, stored cost-scale
exponent 1. -/
def lpScaleWitness : Lp :=
  ⟨[XR.fin (10 ^ 19)], [XR.fin 0], [XR.fin (10 ^ 19)], [], [], [],
    ObjSense.kMinimize, 0, 1, false, []⟩

/-- Witness for claim C5: on `lpScaleWitness`, changing the cost of
column 0 to six tenths of the infinite-cost threshold under cost-scale
exponent 1 is refused with the LP unchanged, and raising the user bound
scale option to 10 is refused by `optionChangeAction` with the option
reverted. -/
theorem user_scale_rollback_claim_witness :
    (changeCostsInterface optsDefault lpScaleWitness 0 0
        (some [XR.fin (6 * 10 ^ 19)]) = (.kError, lpScaleWitness)) ∧
    ((optionChangeAction optsDefault ⟨10, 1⟩ lpScaleWitness).1 = .kError ∧
      (optionChangeAction optsDefault ⟨10, 1⟩ lpScaleWitness).2.1.userBoundScaleOpt =
        lpScaleWitness.userBoundScale) :=
  ⟨(user_scale_rollback_claim optsDefault lpScaleWitness ⟨10, 1⟩ 0 0 0 0
      (some [XR.fin (6 * 10 ^ 19)]) none none none none none).2.2.2.1
      (by norm_num) (by decide) (by decide)
      (by norm_num [costScaleOk, scaledValueOk, pow2, lpScaleWitness,
        optsDefault]),
    ⟨((user_scale_rollback_claim optsDefault lpScaleWitness ⟨10, 1⟩ 0 0 0 0
        (some [XR.fin (6 * 10 ^ 19)]) none none none none none).2.2.2.2.2.1
        (by decide)
        (by norm_num [lpUserBoundScaleOk, boundScaleOk, scaledValueOk, pow2,
          lpScaleWitness, optsDefault])).1,
      ((user_scale_rollback_claim optsDefault lpScaleWitness ⟨10, 1⟩ 0 0 0 0
        (some [XR.fin (6 * 10 ^ 19)]) none none none none none).2.2.2.2.2.1
        (by decide)
        (by norm_num [lpUserBoundScaleOk, boundScaleOk, scaledValueOk, pow2,
          lpScaleWitness, optsDefault])).2.1⟩⟩

/-! ## Claim C2: handling and restoring of infinite-cost variables

Embedding of `Highs::handleInfCost` and `Highs::restoreInfCost` in
`src/highs/lp_data/HighsInterface.cpp` (lines 2878-3003).  `handleInfCost`
makes two passes over the columns — the first only checking, the second
fixing each infinite-cost variable at a bound (rounding the bounds inward
first for the integer columns of a MIP), saving the cost and the rounded
bounds in the modifications log and zeroing the cost.  `restoreInfCost`
writes the saved values back and turns an `Infeasible` model status into
`Unknown`.  `HighsLp::isMip` lives outside the sources; it is modelled
from the specification (§3: a model is mixed-integer when some column
carries a non-continuous kind), which coincides with the source's use here
since rounding additionally requires the column itself to be integer. -/

/-- Modelled from the spec: whether the model is a MIP. -/
def Lp.isMip (lp : Lp) : Bool :=
  lp.integrality.any (fun t => decide (t ≠ VarType.kContinuous))

/-- Whether the cost of column `i` counts as infinite
(`cost > -inf_cost && cost < inf_cost` fails). -/
def colIsInf (ic : ℚ) (lp : Lp) (i : ℕ) : Bool :=
  let cost := lp.colCost.getD i (XR.fin 0)
  !((XR.fin (-ic)).blt cost && cost.blt (XR.fin ic))

/-- Whether the bounds of column `i` are rounded inward: the model is a
MIP and the column is integer. -/
def colRounds (lp : Lp) (i : ℕ) : Bool :=
  lp.isMip && decide (lp.integrality.getD i VarType.kContinuous = VarType.kInteger)

/-- The working lower bound of column `i` in `handleInfCost`. -/
def roundedLower (lp : Lp) (i : ℕ) : XR :=
  if colRounds lp i then (lp.colLower.getD i (XR.fin 0)).ceilv
  else lp.colLower.getD i (XR.fin 0)

/-- The working upper bound of column `i` in `handleInfCost`. -/
def roundedUpper (lp : Lp) (i : ℕ) : XR :=
  if colRounds lp i then (lp.colUpper.getD i (XR.fin 0)).floorv
  else lp.colUpper.getD i (XR.fin 0)

/-- The record that `handleInfCost` saves for an infinite-cost column:
its index, its cost, and its rounded bounds. -/
def hicRecord (lp : Lp) (i : ℕ) : ℕ × XR × XR × XR :=
  (i, lp.colCost.getD i (XR.fin 0), roundedLower lp i, roundedUpper lp i)

/-- The lower bound that column `i` holds after the fixing pass. -/
def hicFixedLower (ic : ℚ) (lp : Lp) (i : ℕ) : XR :=
  if (lp.colCost.getD i (XR.fin 0)).ble (XR.fin (-ic)) then
    (if lp.sense = ObjSense.kMinimize then roundedUpper lp i
      else lp.colLower.getD i (XR.fin 0))
  else
    (if lp.sense = ObjSense.kMinimize then lp.colLower.getD i (XR.fin 0)
      else roundedUpper lp i)

/-- The upper bound that column `i` holds after the fixing pass. -/
def hicFixedUpper (ic : ℚ) (lp : Lp) (i : ℕ) : XR :=
  if (lp.colCost.getD i (XR.fin 0)).ble (XR.fin (-ic)) then
    (if lp.sense = ObjSense.kMinimize then lp.colUpper.getD i (XR.fin 0)
      else roundedLower lp i)
  else
    (if lp.sense = ObjSense.kMinimize then roundedLower lp i
      else lp.colUpper.getD i (XR.fin 0))

/-- One column of one pass of `Highs::handleInfCost`: skip a finite-cost
column; otherwise try to fix the variable at the bound dictated by the
cost sign and the objective sense, failing when that bound is infinite;
in the fixing pass (`k = true`) record the modification and zero the
cost. -/
def hicColStep (ic : ℚ) (k : Bool) (lp : Lp) (i : ℕ) : HStatus × Lp :=
  let cost := lp.colCost.getD i (XR.fin 0)
  if (XR.fin (-ic)).blt cost && cost.blt (XR.fin ic) then (.kOk, lp)
  else
    let lower := roundedLower lp i
    let upper := roundedUpper lp i
    let fixRes : HStatus × Lp :=
      if cost.ble (XR.fin (-ic)) then
        if lp.sense = ObjSense.kMinimize then
          if upper.blt kHighsInf then
            (.kOk, if k then { lp with colLower := lp.colLower.set i upper } else lp)
          else (.kError, lp)
        else
          if XR.negInf.blt lower then
            (.kOk, if k then { lp with colUpper := lp.colUpper.set i lower } else lp)
          else (.kError, lp)
      else
        if lp.sense = ObjSense.kMinimize then
          if XR.negInf.blt lower then
            (.kOk, if k then { lp with colUpper := lp.colUpper.set i lower } else lp)
          else (.kError, lp)
        else
          if upper.blt kHighsInf then
            (.kOk, if k then { lp with colLower := lp.colLower.set i upper } else lp)
          else (.kError, lp)
    if fixRes.1 = .kError then fixRes
    else if k then
      (.kOk, { fixRes.2 with
        mods := fixRes.2.mods ++ [hicRecord lp i],
        colCost := fixRes.2.colCost.set i (XR.fin 0) })
    else fixRes

/-- One pass of `Highs::handleInfCost` over the listed columns, aborting
on the first error. -/
def handleInfCostPass (ic : ℚ) (k : Bool) : Lp → List ℕ → HStatus × Lp
  | lp, [] => (.kOk, lp)
  | lp, i :: rest =>
    let r := hicColStep ic k lp i
    if r.1 = .kError then r
    else handleInfCostPass ic k r.2 rest

/-- Embedding of `Highs::handleInfCost`: nothing to do without infinite
costs; otherwise a checking pass followed by a fixing pass, after which
the infinite-cost flag is cleared. -/
def handleInfCost (ic : ℚ) (lp : Lp) : HStatus × Lp :=
  if !lp.hasInfiniteCost then (.kOk, lp)
  else
    let r0 := handleInfCostPass ic false lp (List.range lp.numCol)
    if r0.1 = .kError then r0
    else
      let r1 := handleInfCostPass ic true r0.2 (List.range r0.2.numCol)
      if r1.1 = .kError then r1
      else (.kOk, { r1.2 with hasInfiniteCost := false })

/-- Restoration of one saved record: set the basis status of the column
from the side its fixed bound came from (when the basis is valid), then
write the saved cost and bounds back. -/
def restoreOneRecord (p : Lp × HBasis) (rec : ℕ × XR × XR × XR) : Lp × HBasis :=
  let lp := p.1
  let b := p.2
  let i := rec.1
  let newStatus := if lp.colLower.getD i (XR.fin 0) = rec.2.2.1 then
    BStatus.kLower else BStatus.kUpper
  let b1 := if b.valid then
    { b with col_status := b.col_status.set i newStatus } else b
  ({ lp with
      colCost := lp.colCost.set i rec.2.1,
      colLower := lp.colLower.set i rec.2.2.1,
      colUpper := lp.colUpper.set i rec.2.2.2 }, b1)

/-- Embedding of `Highs::restoreInfCost` (the objective-value adjustment
and the solution clearing of `setHighsModelStatusAndClearSolutionAndBasis`
concern state outside this record; the basis invalidation it performs is
kept).  Returns the restored LP and basis and the new model status. -/
def restoreInfCost (lp : Lp) (basis : HBasis) (modelStatus : MStatus) :
    Lp × HBasis × MStatus :=
  if lp.mods.length = 0 then (lp, basis, modelStatus)
  else
    let p := lp.mods.foldl restoreOneRecord (lp, basis)
    let lp1 := { p.1 with hasInfiniteCost := true }
    if modelStatus = MStatus.kInfeasible then
      (lp1, { p.2 with valid := false }, MStatus.kUnknown)
    else (lp1, p.2, modelStatus)

/-- The rational one half, in normalized raw form so that the kernel can
evaluate with it. -/
def qHalf : ℚ := ⟨1, 2, by norm_num, by norm_num⟩

/-- The rational five halves, in normalized raw form. -/
def qFiveHalves : ℚ := ⟨5, 2, by norm_num, by norm_num⟩

/-- Ten to the twenty-first, in normalized raw form. -/
def qBigCost : ℚ := ⟨1000000000000000000000, 1, by norm_num, by norm_num⟩

/-- The default infinite-cost threshold, ten to the twentieth, in
normalized raw form. -/
def qInfCost : ℚ := ⟨100000000000000000000, 1, by norm_num, by norm_num⟩

/-- A one-column MIP with an infinite cost and fractional bounds on its
integer column. -/
def lpInfCostMip : Lp :=
  ⟨[XR.fin qBigCost], [XR.fin qHalf], [XR.fin qFiveHalves], [VarType.kInteger],
    [], [], ObjSense.kMinimize, 0, 0, true, []⟩

/-- Counterexample to claim C2 as stated: on `lpInfCostMip` (minimization,
cost `10^21` at or beyond the infinite-cost threshold `10^20`, integer
column with bounds `[1/2, 5/2]`), `handleInfCost` succeeds, but after
`restoreInfCost` the column bounds are `[1, 2]` — the inward-rounded
values saved in the modifications log — not the original `[1/2, 5/2]`. -/
theorem inf_cost_counterexample :
    (handleInfCost qInfCost lpInfCostMip).1 = .kOk ∧
    (restoreInfCost (handleInfCost qInfCost lpInfCostMip).2
        ⟨[BStatus.kLower], [], false, false, false, false⟩
        MStatus.kOptimal).1.colLower ≠ lpInfCostMip.colLower ∧
    (restoreInfCost (handleInfCost qInfCost lpInfCostMip).2
        ⟨[BStatus.kLower], [], false, false, false, false⟩
        MStatus.kOptimal).1.colLower = [XR.fin 1] ∧
    (restoreInfCost (handleInfCost qInfCost lpInfCostMip).2
        ⟨[BStatus.kLower], [], false, false, false, false⟩
        MStatus.kOptimal).1.colUpper = [XR.fin 2] ∧
    lpInfCostMip.colLower = [XR.fin qHalf] ∧
    lpInfCostMip.colUpper = [XR.fin qFiveHalves] := by
  refine ⟨by decide, by decide, by decide, by decide, by decide, by decide⟩

theorem getD_set_self {α : Type} (xs : List α) (i : ℕ) (h : i < xs.length)
    (v d : α) : (xs.set i v).getD i d = v := by
  induction xs generalizing i with
  | nil => simp at h
  | cons x xs ih =>
    cases i with
    | zero => simp [List.getD]
    | succ n =>
      simp only [List.set_cons_succ, List.getD_cons_succ]
      exact ih n (by simpa using h)

theorem getD_set_ne {α : Type} (xs : List α) (i j : ℕ) (h : j ≠ i)
    (v d : α) : (xs.set i v).getD j d = xs.getD j d := by
  induction xs generalizing i j with
  | nil => simp [List.set]
  | cons x xs ih =>
    cases i with
    | zero =>
      cases j with
      | zero => omega
      | succ m => simp [List.getD]
    | succ n =>
      cases j with
      | zero => simp [List.getD]
      | succ m =>
        simp only [List.set_cons_succ, List.getD_cons_succ]
        exact ih n m (by omega)

theorem hicColStep_false_snd (ic : ℚ) (lp : Lp) (i : ℕ) :
    (hicColStep ic false lp i).2 = lp := by
  simp only [hicColStep, Bool.false_eq_true, reduceIte]
  split_ifs <;> rfl

theorem handleInfCostPass_false_snd (ic : ℚ) (idxs : List ℕ) (lp : Lp) :
    (handleInfCostPass ic false lp idxs).2 = lp := by
  induction idxs generalizing lp with
  | nil => rfl
  | cons i rest ih =>
    simp only [handleInfCostPass]
    split_ifs with h
    · exact hicColStep_false_snd ic lp i
    · rw [hicColStep_false_snd ic lp i] at *
      exact ih lp

theorem hicColStep_notinf (ic : ℚ) (k : Bool) (lp : Lp) (i : ℕ)
    (h : colIsInf ic lp i = false) : hicColStep ic k lp i = (.kOk, lp) := by
  have hc : ((XR.fin (-ic)).blt (lp.colCost.getD i (XR.fin 0)) &&
      (lp.colCost.getD i (XR.fin 0)).blt (XR.fin ic)) = true := by
    simpa [colIsInf] using h
  simp only [hicColStep]
  rw [if_pos hc]

/-- Whether the bound at which an infinite-cost column would be fixed is
finite, so that the fixing can proceed. -/
def hicFixable (ic : ℚ) (lp : Lp) (i : ℕ) : Bool :=
  if (lp.colCost.getD i (XR.fin 0)).ble (XR.fin (-ic)) then
    (if lp.sense = ObjSense.kMinimize then (roundedUpper lp i).blt kHighsInf
      else XR.negInf.blt (roundedLower lp i))
  else
    (if lp.sense = ObjSense.kMinimize then XR.negInf.blt (roundedLower lp i)
      else (roundedUpper lp i).blt kHighsInf)

theorem hicColStep_inf_fail (ic : ℚ) (k : Bool) (lp : Lp) (i : ℕ)
    (h : colIsInf ic lp i = true) (hf : hicFixable ic lp i = false) :
    hicColStep ic k lp i = (.kError, lp) := by
  have hc : ((XR.fin (-ic)).blt (lp.colCost.getD i (XR.fin 0)) &&
      (lp.colCost.getD i (XR.fin 0)).blt (XR.fin ic)) = false := by
    have := h
    simp only [colIsInf, Bool.not_eq_true'] at this
    exact this
  simp only [hicColStep]
  rw [if_neg (by rw [hc]; exact Bool.false_ne_true)]
  simp only [hicFixable] at hf
  split_ifs at hf ⊢ <;> simp_all

/-- The state of the LP after the fixing pass handles infinite-cost
column `i`. -/
def hicApply (ic : ℚ) (lp : Lp) (i : ℕ) : Lp :=
  let lpb :=
    if (lp.colCost.getD i (XR.fin 0)).ble (XR.fin (-ic)) then
      if lp.sense = ObjSense.kMinimize then
        { lp with colLower := lp.colLower.set i (roundedUpper lp i) }
      else
        { lp with colUpper := lp.colUpper.set i (roundedLower lp i) }
    else
      if lp.sense = ObjSense.kMinimize then
        { lp with colUpper := lp.colUpper.set i (roundedLower lp i) }
      else
        { lp with colLower := lp.colLower.set i (roundedUpper lp i) }
  { lpb with
    mods := lpb.mods ++ [hicRecord lp i],
    colCost := lpb.colCost.set i (XR.fin 0) }

theorem hicColStep_inf_ok (ic : ℚ) (lp : Lp) (i : ℕ)
    (h : colIsInf ic lp i = true) (hf : hicFixable ic lp i = true) :
    hicColStep ic true lp i = (.kOk, hicApply ic lp i) := by
  have hc : ((XR.fin (-ic)).blt (lp.colCost.getD i (XR.fin 0)) &&
      (lp.colCost.getD i (XR.fin 0)).blt (XR.fin ic)) = false := by
    have := h
    simp only [colIsInf, Bool.not_eq_true'] at this
    exact this
  simp only [hicColStep, hicApply]
  rw [if_neg (by rw [hc]; exact Bool.false_ne_true)]
  simp only [hicFixable] at hf
  split_ifs at hf ⊢ <;> simp_all

/-- The data that the per-column processing reads, shared between an LP
and its update at one other column. -/
def SameExceptCol (lp lp2 : Lp) (i : ℕ) : Prop :=
  lp2.integrality = lp.integrality ∧ lp2.sense = lp.sense ∧
  lp2.colCost.length = lp.colCost.length ∧
  lp2.colLower.length = lp.colLower.length ∧
  lp2.colUpper.length = lp.colUpper.length ∧
  ∀ j, j ≠ i →
    lp2.colCost.getD j (XR.fin 0) = lp.colCost.getD j (XR.fin 0) ∧
    lp2.colLower.getD j (XR.fin 0) = lp.colLower.getD j (XR.fin 0) ∧
    lp2.colUpper.getD j (XR.fin 0) = lp.colUpper.getD j (XR.fin 0)

theorem hic_congr (ic : ℚ) (lp lp2 : Lp) (i : ℕ) (h : SameExceptCol lp lp2 i)
    (j : ℕ) (hj : j ≠ i) :
    colIsInf ic lp2 j = colIsInf ic lp j ∧
    hicRecord lp2 j = hicRecord lp j ∧
    hicFixedLower ic lp2 j = hicFixedLower ic lp j ∧
    hicFixedUpper ic lp2 j = hicFixedUpper ic lp j ∧
    hicFixable ic lp2 j = hicFixable ic lp j := by
  obtain ⟨hint, hsen, _, _, _, hcols⟩ := h
  obtain ⟨hc, hl, hu⟩ := hcols j hj
  have hr : colRounds lp2 j = colRounds lp j := by
    unfold colRounds Lp.isMip
    rw [hint]
  have hrl : roundedLower lp2 j = roundedLower lp j := by
    unfold roundedLower
    rw [hr, hl]
  have hru : roundedUpper lp2 j = roundedUpper lp j := by
    unfold roundedUpper
    rw [hr, hu]
  refine ⟨?_, ?_, ?_, ?_, ?_⟩
  · unfold colIsInf
    rw [hc]
  · unfold hicRecord
    rw [hc, hrl, hru]
  · unfold hicFixedLower
    rw [hc, hsen, hru, hl]
  · unfold hicFixedUpper
    rw [hc, hsen, hrl, hu]
  · unfold hicFixable
    rw [hc, hsen, hrl, hru]

theorem hicApply_spec (ic : ℚ) (lp : Lp) (i : ℕ)
    (hc : i < lp.colCost.length) (hl : i < lp.colLower.length)
    (hu : i < lp.colUpper.length) :
    SameExceptCol lp (hicApply ic lp i) i ∧
    (hicApply ic lp i).rowLower = lp.rowLower ∧
    (hicApply ic lp i).rowUpper = lp.rowUpper ∧
    (hicApply ic lp i).userBoundScale = lp.userBoundScale ∧
    (hicApply ic lp i).userCostScale = lp.userCostScale ∧
    (hicApply ic lp i).hasInfiniteCost = lp.hasInfiniteCost ∧
    (hicApply ic lp i).mods = lp.mods ++ [hicRecord lp i] ∧
    (hicApply ic lp i).colCost.getD i (XR.fin 0) = XR.fin 0 ∧
    (hicApply ic lp i).colLower.getD i (XR.fin 0) = hicFixedLower ic lp i ∧
    (hicApply ic lp i).colUpper.getD i (XR.fin 0) = hicFixedUpper ic lp i := by
  simp only [hicApply, hicFixedLower, hicFixedUpper]
  split_ifs with h1 h2 h3
  · exact ⟨⟨rfl, rfl, by simp, by simp, by simp,
      fun j hj => ⟨getD_set_ne _ _ _ hj _ _, getD_set_ne _ _ _ hj _ _, rfl⟩⟩,
      rfl, rfl, rfl, rfl, rfl, rfl, getD_set_self _ _ hc _ _,
      getD_set_self _ _ hl _ _, rfl⟩
  · exact ⟨⟨rfl, rfl, by simp, by simp, by simp,
      fun j hj => ⟨getD_set_ne _ _ _ hj _ _, rfl, getD_set_ne _ _ _ hj _ _⟩⟩,
      rfl, rfl, rfl, rfl, rfl, rfl, getD_set_self _ _ hc _ _, rfl,
      getD_set_self _ _ hu _ _⟩
  · exact ⟨⟨rfl, rfl, by simp, by simp, by simp,
      fun j hj => ⟨getD_set_ne _ _ _ hj _ _, rfl, getD_set_ne _ _ _ hj _ _⟩⟩,
      rfl, rfl, rfl, rfl, rfl, rfl, getD_set_self _ _ hc _ _, rfl,
      getD_set_self _ _ hu _ _⟩
  · exact ⟨⟨rfl, rfl, by simp, by simp, by simp,
      fun j hj => ⟨getD_set_ne _ _ _ hj _ _, getD_set_ne _ _ _ hj _ _, rfl⟩⟩,
      rfl, rfl, rfl, rfl, rfl, rfl, getD_set_self _ _ hc _ _,
      getD_set_self _ _ hl _ _, rfl⟩

theorem hicColStep_false_inf_ok (ic : ℚ) (lp : Lp) (i : ℕ)
    (h : colIsInf ic lp i = true) (hf : hicFixable ic lp i = true) :
    hicColStep ic false lp i = (.kOk, lp) := by
  have hc : ((XR.fin (-ic)).blt (lp.colCost.getD i (XR.fin 0)) &&
      (lp.colCost.getD i (XR.fin 0)).blt (XR.fin ic)) = false := by
    have := h
    simp only [colIsInf, Bool.not_eq_true'] at this
    exact this
  simp only [hicColStep]
  rw [if_neg (by rw [hc]; exact Bool.false_ne_true)]
  simp only [hicFixable] at hf
  split_ifs at hf ⊢ <;> simp_all

/-- The outcome of the checking pass: an error exactly when some listed
column has an infinite cost but no finite bound to fix at. -/
theorem passFalse_fst (ic : ℚ) (idxs : List ℕ) (lp : Lp) :
    (handleInfCostPass ic false lp idxs).1 =
      (if idxs.any (fun j => colIsInf ic lp j && !hicFixable ic lp j) then
        HStatus.kError else HStatus.kOk) := by
  induction idxs with
  | nil => simp [handleInfCostPass]
  | cons i rest ih =>
    by_cases hinf : colIsInf ic lp i = true
    · by_cases hfix : hicFixable ic lp i = true
      · have hstep := hicColStep_false_inf_ok ic lp i hinf hfix
        simp [handleInfCostPass, hstep, List.any_cons, hinf, hfix, ih]
      · rw [Bool.not_eq_true] at hfix
        have hstep := hicColStep_inf_fail ic false lp i hinf hfix
        simp [handleInfCostPass, hstep, List.any_cons, hinf, hfix]
    · rw [Bool.not_eq_true] at hinf
      have hstep := hicColStep_notinf ic false lp i hinf
      simp [handleInfCostPass, hstep, List.any_cons, hinf, ih]

/-- Full description of a successful fixing pass over distinct in-range
column indices: everything but the column vectors and the modification
log is untouched, lengths are kept, the log gains one record per
infinite-cost column in order, finite-cost and unlisted columns are
untouched, and each infinite-cost column ends with zero cost and is fixed
at the bound dictated by its cost sign and the objective sense. -/
theorem passTrue_spec (ic : ℚ) (idxs : List ℕ) :
    ∀ lp : Lp, idxs.Nodup →
    (∀ j ∈ idxs, j < lp.colCost.length ∧ j < lp.colLower.length ∧
      j < lp.colUpper.length) →
    (handleInfCostPass ic true lp idxs).1 ≠ HStatus.kError →
    ∀ r, r = (handleInfCostPass ic true lp idxs).2 →
      r.integrality = lp.integrality ∧
      r.sense = lp.sense ∧
      r.rowLower = lp.rowLower ∧
      r.rowUpper = lp.rowUpper ∧
      r.userBoundScale = lp.userBoundScale ∧
      r.userCostScale = lp.userCostScale ∧
      r.hasInfiniteCost = lp.hasInfiniteCost ∧
      r.colCost.length = lp.colCost.length ∧
      r.colLower.length = lp.colLower.length ∧
      r.colUpper.length = lp.colUpper.length ∧
      r.mods = lp.mods ++
        (idxs.filter (fun i => colIsInf ic lp i)).map (fun i => hicRecord lp i) ∧
      (∀ j, j ∉ idxs →
        r.colCost.getD j (XR.fin 0) = lp.colCost.getD j (XR.fin 0) ∧
        r.colLower.getD j (XR.fin 0) = lp.colLower.getD j (XR.fin 0) ∧
        r.colUpper.getD j (XR.fin 0) = lp.colUpper.getD j (XR.fin 0)) ∧
      (∀ j ∈ idxs, colIsInf ic lp j = false →
        r.colCost.getD j (XR.fin 0) = lp.colCost.getD j (XR.fin 0) ∧
        r.colLower.getD j (XR.fin 0) = lp.colLower.getD j (XR.fin 0) ∧
        r.colUpper.getD j (XR.fin 0) = lp.colUpper.getD j (XR.fin 0)) ∧
      (∀ j ∈ idxs, colIsInf ic lp j = true →
        r.colCost.getD j (XR.fin 0) = XR.fin 0 ∧
        r.colLower.getD j (XR.fin 0) = hicFixedLower ic lp j ∧
        r.colUpper.getD j (XR.fin 0) = hicFixedUpper ic lp j) := by
  induction idxs with
  | nil =>
    intro lp _ _ _ r hr
    subst hr
    exact ⟨rfl, rfl, rfl, rfl, rfl, rfl, rfl, rfl, rfl, rfl,
      by simp [handleInfCostPass],
      fun j _ => ⟨rfl, rfl, rfl⟩,
      fun j hj _ => absurd hj (List.not_mem_nil j),
      fun j hj _ => absurd hj (List.not_mem_nil j)⟩
  | cons i rest ih =>
    intro lp hnd hin hok r hr
    have hi := hin i (List.mem_cons_self i rest)
    have hnd' : rest.Nodup := hnd.of_cons
    have hine : i ∉ rest := (List.nodup_cons.mp hnd).1
    by_cases hinf : colIsInf ic lp i = true
    · by_cases hfix : hicFixable ic lp i = true
      · have hstep := hicColStep_inf_ok ic lp i hinf hfix
        have hpass : handleInfCostPass ic true lp (i :: rest)
            = handleInfCostPass ic true (hicApply ic lp i) rest := by
          simp [handleInfCostPass, hstep]
        obtain ⟨hsame, hrow1, hrow2, hs1, hs2, hflag, hmods2, hci, hli, hui⟩ :=
          hicApply_spec ic lp i hi.1 hi.2.1 hi.2.2
        have hcongr := fun j (hj : j ≠ i) =>
          hic_congr ic lp (hicApply ic lp i) i hsame j hj
        obtain ⟨hint2, hsen2, hlenc2, hlenl2, hlenu2, hcols2⟩ := hsame
        have hin' : ∀ j ∈ rest, j < (hicApply ic lp i).colCost.length ∧
            j < (hicApply ic lp i).colLower.length ∧
            j < (hicApply ic lp i).colUpper.length := by
          intro j hj
          rw [hlenc2, hlenl2, hlenu2]
          exact hin j (List.mem_cons_of_mem i hj)
        have hok' : (handleInfCostPass ic true (hicApply ic lp i) rest).1
            ≠ HStatus.kError := by
          rw [hpass] at hok
          exact hok
        obtain ⟨p1, p2, p3, p4, p5, p6, p7, p8, p9, p10, p11, p12, p13, p14⟩ :=
          ih (hicApply ic lp i) hnd' hin' hok' _ rfl
        subst hr
        rw [hpass]
        refine ⟨p1.trans hint2, p2.trans hsen2, p3.trans hrow1, p4.trans hrow2,
          p5.trans hs1, p6.trans hs2, p7.trans hflag, p8.trans hlenc2,
          p9.trans hlenl2, p10.trans hlenu2, ?_, ?_, ?_, ?_⟩
        · rw [p11, hmods2]
          have hfil : rest.filter (fun j => colIsInf ic (hicApply ic lp i) j)
              = rest.filter (fun j => colIsInf ic lp j) := by
            apply List.filter_congr
            intro j hj
            have hne : j ≠ i := fun e => hine (e ▸ hj)
            rw [(hcongr j hne).1]
          have hmap : (rest.filter (fun j => colIsInf ic lp j)).map
                (fun j => hicRecord (hicApply ic lp i) j)
              = (rest.filter (fun j => colIsInf ic lp j)).map
                (fun j => hicRecord lp j) := by
            apply List.map_congr_left
            intro j hj
            have hjr : j ∈ rest := (List.mem_filter.mp hj).1
            have hne : j ≠ i := fun e => hine (e ▸ hjr)
            exact (hcongr j hne).2.1
          rw [hfil, hmap]
          simp [List.filter_cons, hinf, List.append_assoc]
        · intro j hj
          have hji : j ≠ i := fun e => hj (e ▸ List.mem_cons_self i rest)
          have hjr : j ∉ rest := fun h => hj (List.mem_cons_of_mem i h)
          obtain ⟨q1, q2, q3⟩ := p12 j hjr
          obtain ⟨c1, c2, c3⟩ := hcols2 j hji
          exact ⟨q1.trans c1, q2.trans c2, q3.trans c3⟩
        · intro j hj hfalse
          rcases List.mem_cons.mp hj with he | hjr
          · subst he
            rw [hfalse] at hinf
            exact absurd hinf Bool.false_ne_true
          · have hne : j ≠ i := fun e => hine (e ▸ hjr)
            have hinf2 : colIsInf ic (hicApply ic lp i) j = false := by
              rw [(hcongr j hne).1]
              exact hfalse
            obtain ⟨q1, q2, q3⟩ := p13 j hjr hinf2
            obtain ⟨c1, c2, c3⟩ := hcols2 j hne
            exact ⟨q1.trans c1, q2.trans c2, q3.trans c3⟩
        · intro j hj htrue
          rcases List.mem_cons.mp hj with he | hjr
          · subst he
            obtain ⟨q1, q2, q3⟩ := p12 j hine
            exact ⟨q1.trans hci, q2.trans hli, q3.trans hui⟩
          · have hne : j ≠ i := fun e => hine (e ▸ hjr)
            have hinf2 : colIsInf ic (hicApply ic lp i) j = true := by
              rw [(hcongr j hne).1]
              exact htrue
            obtain ⟨q1, q2, q3⟩ := p14 j hjr hinf2
            exact ⟨q1, q2.trans (hcongr j hne).2.2.1,
              q3.trans (hcongr j hne).2.2.2.1⟩
      · rw [Bool.not_eq_true] at hfix
        have hstep := hicColStep_inf_fail ic true lp i hinf hfix
        have : (handleInfCostPass ic true lp (i :: rest)).1 = HStatus.kError := by
          simp [handleInfCostPass, hstep]
        exact absurd this hok
    · rw [Bool.not_eq_true] at hinf
      have hstep := hicColStep_notinf ic true lp i hinf
      have hpass : handleInfCostPass ic true lp (i :: rest)
          = handleInfCostPass ic true lp rest := by
        simp [handleInfCostPass, hstep]
      have hok' : (handleInfCostPass ic true lp rest).1 ≠ HStatus.kError := by
        rw [hpass] at hok
        exact hok
      obtain ⟨p1, p2, p3, p4, p5, p6, p7, p8, p9, p10, p11, p12, p13, p14⟩ :=
        ih lp hnd' (fun j hj => hin j (List.mem_cons_of_mem i hj)) hok' _ rfl
      subst hr
      rw [hpass]
      refine ⟨p1, p2, p3, p4, p5, p6, p7, p8, p9, p10, ?_, ?_, ?_, ?_⟩
      · rw [p11]
        simp [List.filter_cons, hinf]
      · intro j hj
        exact p12 j (fun h => hj (List.mem_cons_of_mem i h))
      · intro j hj hfalse
        rcases List.mem_cons.mp hj with he | hjr
        · subst he
          exact p12 j hine
        · exact p13 j hjr hfalse
      · intro j hj htrue
        rcases List.mem_cons.mp hj with he | hjr
        · subst he
          rw [htrue] at hinf
          exact absurd hinf.symm Bool.false_ne_true
        · exact p14 j hjr htrue

/-- Full description of the restoration fold of `restoreInfCost` over
records with distinct indices: only the three column vectors change;
a column named by a record receives exactly the record's saved cost and
bounds, every other column is untouched. -/
theorem restoreFold_spec (recs : List (ℕ × XR × XR × XR)) :
    ∀ (lp : Lp) (b : HBasis),
    (recs.map Prod.fst).Nodup →
    (∀ rec ∈ recs, rec.1 < lp.colCost.length ∧ rec.1 < lp.colLower.length ∧
      rec.1 < lp.colUpper.length) →
    ∀ q, q = (recs.foldl restoreOneRecord (lp, b)).1 →
      q.integrality = lp.integrality ∧
      q.sense = lp.sense ∧
      q.rowLower = lp.rowLower ∧
      q.rowUpper = lp.rowUpper ∧
      q.userBoundScale = lp.userBoundScale ∧
      q.userCostScale = lp.userCostScale ∧
      q.hasInfiniteCost = lp.hasInfiniteCost ∧
      q.mods = lp.mods ∧
      q.colCost.length = lp.colCost.length ∧
      q.colLower.length = lp.colLower.length ∧
      q.colUpper.length = lp.colUpper.length ∧
      (∀ j, j ∉ recs.map Prod.fst →
        q.colCost.getD j (XR.fin 0) = lp.colCost.getD j (XR.fin 0) ∧
        q.colLower.getD j (XR.fin 0) = lp.colLower.getD j (XR.fin 0) ∧
        q.colUpper.getD j (XR.fin 0) = lp.colUpper.getD j (XR.fin 0)) ∧
      (∀ rec ∈ recs,
        q.colCost.getD rec.1 (XR.fin 0) = rec.2.1 ∧
        q.colLower.getD rec.1 (XR.fin 0) = rec.2.2.1 ∧
        q.colUpper.getD rec.1 (XR.fin 0) = rec.2.2.2) := by
  induction recs with
  | nil =>
    intro lp b _ _ q hq
    subst hq
    exact ⟨rfl, rfl, rfl, rfl, rfl, rfl, rfl, rfl, rfl, rfl, rfl,
      fun j _ => ⟨rfl, rfl, rfl⟩,
      fun rec hr => absurd hr (List.not_mem_nil rec)⟩
  | cons rec recs ih =>
    intro lp b hnd hin q hq
    have hrec := hin rec (List.mem_cons_self rec recs)
    have hnd' : (recs.map Prod.fst).Nodup := by
      rw [List.map_cons] at hnd
      exact hnd.of_cons
    have hine : rec.1 ∉ recs.map Prod.fst := by
      rw [List.map_cons] at hnd
      exact (List.nodup_cons.mp hnd).1
    have hfold : ((rec :: recs).foldl restoreOneRecord (lp, b)).1
        = (recs.foldl restoreOneRecord (restoreOneRecord (lp, b) rec)).1 := rfl
    have hin' : ∀ rec' ∈ recs,
        rec'.1 < (restoreOneRecord (lp, b) rec).1.colCost.length ∧
        rec'.1 < (restoreOneRecord (lp, b) rec).1.colLower.length ∧
        rec'.1 < (restoreOneRecord (lp, b) rec).1.colUpper.length := by
      intro rec' hr'
      have := hin rec' (List.mem_cons_of_mem rec hr')
      simpa [restoreOneRecord] using this
    obtain ⟨p1, p2, p3, p4, p5, p6, p7, p8, p9, p10, p11, p12, p13⟩ :=
      ih (restoreOneRecord (lp, b) rec).1 (restoreOneRecord (lp, b) rec).2
        hnd' hin' _ rfl
    subst hq
    rw [hfold]
    refine ⟨p1, p2, p3, p4, p5, p6, p7, p8,
      p9.trans (by simp [restoreOneRecord]),
      p10.trans (by simp [restoreOneRecord]),
      p11.trans (by simp [restoreOneRecord]), ?_, ?_⟩
    · intro j hj
      have hji : j ≠ rec.1 := by
        intro e
        exact hj (by rw [List.map_cons, e]; exact List.mem_cons_self rec.1 _)
      have hjr : j ∉ recs.map Prod.fst := by
        intro h
        exact hj (by rw [List.map_cons]; exact List.mem_cons_of_mem rec.1 h)
      obtain ⟨q1, q2, q3⟩ := p12 j hjr
      refine ⟨q1.trans ?_, q2.trans ?_, q3.trans ?_⟩ <;>
        simp only [restoreOneRecord] <;>
        exact getD_set_ne _ _ _ hji _ _
    · intro rec' hr'
      rcases List.mem_cons.mp hr' with he | hjr
      · subst he
        obtain ⟨q1, q2, q3⟩ := p12 rec'.1 hine
        refine ⟨q1.trans ?_, q2.trans ?_, q3.trans ?_⟩ <;>
          simp only [restoreOneRecord]
        · exact getD_set_self _ _ hrec.1 _ _
        · exact getD_set_self _ _ hrec.2.1 _ _
        · exact getD_set_self _ _ hrec.2.2 _ _
      · exact p13 rec' hjr

/-- `handleInfCost` on a model whose infinite-cost flag is set and in
which some column has an infinite cost but no finite bound to fix at:
the checking pass detects it and the call errors with the model
untouched. -/
theorem handleInfCost_err (ic : ℚ) (lp : Lp) (hinf : lp.hasInfiniteCost = true)
    (h : ∃ j ∈ List.range lp.numCol,
      colIsInf ic lp j = true ∧ hicFixable ic lp j = false) :
    handleInfCost ic lp = (.kError, lp) := by
  have hany : (List.range lp.numCol).any
      (fun j => colIsInf ic lp j && !hicFixable ic lp j) = true := by
    obtain ⟨j, hjm, hj1, hj2⟩ := h
    exact List.any_eq_true.mpr ⟨j, hjm, by rw [hj1, hj2]; rfl⟩
  have h0 : (handleInfCostPass ic false lp (List.range lp.numCol)).1
      = HStatus.kError := by
    rw [passFalse_fst, if_pos hany]
  have hsnd := handleInfCostPass_false_snd ic (List.range lp.numCol) lp
  simp only [handleInfCost, hinf, Bool.not_true, Bool.false_eq_true, reduceIte]
  rw [if_pos h0]
  exact Prod.ext h0 hsnd

/-- A successful `handleInfCost` on a model whose infinite-cost flag is
set runs the fixing pass over all columns of the unchanged model and
then clears the flag. -/
theorem handleInfCost_ok_spec (ic : ℚ) (lp : Lp)
    (hinf : lp.hasInfiniteCost = true)
    (hok : (handleInfCost ic lp).1 = HStatus.kOk) :
    (handleInfCostPass ic true lp (List.range lp.numCol)).1 ≠ HStatus.kError ∧
    (handleInfCost ic lp).2 =
      { (handleInfCostPass ic true lp (List.range lp.numCol)).2 with
        hasInfiniteCost := false } := by
  have hsnd := handleInfCostPass_false_snd ic (List.range lp.numCol) lp
  simp only [handleInfCost, hinf, Bool.not_true, Bool.false_eq_true, reduceIte,
    hsnd] at hok
  by_cases h0 : (handleInfCostPass ic false lp (List.range lp.numCol)).1
      = HStatus.kError
  · rw [if_pos h0, h0] at hok
    simp at hok
  · rw [if_neg h0] at hok
    by_cases h1 : (handleInfCostPass ic true lp (List.range lp.numCol)).1
        = HStatus.kError
    · rw [if_pos h1, h1] at hok
      simp at hok
    · refine ⟨h1, ?_⟩
      simp only [handleInfCost, hinf, Bool.not_true, Bool.false_eq_true,
        reduceIte, hsnd, if_neg h0, if_neg h1]

/-- **C2** (corrected).  For a solve of a model carrying the
infinite-cost flag: the first, checking pass makes no changes; if some
infinite-cost column has no finite bound to fix at, the solve returns an
error with the model unmodified; on success every infinite-cost column
has its cost zeroed and is fixed at the bound dictated by its cost sign
and the objective sense, with its original cost and its *inward-rounded*
bounds saved in the modifications log, and every finite-cost column is
untouched; after the solve, `restoreInfCost` restores the original costs
exactly but restores the bounds to the rounded values (which coincide
with the originals whenever the column is not an integer column of a
MIP); and a solve of the fixed model that reports infeasibility ends
with model status `Unknown` rather than `Infeasible`. -/
theorem inf_cost_claim (ic : ℚ) (lp : Lp) (basis : HBasis) (ms : MStatus)
    (hwl : lp.colLower.length = lp.colCost.length)
    (hwu : lp.colUpper.length = lp.colCost.length)
    (hflag : lp.hasInfiniteCost = true)
    (hmods : lp.mods = []) :
    (handleInfCostPass ic false lp (List.range lp.numCol)).2 = lp ∧
    ((∃ j ∈ List.range lp.numCol,
        colIsInf ic lp j = true ∧ hicFixable ic lp j = false) →
      handleInfCost ic lp = (.kError, lp)) ∧
    (∀ j, colRounds lp j = false →
      roundedLower lp j = lp.colLower.getD j (XR.fin 0) ∧
      roundedUpper lp j = lp.colUpper.getD j (XR.fin 0)) ∧
    ((handleInfCost ic lp).1 = HStatus.kOk →
      (handleInfCost ic lp).2.mods =
        ((List.range lp.numCol).filter (fun i => colIsInf ic lp i)).map
          (fun i => hicRecord lp i) ∧
      (∀ j, j < lp.numCol → colIsInf ic lp j = true →
        (handleInfCost ic lp).2.colCost.getD j (XR.fin 0) = XR.fin 0 ∧
        (handleInfCost ic lp).2.colLower.getD j (XR.fin 0)
          = hicFixedLower ic lp j ∧
        (handleInfCost ic lp).2.colUpper.getD j (XR.fin 0)
          = hicFixedUpper ic lp j) ∧
      (∀ j, colIsInf ic lp j = false →
        (handleInfCost ic lp).2.colCost.getD j (XR.fin 0)
          = lp.colCost.getD j (XR.fin 0) ∧
        (handleInfCost ic lp).2.colLower.getD j (XR.fin 0)
          = lp.colLower.getD j (XR.fin 0) ∧
        (handleInfCost ic lp).2.colUpper.getD j (XR.fin 0)
          = lp.colUpper.getD j (XR.fin 0)) ∧
      (∀ j, j < lp.numCol →
        (restoreInfCost (handleInfCost ic lp).2 basis ms).1.colCost.getD j
          (XR.fin 0) = lp.colCost.getD j (XR.fin 0)) ∧
      (∀ j, j < lp.numCol → colIsInf ic lp j = true →
        (restoreInfCost (handleInfCost ic lp).2 basis ms).1.colLower.getD j
          (XR.fin 0) = roundedLower lp j ∧
        (restoreInfCost (handleInfCost ic lp).2 basis ms).1.colUpper.getD j
          (XR.fin 0) = roundedUpper lp j) ∧
      (∀ j, colIsInf ic lp j = false →
        (restoreInfCost (handleInfCost ic lp).2 basis ms).1.colLower.getD j
          (XR.fin 0) = lp.colLower.getD j (XR.fin 0) ∧
        (restoreInfCost (handleInfCost ic lp).2 basis ms).1.colUpper.getD j
          (XR.fin 0) = lp.colUpper.getD j (XR.fin 0)) ∧
      ((∃ j ∈ List.range lp.numCol, colIsInf ic lp j = true) →
        (restoreInfCost (handleInfCost ic lp).2 basis
          MStatus.kInfeasible).2.2 = MStatus.kUnknown)) := by
  refine ⟨handleInfCostPass_false_snd ic _ lp,
    fun h => handleInfCost_err ic lp hflag h,
    fun j hcr => ⟨by simp [roundedLower, hcr], by simp [roundedUpper, hcr]⟩,
    ?_⟩
  intro hok
  obtain ⟨hpt, hres⟩ := handleInfCost_ok_spec ic lp hflag hok
  have hnd := List.nodup_range lp.numCol
  have hin : ∀ j ∈ List.range lp.numCol, j < lp.colCost.length ∧
      j < lp.colLower.length ∧ j < lp.colUpper.length := by
    intro j hj
    have hj' := List.mem_range.mp hj
    exact ⟨hj', by rw [hwl]; exact hj', by rw [hwu]; exact hj'⟩
  obtain ⟨p1, p2, p3, p4, p5, p6, p7, p8, p9, p10, p11, p12, p13, p14⟩ :=
    passTrue_spec ic (List.range lp.numCol) lp hnd hin hpt _ rfl
  have hRc : (handleInfCost ic lp).2.colCost
      = (handleInfCostPass ic true lp (List.range lp.numCol)).2.colCost := by
    rw [hres]
  have hRl : (handleInfCost ic lp).2.colLower
      = (handleInfCostPass ic true lp (List.range lp.numCol)).2.colLower := by
    rw [hres]
  have hRu : (handleInfCost ic lp).2.colUpper
      = (handleInfCostPass ic true lp (List.range lp.numCol)).2.colUpper := by
    rw [hres]
  have hc3 : (handleInfCost ic lp).2.mods =
      ((List.range lp.numCol).filter (fun i => colIsInf ic lp i)).map
        (fun i => hicRecord lp i) := by
    rw [hres]
    show (handleInfCostPass ic true lp (List.range lp.numCol)).2.mods = _
    rw [p11, hmods, List.nil_append]
  have hfixj : ∀ j, j < lp.numCol → colIsInf ic lp j = true →
      (handleInfCost ic lp).2.colCost.getD j (XR.fin 0) = XR.fin 0 ∧
      (handleInfCost ic lp).2.colLower.getD j (XR.fin 0)
        = hicFixedLower ic lp j ∧
      (handleInfCost ic lp).2.colUpper.getD j (XR.fin 0)
        = hicFixedUpper ic lp j := by
    intro j hj hinfj
    obtain ⟨q1, q2, q3⟩ := p14 j (List.mem_range.mpr hj) hinfj
    exact ⟨by rw [hRc]; exact q1, by rw [hRl]; exact q2, by rw [hRu]; exact q3⟩
  have hunim : ∀ j, colIsInf ic lp j = false →
      (handleInfCost ic lp).2.colCost.getD j (XR.fin 0)
        = lp.colCost.getD j (XR.fin 0) ∧
      (handleInfCost ic lp).2.colLower.getD j (XR.fin 0)
        = lp.colLower.getD j (XR.fin 0) ∧
      (handleInfCost ic lp).2.colUpper.getD j (XR.fin 0)
        = lp.colUpper.getD j (XR.fin 0) := by
    intro j hinfj
    by_cases hj : j < lp.numCol
    · obtain ⟨q1, q2, q3⟩ := p13 j (List.mem_range.mpr hj) hinfj
      exact ⟨by rw [hRc]; exact q1, by rw [hRl]; exact q2, by rw [hRu]; exact q3⟩
    · obtain ⟨q1, q2, q3⟩ := p12 j (fun h => hj (List.mem_range.mp h))
      exact ⟨by rw [hRc]; exact q1, by rw [hRl]; exact q2, by rw [hRu]; exact q3⟩
  have hmfst : (((List.range lp.numCol).filter (fun i => colIsInf ic lp i)).map
        (fun i => hicRecord lp i)).map Prod.fst
      = (List.range lp.numCol).filter (fun i => colIsInf ic lp i) := by
    rw [List.map_map]
    rw [show (Prod.fst ∘ fun i => hicRecord lp i) = id from funext fun i => rfl]
    exact List.map_id _
  by_cases hne : (List.range lp.numCol).filter (fun i => colIsInf ic lp i) = []
  · have hm0 : (handleInfCost ic lp).2.mods = [] := by
      rw [hc3, hne]
      rfl
    have hrid : restoreInfCost (handleInfCost ic lp).2 basis ms
        = ((handleInfCost ic lp).2, basis, ms) := by
      simp [restoreInfCost, hm0]
    refine ⟨hc3, hfixj, hunim, ?_, ?_, ?_, ?_⟩
    · intro j hj
      have hinfj : colIsInf ic lp j = false := by
        by_contra hcon
        rw [Bool.not_eq_false] at hcon
        have hmem : j ∈ (List.range lp.numCol).filter
            (fun i => colIsInf ic lp i) :=
          List.mem_filter.mpr ⟨List.mem_range.mpr hj, hcon⟩
        rw [hne] at hmem
        exact absurd hmem (List.not_mem_nil j)
      rw [hrid]
      show (handleInfCost ic lp).2.colCost.getD j (XR.fin 0) = _
      exact (hunim j hinfj).1
    · intro j hj hinfj
      have hmem : j ∈ (List.range lp.numCol).filter
          (fun i => colIsInf ic lp i) :=
        List.mem_filter.mpr ⟨List.mem_range.mpr hj, hinfj⟩
      rw [hne] at hmem
      exact absurd hmem (List.not_mem_nil j)
    · intro j hinfj
      rw [hrid]
      exact ⟨(hunim j hinfj).2.1, (hunim j hinfj).2.2⟩
    · intro h
      obtain ⟨j, hjm, hjinf⟩ := h
      have hmem : j ∈ (List.range lp.numCol).filter
          (fun i => colIsInf ic lp i) := List.mem_filter.mpr ⟨hjm, hjinf⟩
      rw [hne] at hmem
      exact absurd hmem (List.not_mem_nil j)
  · have hmne : (handleInfCost ic lp).2.mods ≠ [] := by
      rw [hc3]
      intro e
      exact hne (List.map_eq_nil_iff.mp e)
    have hlen : ¬((handleInfCost ic lp).2.mods.length = 0) :=
      fun e => hmne (List.length_eq_zero.mp e)
    have hndr : ((handleInfCost ic lp).2.mods.map Prod.fst).Nodup := by
      rw [hc3, hmfst]
      exact (List.nodup_range lp.numCol).filter _
    have hinr : ∀ rec ∈ (handleInfCost ic lp).2.mods,
        rec.1 < (handleInfCost ic lp).2.colCost.length ∧
        rec.1 < (handleInfCost ic lp).2.colLower.length ∧
        rec.1 < (handleInfCost ic lp).2.colUpper.length := by
      intro rec hr
      rw [hc3] at hr
      obtain ⟨i, hi, hrec⟩ := List.mem_map.mp hr
      have hilt : i < lp.numCol := List.mem_range.mp (List.mem_filter.mp hi).1
      have h1 : rec.1 = i := by
        rw [← hrec]
        rfl
      rw [h1, hRc, hRl, hRu, p8, p9, p10]
      exact ⟨hilt, by rw [hwl]; exact hilt, by rw [hwu]; exact hilt⟩
    obtain ⟨f1, f2, f3, f4, f5, f6, f7, f8, f9, f10, f11, f12, f13⟩ :=
      restoreFold_spec (handleInfCost ic lp).2.mods (handleInfCost ic lp).2
        basis hndr hinr _ rfl
    have hrfst : ∀ ms' : MStatus,
        (restoreInfCost (handleInfCost ic lp).2 basis ms').1
        = { ((handleInfCost ic lp).2.mods.foldl restoreOneRecord
              ((handleInfCost ic lp).2, basis)).1 with
            hasInfiniteCost := true } := by
      intro ms'
      simp only [restoreInfCost]
      rw [if_neg hlen]
      split_ifs <;> rfl
    have hnotm : ∀ j, colIsInf ic lp j = false →
        j ∉ (handleInfCost ic lp).2.mods.map Prod.fst := by
      intro j hinfj hmem
      rw [hc3, hmfst] at hmem
      have := (List.mem_filter.mp hmem).2
      rw [hinfj] at this
      exact absurd this Bool.false_ne_true
    refine ⟨hc3, hfixj, hunim, ?_, ?_, ?_, ?_⟩
    · intro j hj
      rw [hrfst ms]
      show ((handleInfCost ic lp).2.mods.foldl restoreOneRecord
        ((handleInfCost ic lp).2, basis)).1.colCost.getD j (XR.fin 0) = _
      by_cases hinfj : colIsInf ic lp j = true
      · have hmem : hicRecord lp j ∈ (handleInfCost ic lp).2.mods := by
          rw [hc3]
          exact List.mem_map.mpr
            ⟨j, List.mem_filter.mpr ⟨List.mem_range.mpr hj, hinfj⟩, rfl⟩
        exact (f13 (hicRecord lp j) hmem).1
      · rw [Bool.not_eq_true] at hinfj
        obtain ⟨q1, _, _⟩ := f12 j (hnotm j hinfj)
        rw [q1]
        exact (hunim j hinfj).1
    · intro j hj hinfj
      have hmem : hicRecord lp j ∈ (handleInfCost ic lp).2.mods := by
        rw [hc3]
        exact List.mem_map.mpr
          ⟨j, List.mem_filter.mpr ⟨List.mem_range.mpr hj, hinfj⟩, rfl⟩
      obtain ⟨_, q2, q3⟩ := f13 (hicRecord lp j) hmem
      constructor
      · rw [hrfst ms]
        show ((handleInfCost ic lp).2.mods.foldl restoreOneRecord
          ((handleInfCost ic lp).2, basis)).1.colLower.getD j (XR.fin 0) = _
        exact q2
      · rw [hrfst ms]
        show ((handleInfCost ic lp).2.mods.foldl restoreOneRecord
          ((handleInfCost ic lp).2, basis)).1.colUpper.getD j (XR.fin 0) = _
        exact q3
    · intro j hinfj
      obtain ⟨_, q2, q3⟩ := f12 j (hnotm j hinfj)
      constructor
      · rw [hrfst ms]
        show ((handleInfCost ic lp).2.mods.foldl restoreOneRecord
          ((handleInfCost ic lp).2, basis)).1.colLower.getD j (XR.fin 0) = _
        rw [q2]
        exact (hunim j hinfj).2.1
      · rw [hrfst ms]
        show ((handleInfCost ic lp).2.mods.foldl restoreOneRecord
          ((handleInfCost ic lp).2, basis)).1.colUpper.getD j (XR.fin 0) = _
        rw [q3]
        exact (hunim j hinfj).2.2
    · intro _
      simp only [restoreInfCost]
      rw [if_neg hlen]
      simp

/-- Witness for C2: the concrete one-column MIP satisfies the
hypotheses, and the checking pass indeed leaves it unchanged. -/
theorem inf_cost_claim_witness :
    (handleInfCostPass qInfCost false lpInfCostMip
      (List.range lpInfCostMip.numCol)).2 = lpInfCostMip :=
  (inf_cost_claim qInfCost lpInfCostMip
    ⟨[BStatus.kLower], [], false, false, false, false⟩ MStatus.kOptimal
    rfl rfl rfl rfl).1

/-! ## Claim C1: restoration of the model by the elasticity filter

Embedding of `Highs::elasticityFilter` and `Highs::elasticityFilterReturn`
in `src/highs/lp_data/HighsInterface.cpp` (lines 1991-2489), over the same
`Lp` record and through the interface embeddings above (the source calls
`changeColsCost` / `changeColsBounds` / `changeColsIntegrality` /
`addCols` / `addRows` / `changeColBounds` / `deleteRows` / `deleteCols`,
whose interface bodies are embedded above; their return statuses are
asserted but not acted upon in the source, so the embedding keeps the
resulting state and drops the status).  The intermediate LP solves are
driven by an oracle list of solve outcomes: the filter consumes one
outcome per `run()`, and an exhausted oracle takes the failed-solve
return path (every terminating execution of the source corresponds to an
oracle long enough for its loop).  The constraint-matrix payloads of
`addCols` / `addRows` take part only in the interface guards; the start
and index arrays are passed as empty (non-null) lists. -/

/-- The outcome of one intermediate LP solve: the run status, the model
status and the primal column values. -/
structure SolveOut where
  runStatus : HStatus
  modelStatus : MStatus
  colValue : List ℚ
  deriving DecidableEq, Repr

/-- Accumulator of the column sweep of `elasticityFilter` (lines
2145-2220): the modified copies of the column bounds, the column and
saved bound of each column e-variable, the e-variable costs, and the
bounds and values of the e-rows. -/
structure EfCols where
  col_lower : List XR
  col_upper : List XR
  col_of_ecol : List ℕ
  bound_of_col_of_ecol : List XR
  ecol_cost : List XR
  erow_lower : List XR
  erow_upper : List XR
  erow_value : List XR
  deriving DecidableEq, Repr

/-- One column of the sweep (lines 2152-2220): free columns and columns
whose bounds cannot be violated under the penalties are skipped;
otherwise an e-row is created and an e-variable per violable finite
bound, freeing that bound in the accumulated copies. -/
def efColStep (lp : Lp) (gLower gUpper : ℚ) (lLower lUpper : Option (List ℚ))
    (s : EfCols) (iCol : ℕ) : EfCols :=
  let lower := lp.colLower.getD iCol (XR.fin 0)
  let upper := lp.colUpper.getD iCol (XR.fin 0)
  let s0 := { s with
    col_lower := s.col_lower ++ [lower],
    col_upper := s.col_upper ++ [upper] }
  if lower.ble XR.negInf && kHighsInf.ble upper then s0
  else
    let lowerPenalty := match lLower with
      | some l => l.getD iCol 0
      | none => gLower
    if decide (lowerPenalty < 0) && kHighsInf.ble upper then s0
    else
      let upperPenalty := match lUpper with
        | some l => l.getD iCol 0
        | none => gUpper
      if lower.ble XR.negInf && decide (upperPenalty < 0) then s0
      else
        let s1 := { s0 with
          erow_lower := s0.erow_lower ++ [lower],
          erow_upper := s0.erow_upper ++ [upper],
          erow_value := s0.erow_value ++ [XR.fin 1] }
        let s2 := if XR.negInf.blt lower && decide (0 ≤ lowerPenalty) then
          { s1 with
            col_of_ecol := s1.col_of_ecol ++ [iCol],
            bound_of_col_of_ecol := s1.bound_of_col_of_ecol ++ [lower],
            col_lower := s1.col_lower.set iCol XR.negInf,
            erow_value := s1.erow_value ++ [XR.fin 1],
            ecol_cost := s1.ecol_cost ++ [XR.fin lowerPenalty] }
        else s1
        if upper.blt kHighsInf && decide (0 ≤ upperPenalty) then
          { s2 with
            col_of_ecol := s2.col_of_ecol ++ [iCol],
            bound_of_col_of_ecol := s2.bound_of_col_of_ecol ++ [upper],
            col_upper := s2.col_upper.set iCol kHighsInf,
            erow_value := s2.erow_value ++ [XR.fin (-1)],
            ecol_cost := s2.ecol_cost ++ [XR.fin upperPenalty] }
        else s2

/-- Accumulator of the row sweep (lines 2276-2314): the row and saved
bound of each row e-variable, with the e-variable costs and matrix
values. -/
structure EfRows where
  row_of_ecol : List ℕ
  bound_of_row_of_ecol : List XR
  ecol_cost : List XR
  ecol_value : List XR
  deriving DecidableEq, Repr

/-- One row of the sweep (lines 2278-2314): rows whose penalty is
negative are skipped; otherwise an e-variable is created per finite row
bound. -/
def efRowStep (lp : Lp) (gRhs : ℚ) (lRhs : Option (List ℚ))
    (s : EfRows) (iRow : ℕ) : EfRows :=
  let penalty := match lRhs with
    | some l => l.getD iRow 0
    | none => gRhs
  if decide (penalty < 0) then s
  else
    let lower := lp.rowLower.getD iRow (XR.fin 0)
    let upper := lp.rowUpper.getD iRow (XR.fin 0)
    let s1 := if XR.negInf.blt lower then
      { s with
        row_of_ecol := s.row_of_ecol ++ [iRow],
        bound_of_row_of_ecol := s.bound_of_row_of_ecol ++ [lower],
        ecol_value := s.ecol_value ++ [XR.fin 1],
        ecol_cost := s.ecol_cost ++ [XR.fin penalty] }
    else s
    if upper.blt kHighsInf then
      { s1 with
        row_of_ecol := s1.row_of_ecol ++ [iRow],
        bound_of_row_of_ecol := s1.bound_of_row_of_ecol ++ [upper],
        ecol_value := s1.ecol_value ++ [XR.fin (-1)],
        ecol_cost := s1.ecol_cost ++ [XR.fin penalty] }
    else s1

/-- The fixing sweep of one pass of the filter loop (lines 2384-2420):
every e-variable whose solution value exceeds the primal feasibility
tolerance is fixed at zero through `changeColBounds`; returns the new
state and the number of variables fixed. -/
def efFixPass (opts : HOptions) (nColE nRowE colOff rowOff : ℕ)
    (hasEC hasER : Bool) (lp : Lp) (sol : List ℚ) : Lp × ℕ :=
  let fixCols := if hasEC then (List.range nColE).filter
    (fun e => decide (opts.primalFeasTolerance < sol.getD (colOff + e) 0))
  else []
  let lp1 := fixCols.foldl (fun l e =>
    (changeColBoundsInterface opts l ((colOff + e : ℕ) : ℤ)
      ((colOff + e : ℕ) : ℤ) (some [XR.fin 0]) (some [XR.fin 0])).2) lp
  let fixRows := if hasER then (List.range nRowE).filter
    (fun e => decide (opts.primalFeasTolerance < sol.getD (rowOff + e) 0))
  else []
  let lp2 := fixRows.foldl (fun l e =>
    (changeColBoundsInterface opts l ((rowOff + e : ℕ) : ℤ)
      ((rowOff + e : ℕ) : ℤ) (some [XR.fin 0]) (some [XR.fin 0])).2) lp1
  (lp2, fixCols.length + fixRows.length)

/-- The filter loop (lines 2381-2436): fix the positive e-variables; if
none was fixed the model is feasible and the loop ends; otherwise
re-solve, returning on a failed solve and ending the loop when the e-LP
has become infeasible.  Yields the return status, the feasible-model
flag and the state at the loop's end. -/
def efLoop (opts : HOptions) (nColE nRowE colOff rowOff : ℕ)
    (hasEC hasER : Bool) : Lp → List ℚ → List SolveOut → HStatus × Bool × Lp
  | lp, sol, [] =>
    let p := efFixPass opts nColE nRowE colOff rowOff hasEC hasER lp sol
    if p.2 = 0 then (.kOk, true, p.1) else (.kError, false, p.1)
  | lp, sol, o :: rest =>
    let p := efFixPass opts nColE nRowE colOff rowOff hasEC hasER lp sol
    if p.2 = 0 then (.kOk, true, p.1)
    else if o.runStatus ≠ HStatus.kOk then (o.runStatus, false, p.1)
    else if o.modelStatus = MStatus.kInfeasible then (.kOk, false, p.1)
    else efLoop opts nColE nRowE colOff rowOff hasEC hasER p.1 o.colValue rest

/-- Embedding of `Highs::elasticityFilterReturn` (lines 1991-2050):
delete the added rows and columns and reinstate the entry costs, bounds
and (when tracked) integrality through the interfaces — which re-apply
the user scaling.  The basis invalidation, solution recomputation and
model-status reset concern state outside the `Lp` record. -/
def elasticityFilterReturn (opts : HOptions) (returnStatus : HStatus)
    (feasibleModel : Bool) (originalNumCol originalNumRow : ℕ)
    (originalColCost originalColLower originalColUpper : List XR)
    (originalIntegrality : List VarType) (lp : Lp) : HStatus × Lp :=
  let _ := feasibleModel
  let lp1 := deleteRowsInterface lp (originalNumRow : ℤ) ((lp.numRow : ℤ) - 1)
  let lp2 := deleteColsInterface lp1 (originalNumCol : ℤ) ((lp1.numCol : ℤ) - 1)
  let lp3 := (changeCostsInterface opts lp2 0 ((originalNumCol : ℤ) - 1)
    (some originalColCost)).2
  let lp4 := (changeColBoundsInterface opts lp3 0 ((originalNumCol : ℤ) - 1)
    (some originalColLower) (some originalColUpper)).2
  let lp5 := if originalIntegrality.length ≠ 0 then
    (changeIntegralityInterface lp4 0 ((originalNumCol : ℤ) - 1)
      (some originalIntegrality)).2
  else lp4
  (returnStatus, lp5)

/-- Embedding of `Highs::elasticityFilter` (lines 2052-2489): save the
entry data, zero the costs (and relax integrality when hunting an
infeasible row), build the e-LP by the column and row sweeps, and drive
the solve loop from the oracle; every return path goes through
`elasticityFilterReturn` with the saved data and the state reached. -/
def elasticityFilter (opts : HOptions) (gLower gUpper gRhs : ℚ)
    (lLower lUpper lRhs : Option (List ℚ)) (getInfeasibleRow : Bool)
    (oracle : List SolveOut) (lp : Lp) : HStatus × Lp :=
  let originalNumCol := lp.numCol
  let originalNumRow := lp.numRow
  let originalColCost := lp.colCost
  let originalColLower := lp.colLower
  let originalColUpper := lp.colUpper
  let originalIntegrality := lp.integrality
  let lpA := (changeCostsInterface opts lp 0 ((lp.numCol : ℤ) - 1)
    (some (List.replicate lp.numCol (XR.fin 0)))).2
  let lpB := if getInfeasibleRow && !lpA.integrality.isEmpty then
    (changeIntegralityInterface lpA 0 ((lpA.numCol : ℤ) - 1)
      (some (List.replicate originalNumCol VarType.kContinuous))).2
  else lpA
  let hasElasticLower := lLower.isSome || decide (0 ≤ gLower)
  let hasElasticUpper := lUpper.isSome || decide (0 ≤ gUpper)
  let hasElasticColumns := hasElasticLower || hasElasticUpper
  let hasElasticRows := lRhs.isSome || decide (0 ≤ gRhs)
  let colEcolOffset := lpB.numCol
  let ec := (List.range lpB.numCol).foldl
    (efColStep lpB gLower gUpper lLower lUpper) ⟨[], [], [], [], [], [], [], []⟩
  let lpC := if hasElasticColumns then
    let lp1 := (changeColBoundsInterface opts lpB 0 ((lpB.numCol : ℤ) - 1)
      (some ec.col_lower) (some ec.col_upper)).2
    let lp2 := (addColsInterface opts lp1 (ec.col_of_ecol.length : ℤ)
      (some ec.ecol_cost)
      (some (List.replicate ec.col_of_ecol.length (XR.fin 0)))
      (some (List.replicate ec.col_of_ecol.length kHighsInf))
      0 none none none).2
    (addRowsInterface opts lp2 (ec.erow_lower.length : ℤ)
      (some ec.erow_lower) (some ec.erow_upper) (ec.erow_value.length : ℤ)
      (some []) (some []) (some ec.erow_value)).2
  else lpB
  let rowEcolOffset := lpC.numCol
  let er := (List.range originalNumRow).foldl
    (efRowStep lpC gRhs lRhs) ⟨[], [], [], []⟩
  let lpD := if hasElasticRows then
    (addColsInterface opts lpC (er.ecol_cost.length : ℤ) (some er.ecol_cost)
      (some (List.replicate er.ecol_cost.length (XR.fin 0)))
      (some (List.replicate er.ecol_cost.length kHighsInf))
      (er.ecol_value.length : ℤ) (some []) (some []) (some er.ecol_value)).2
  else lpC
  let outcome : HStatus × Bool × Lp :=
    match oracle with
    | [] => (.kError, false, lpD)
    | o :: rest =>
      if o.runStatus ≠ HStatus.kOk then (o.runStatus, false, lpD)
      else if !getInfeasibleRow then (.kOk, false, lpD)
      else efLoop opts ec.col_of_ecol.length er.row_of_ecol.length
        colEcolOffset rowEcolOffset hasElasticColumns hasElasticRows
        lpD o.colValue rest
  elasticityFilterReturn opts outcome.1 outcome.2.1 originalNumCol
    originalNumRow originalColCost originalColLower originalColUpper
    originalIntegrality outcome.2.2

/-- Well-formedness of the entry model: the column vectors share one
length, the row vectors share one length, and the integrality vector is
either untracked or full-length. -/
structure EfWf (lp : Lp) : Prop where
  lenL : lp.colLower.length = lp.colCost.length
  lenU : lp.colUpper.length = lp.colCost.length
  lenR : lp.rowUpper.length = lp.rowLower.length
  intOk : lp.integrality = [] ∨ lp.integrality.length = lp.colCost.length

/-- The invariant linking the filter's working state to the entry model:
the user scales are untouched, the column vectors stay aligned and at
least as long as at entry, the integrality vector stays untracked or
full-length, and the rows extend the entry rows (the original row bounds
are a prefix). -/
structure EfExtends (lp₀ lp' : Lp) : Prop where
  ubs : lp'.userBoundScale = lp₀.userBoundScale
  ucs : lp'.userCostScale = lp₀.userCostScale
  lenL : lp'.colLower.length = lp'.colCost.length
  lenU : lp'.colUpper.length = lp'.colCost.length
  geC : lp₀.colCost.length ≤ lp'.colCost.length
  intE : lp₀.integrality = [] → lp'.integrality = []
  intN : lp₀.integrality ≠ [] → lp'.integrality.length = lp'.colCost.length
  geR : lp₀.rowLower.length ≤ lp'.rowLower.length
  lenR : lp'.rowUpper.length = lp'.rowLower.length
  takeL : lp'.rowLower.take lp₀.rowLower.length = lp₀.rowLower
  takeU : lp'.rowUpper.take lp₀.rowLower.length = lp₀.rowUpper

theorem EfExtends_refl (lp : Lp) (hwf : EfWf lp) : EfExtends lp lp := by
  refine ⟨rfl, rfl, hwf.lenL, hwf.lenU, le_refl _, fun h => h,
    fun h => ?_, le_refl _, hwf.lenR, List.take_length _, ?_⟩
  · rcases hwf.intOk with he | hn
    · exact absurd he h
    · exact hn
  · rw [← hwf.lenR]
    exact List.take_length _

theorem EfExtends_changeCosts (opts : HOptions) {lp₀ : Lp} (lp : Lp)
    (a b : ℤ) (c : Option (List XR)) (h : EfExtends lp₀ lp) :
    EfExtends lp₀ (changeCostsInterface opts lp a b c).2 := by
  simp only [changeCostsInterface]
  split_ifs <;>
    first
      | exact h
      | exact ⟨h.ubs, h.ucs, by simp [length_replaceFrom, h.lenL],
          by simp [length_replaceFrom, h.lenU],
          by simp [length_replaceFrom, h.geC], h.intE,
          fun hn => by simp [length_replaceFrom, h.intN hn], h.geR, h.lenR,
          h.takeL, h.takeU⟩

theorem EfExtends_changeColBounds (opts : HOptions) {lp₀ : Lp} (lp : Lp)
    (a b : ℤ) (cl cu : Option (List XR)) (h : EfExtends lp₀ lp) :
    EfExtends lp₀ (changeColBoundsInterface opts lp a b cl cu).2 := by
  simp only [changeColBoundsInterface]
  split_ifs <;>
    first
      | exact h
      | exact ⟨h.ubs, h.ucs, by simp [length_replaceFrom, h.lenL],
          by simp [length_replaceFrom, h.lenU],
          by simp [length_replaceFrom, h.geC], h.intE,
          fun hn => by simp [length_replaceFrom, h.intN hn], h.geR, h.lenR,
          h.takeL, h.takeU⟩

theorem replaceFrom_nil {α : Type} (a : ℕ) (data : List α) :
    replaceFrom ([] : List α) a data = [] := by
  cases a <;> cases data <;> rfl

theorem EfExtends_changeIntegrality {lp₀ : Lp} (lp : Lp) (a b : ℤ)
    (c : Option (List VarType)) (h : EfExtends lp₀ lp) :
    EfExtends lp₀ (changeIntegralityInterface lp a b c).2 := by
  simp only [changeIntegralityInterface]
  split_ifs <;>
    first
      | exact h
      | exact ⟨h.ubs, h.ucs, h.lenL, h.lenU, h.geC,
          fun he => by rw [h.intE he]; exact replaceFrom_nil _ _,
          fun hn => by simp [length_replaceFrom, h.intN hn], h.geR, h.lenR,
          h.takeL, h.takeU⟩

/-- Appending aligned column blocks (as `addColsInterface` does on its
success and matrix-error paths) keeps the invariant. -/
theorem EfExtends_appendCols {lp₀ : Lp} (lp : Lp) (hwf : EfWf lp₀)
    (h : EfExtends lp₀ lp) (k : ℕ) {c l u : List XR} {newInt : List VarType}
    {flag : Bool} (hc : c.length = k) (hl : l.length = k) (hu : u.length = k)
    (hint : (lp.integrality = [] ∧ newInt = []) ∨
      (lp.integrality ≠ [] ∧
        newInt = lp.integrality ++ List.replicate k VarType.kContinuous)) :
    EfExtends lp₀
      { lp with
        colCost := lp.colCost ++ c,
        colLower := lp.colLower ++ l,
        colUpper := lp.colUpper ++ u,
        integrality := newInt,
        hasInfiniteCost := flag } := by
  refine ⟨h.ubs, h.ucs, ?_, ?_, ?_, ?_, ?_, h.geR, h.lenR, h.takeL, h.takeU⟩
  · simp only [List.length_append, h.lenL, hc, hl]
  · simp only [List.length_append, h.lenU, hc, hu]
  · simp only [List.length_append]
    exact le_trans h.geC (Nat.le_add_right _ _)
  · intro he
    rcases hint with ⟨_, hni⟩ | ⟨hie, _⟩
    · exact hni
    · exact absurd (h.intE he) hie
  · intro hn
    rcases hint with ⟨hie, _⟩ | ⟨_, hni⟩
    · exfalso
      rcases hwf.intOk with he₀ | hn₀
      · exact hn he₀
      · have h1 := h.intN hn
        rw [hie] at h1
        simp only [List.length_nil] at h1
        have hpos : 0 < lp₀.integrality.length := List.length_pos.mpr hn
        rw [hn₀] at hpos
        have := h.geC
        omega
    · rw [hni]
      simp only [List.length_append, List.length_replicate, h.intN hn, hc]

set_option maxHeartbeats 1600000 in
theorem EfExtends_addCols (opts : HOptions) {lp₀ : Lp} (lp : Lp) (n : ℕ)
    (cost lower upper : List XR) (hc : n ≤ cost.length)
    (hl : n ≤ lower.length) (hu : n ≤ upper.length) (nz : ℤ)
    (st ix : Option (List ℤ)) (vals : Option (List XR)) (hwf : EfWf lp₀)
    (h : EfExtends lp₀ lp) :
    EfExtends lp₀ (addColsInterface opts lp (n : ℤ) (some cost) (some lower)
      (some upper) nz st ix vals).2 := by
  unfold addColsInterface
  rw [if_neg (Int.not_lt.mpr (Int.natCast_nonneg n))]
  by_cases h2 : nz < 0
  · rw [if_pos h2]
    exact h
  rw [if_neg h2]
  by_cases h3 : (n : ℤ) = 0
  · rw [if_pos h3]
    exact h
  rw [if_neg h3]
  rw [if_neg (by simp :
    ¬(((some cost).isNone || (some lower).isNone || (some upper).isNone)
      = true))]
  by_cases h5 : (decide (0 < nz) && (st.isNone || ix.isNone || vals.isNone))
      = true
  · rw [if_pos h5]
    exact h
  rw [if_neg h5]
  by_cases h6 : (decide (lp.numRow = 0) && decide (0 < nz)) = true
  · rw [if_pos h6]
    exact h
  rw [if_neg h6]
  simp only []
  split_ifs <;>
    first
      | exact h
      | (refine EfExtends_appendCols lp hwf h n ?_ ?_ ?_ ?_
         · simp only [List.length_map, List.length_take, Option.getD_some,
             assessBoundsN, Int.toNat_ofNat]
           omega
         · simp only [List.length_map, List.length_take, Option.getD_some,
             assessBoundsN, Int.toNat_ofNat]
           omega
         · simp only [List.length_map, List.length_take, Option.getD_some,
             assessBoundsN, Int.toNat_ofNat]
           omega
         · first
             | exact Or.inl ⟨by simp_all [List.isEmpty_iff], rfl⟩
             | exact Or.inr ⟨by simp_all [List.isEmpty_iff], rfl⟩)

/-- Appending aligned row blocks (as `addRowsInterface` does on its
success and matrix-error paths) keeps the invariant. -/
theorem EfExtends_appendRows {lp₀ : Lp} (lp : Lp) (h : EfExtends lp₀ lp)
    (k : ℕ) {l u : List XR} (hl : l.length = k) (hu : u.length = k) :
    EfExtends lp₀
      { lp with
        rowLower := lp.rowLower ++ l,
        rowUpper := lp.rowUpper ++ u } := by
  refine ⟨h.ubs, h.ucs, h.lenL, h.lenU, h.geC, h.intE, h.intN, ?_, ?_, ?_, ?_⟩
  · simp only [List.length_append]
    exact le_trans h.geR (Nat.le_add_right _ _)
  · simp only [List.length_append, h.lenR, hl, hu]
  · rw [List.take_append_of_le_length h.geR, h.takeL]
  · rw [List.take_append_of_le_length (by rw [h.lenR]; exact h.geR), h.takeU]

set_option maxHeartbeats 1600000 in
theorem EfExtends_addRows (opts : HOptions) {lp₀ : Lp} (lp : Lp) (n : ℕ)
    (lower upper : List XR) (hl : n ≤ lower.length) (hu : n ≤ upper.length)
    (nz : ℤ) (st ix : Option (List ℤ)) (vals : Option (List XR))
    (h : EfExtends lp₀ lp) :
    EfExtends lp₀ (addRowsInterface opts lp (n : ℤ) (some lower) (some upper)
      nz st ix vals).2 := by
  unfold addRowsInterface
  rw [if_neg (Int.not_lt.mpr (Int.natCast_nonneg n))]
  by_cases h2 : nz < 0
  · rw [if_pos h2]
    exact h
  rw [if_neg h2]
  by_cases h3 : (n : ℤ) = 0
  · rw [if_pos h3]
    exact h
  rw [if_neg h3]
  rw [if_neg (by simp :
    ¬(((some lower).isNone || (some upper).isNone) = true))]
  by_cases h5 : (decide (0 < nz) && (st.isNone || ix.isNone || vals.isNone))
      = true
  · rw [if_pos h5]
    exact h
  rw [if_neg h5]
  by_cases h6 : (decide (lp.numCol = 0) && decide (0 < nz)) = true
  · rw [if_pos h6]
    exact h
  rw [if_neg h6]
  simp only []
  split_ifs <;>
    first
      | exact h
      | (refine EfExtends_appendRows lp h n ?_ ?_ <;>
          (simp only [List.length_map, List.length_take, Option.getD_some,
            assessBoundsN, Int.toNat_ofNat]
           omega))

/-- A fold whose step keeps the invariant keeps it. -/
theorem EfExtends_foldl {β : Type} {lp₀ : Lp} (f : Lp → β → Lp) (l : List β)
    (hf : ∀ lp b, EfExtends lp₀ lp → EfExtends lp₀ (f lp b)) :
    ∀ lp, EfExtends lp₀ lp → EfExtends lp₀ (l.foldl f lp) := by
  induction l with
  | nil => exact fun lp h => h
  | cons b rest ih => exact fun lp h => ih (f lp b) (hf lp b h)

theorem EfExtends_efFixPass (opts : HOptions) {lp₀ : Lp}
    (nColE nRowE colOff rowOff : ℕ) (hasEC hasER : Bool) (lp : Lp)
    (sol : List ℚ) (h : EfExtends lp₀ lp) :
    EfExtends lp₀ (efFixPass opts nColE nRowE colOff rowOff hasEC hasER
      lp sol).1 := by
  simp only [efFixPass]
  apply EfExtends_foldl _ _
    (fun lp' e h' => EfExtends_changeColBounds opts lp' _ _ _ _ h')
  apply EfExtends_foldl _ _
    (fun lp' e h' => EfExtends_changeColBounds opts lp' _ _ _ _ h')
  exact h

theorem EfExtends_efLoop (opts : HOptions) {lp₀ : Lp}
    (nColE nRowE colOff rowOff : ℕ) (hasEC hasER : Bool)
    (oracle : List SolveOut) :
    ∀ (lp : Lp) (sol : List ℚ), EfExtends lp₀ lp →
      EfExtends lp₀ (efLoop opts nColE nRowE colOff rowOff hasEC hasER
        lp sol oracle).2.2 := by
  induction oracle with
  | nil =>
    intro lp sol h
    simp only [efLoop]
    split_ifs <;>
      exact EfExtends_efFixPass opts nColE nRowE colOff rowOff hasEC hasER
        lp sol h
  | cons o rest ih =>
    intro lp sol h
    simp only [efLoop]
    split_ifs <;>
      first
        | exact EfExtends_efFixPass opts nColE nRowE colOff rowOff hasEC hasER
            lp sol h
        | exact ih _ _ (EfExtends_efFixPass opts nColE nRowE colOff rowOff
            hasEC hasER lp sol h)

/-- Deleting the rows from the original count onward recovers exactly the
original row bounds when they are a prefix of the current ones. -/
theorem deleteRows_restore (lp₀ lp' : Lp)
    (hge : lp₀.rowLower.length ≤ lp'.rowLower.length)
    (hlen : lp'.rowUpper.length = lp'.rowLower.length)
    (htL : lp'.rowLower.take lp₀.rowLower.length = lp₀.rowLower)
    (htU : lp'.rowUpper.take lp₀.rowLower.length = lp₀.rowUpper) :
    (deleteRowsInterface lp' (lp₀.numRow : ℤ)
      ((lp'.numRow : ℤ) - 1)).rowLower = lp₀.rowLower ∧
    (deleteRowsInterface lp' (lp₀.numRow : ℤ)
      ((lp'.numRow : ℤ) - 1)).rowUpper = lp₀.rowUpper ∧
    (deleteRowsInterface lp' (lp₀.numRow : ℤ)
      ((lp'.numRow : ℤ) - 1)).colCost = lp'.colCost ∧
    (deleteRowsInterface lp' (lp₀.numRow : ℤ)
      ((lp'.numRow : ℤ) - 1)).colLower = lp'.colLower ∧
    (deleteRowsInterface lp' (lp₀.numRow : ℤ)
      ((lp'.numRow : ℤ) - 1)).colUpper = lp'.colUpper ∧
    (deleteRowsInterface lp' (lp₀.numRow : ℤ)
      ((lp'.numRow : ℤ) - 1)).integrality = lp'.integrality ∧
    (deleteRowsInterface lp' (lp₀.numRow : ℤ)
      ((lp'.numRow : ℤ) - 1)).userBoundScale = lp'.userBoundScale ∧
    (deleteRowsInterface lp' (lp₀.numRow : ℤ)
      ((lp'.numRow : ℤ) - 1)).userCostScale = lp'.userCostScale := by
  unfold deleteRowsInterface Lp.numRow
  by_cases hb : ((lp'.rowLower.length : ℤ) - 1) < (lp₀.rowLower.length : ℤ)
  · rw [if_pos hb]
    have heq : lp'.rowLower.length = lp₀.rowLower.length := by omega
    have h1 : lp'.rowLower = lp₀.rowLower := by
      rw [← heq] at htL
      rw [List.take_length] at htL
      exact htL
    have h2 : lp'.rowUpper = lp₀.rowUpper := by
      rw [← heq, ← hlen] at htU
      rw [List.take_length] at htU
      exact htU
    exact ⟨h1, h2, rfl, rfl, rfl, rfl, rfl, rfl⟩
  · rw [if_neg hb]
    have ha : ((lp₀.rowLower.length : ℤ)).toNat = lp₀.rowLower.length :=
      Int.toNat_ofNat _
    have hbn : (((lp'.rowLower.length : ℤ) - 1)).toNat
        = lp'.rowLower.length - 1 := by omega
    have hsum : lp'.rowLower.length - 1 + 1 = lp'.rowLower.length := by omega
    have e1 : deleteInterval lp'.rowLower
        ((lp₀.rowLower.length : ℤ)).toNat
        (((lp'.rowLower.length : ℤ) - 1)).toNat = lp₀.rowLower := by
      rw [ha, hbn]
      unfold deleteInterval
      rw [hsum, List.drop_length, List.append_nil]
      exact htL
    have e2 : deleteInterval lp'.rowUpper
        ((lp₀.rowLower.length : ℤ)).toNat
        (((lp'.rowLower.length : ℤ) - 1)).toNat = lp₀.rowUpper := by
      rw [ha, hbn]
      unfold deleteInterval
      rw [hsum, List.drop_eq_nil_of_le (le_of_eq hlen), List.append_nil]
      exact htU
    exact ⟨e1, e2, rfl, rfl, rfl, rfl, rfl, rfl⟩

/-- Deleting the columns from the original count onward truncates the
column vectors to the original count. -/
theorem deleteCols_take (lp : Lp) (n : ℕ)
    (hl : lp.colLower.length = lp.colCost.length)
    (hu : lp.colUpper.length = lp.colCost.length)
    (hint : lp.integrality = [] ∨
      lp.integrality.length = lp.colCost.length) :
    (deleteColsInterface lp (n : ℤ)
      ((lp.numCol : ℤ) - 1)).colCost = lp.colCost.take n ∧
    (deleteColsInterface lp (n : ℤ)
      ((lp.numCol : ℤ) - 1)).colLower = lp.colLower.take n ∧
    (deleteColsInterface lp (n : ℤ)
      ((lp.numCol : ℤ) - 1)).colUpper = lp.colUpper.take n ∧
    (deleteColsInterface lp (n : ℤ)
      ((lp.numCol : ℤ) - 1)).integrality = lp.integrality.take n ∧
    (deleteColsInterface lp (n : ℤ)
      ((lp.numCol : ℤ) - 1)).rowLower = lp.rowLower ∧
    (deleteColsInterface lp (n : ℤ)
      ((lp.numCol : ℤ) - 1)).rowUpper = lp.rowUpper ∧
    (deleteColsInterface lp (n : ℤ)
      ((lp.numCol : ℤ) - 1)).userBoundScale = lp.userBoundScale ∧
    (deleteColsInterface lp (n : ℤ)
      ((lp.numCol : ℤ) - 1)).userCostScale = lp.userCostScale := by
  unfold deleteColsInterface Lp.numCol
  by_cases hb : ((lp.colCost.length : ℤ) - 1) < (n : ℤ)
  · rw [if_pos hb]
    have hle : lp.colCost.length ≤ n := by omega
    have e1 : lp.colCost.take n = lp.colCost := List.take_of_length_le hle
    have e2 : lp.colLower.take n = lp.colLower :=
      List.take_of_length_le (by omega)
    have e3 : lp.colUpper.take n = lp.colUpper :=
      List.take_of_length_le (by omega)
    have e4 : lp.integrality.take n = lp.integrality := by
      rcases hint with he | hn
      · rw [he]
        simp
      · exact List.take_of_length_le (by omega)
    exact ⟨e1.symm, e2.symm, e3.symm, e4.symm, rfl, rfl, rfl, rfl⟩
  · rw [if_neg hb]
    have hgt : n < lp.colCost.length := by omega
    have ha : ((n : ℤ)).toNat = n := Int.toNat_ofNat _
    have hbn : (((lp.colCost.length : ℤ) - 1)).toNat
        = lp.colCost.length - 1 := by omega
    have hsum : lp.colCost.length - 1 + 1 = lp.colCost.length := by omega
    have e1 : deleteInterval lp.colCost ((n : ℤ)).toNat
        (((lp.colCost.length : ℤ) - 1)).toNat = lp.colCost.take n := by
      rw [ha, hbn]
      unfold deleteInterval
      rw [hsum, List.drop_length, List.append_nil]
    have e2 : deleteInterval lp.colLower ((n : ℤ)).toNat
        (((lp.colCost.length : ℤ) - 1)).toNat = lp.colLower.take n := by
      rw [ha, hbn]
      unfold deleteInterval
      rw [hsum, List.drop_eq_nil_of_le (le_of_eq hl), List.append_nil]
    have e3 : deleteInterval lp.colUpper ((n : ℤ)).toNat
        (((lp.colCost.length : ℤ) - 1)).toNat = lp.colUpper.take n := by
      rw [ha, hbn]
      unfold deleteInterval
      rw [hsum, List.drop_eq_nil_of_le (le_of_eq hu), List.append_nil]
    have e4 : deleteInterval lp.integrality ((n : ℤ)).toNat
        (((lp.colCost.length : ℤ) - 1)).toNat = lp.integrality.take n := by
      rw [ha, hbn]
      unfold deleteInterval
      rcases hint with he | hn
      · rw [he]
        simp
      · rw [hsum, List.drop_eq_nil_of_le (le_of_eq hn), List.append_nil]
    exact ⟨e1, e2, e3, e4, rfl, rfl, rfl, rfl⟩

/-- Writing a full-length cost vector through `changeCostsInterface`
under a zero user cost scale installs it verbatim. -/
theorem changeCosts_restore (opts : HOptions) (lp : Lp) (n : ℕ)
    (data : List XR) (hd : data.length = n) (hlen : lp.colCost.length = n)
    (hscale : lp.userCostScale = 0) :
    (changeCostsInterface opts lp 0 ((n : ℤ) - 1)
      (some data)).2.colCost = data ∧
    (changeCostsInterface opts lp 0 ((n : ℤ) - 1)
      (some data)).2.colLower = lp.colLower ∧
    (changeCostsInterface opts lp 0 ((n : ℤ) - 1)
      (some data)).2.colUpper = lp.colUpper ∧
    (changeCostsInterface opts lp 0 ((n : ℤ) - 1)
      (some data)).2.integrality = lp.integrality ∧
    (changeCostsInterface opts lp 0 ((n : ℤ) - 1)
      (some data)).2.rowLower = lp.rowLower ∧
    (changeCostsInterface opts lp 0 ((n : ℤ) - 1)
      (some data)).2.rowUpper = lp.rowUpper ∧
    (changeCostsInterface opts lp 0 ((n : ℤ) - 1)
      (some data)).2.userBoundScale = lp.userBoundScale ∧
    (changeCostsInterface opts lp 0 ((n : ℤ) - 1)
      (some data)).2.userCostScale = lp.userCostScale := by
  simp only [changeCostsInterface]
  by_cases hz : ((n : ℤ) - 1 - 0 + 1) ≤ 0
  · rw [if_pos hz]
    have hn0 : n = 0 := by omega
    subst hn0
    have hdn : data = [] := List.length_eq_zero.mp hd
    have hcn : lp.colCost = [] := List.length_eq_zero.mp hlen
    exact ⟨by rw [hcn, hdn], rfl, rfl, rfl, rfl, rfl, rfl, rfl⟩
  · rw [if_neg hz]
    rw [if_neg (by simp : ¬((some data).isNone = true))]
    rw [if_neg (by rw [hscale]; simp :
      ¬((decide (lp.userCostScale ≠ 0) &&
        !costScaleOk (((some data).getD []).take
          ((n : ℤ) - 1 - 0 + 1).toNat) lp.userCostScale opts.infiniteCost)
        = true))]
    refine ⟨?_, rfl, rfl, rfl, rfl, rfl, rfl, rfl⟩
    show replaceFrom lp.colCost ((0 : ℤ)).toNat
      (if lp.userCostScale ≠ 0 then
        ((((some data).getD []).take ((n : ℤ) - 1 - 0 + 1).toNat).map
          (XR.scaleBy (pow2 lp.userCostScale)))
      else ((some data).getD []).take ((n : ℤ) - 1 - 0 + 1).toNat) = data
    rw [hscale]
    rw [if_neg (by simp)]
    have htake : ((some data).getD []).take ((n : ℤ) - 1 - 0 + 1).toNat
        = data := by
      simp only [Option.getD_some]
      have hnn : ((n : ℤ) - 1 - 0 + 1).toNat = n := by omega
      rw [hnn, ← hd, List.take_length]
    rw [htake]
    exact replaceFrom_zero_of_length_eq _ _ (hd.trans hlen.symm)

/-- Writing full-length, already-normalized bound vectors through
`changeColBoundsInterface` under a zero user bound scale installs them
verbatim. -/
theorem changeColBounds_restore (opts : HOptions) (lp : Lp) (n : ℕ)
    (dl du : List XR) (hdl : dl.length = n) (hdu : du.length = n)
    (hlenL : lp.colLower.length = n) (hlenU : lp.colUpper.length = n)
    (hscale : lp.userBoundScale = 0)
    (hsnL : dl.map (snapBound opts.infiniteBound) = dl)
    (hsnU : du.map (snapBound opts.infiniteBound) = du) :
    (changeColBoundsInterface opts lp 0 ((n : ℤ) - 1) (some dl)
      (some du)).2.colLower = dl ∧
    (changeColBoundsInterface opts lp 0 ((n : ℤ) - 1) (some dl)
      (some du)).2.colUpper = du ∧
    (changeColBoundsInterface opts lp 0 ((n : ℤ) - 1) (some dl)
      (some du)).2.colCost = lp.colCost ∧
    (changeColBoundsInterface opts lp 0 ((n : ℤ) - 1) (some dl)
      (some du)).2.integrality = lp.integrality ∧
    (changeColBoundsInterface opts lp 0 ((n : ℤ) - 1) (some dl)
      (some du)).2.rowLower = lp.rowLower ∧
    (changeColBoundsInterface opts lp 0 ((n : ℤ) - 1) (some dl)
      (some du)).2.rowUpper = lp.rowUpper ∧
    (changeColBoundsInterface opts lp 0 ((n : ℤ) - 1) (some dl)
      (some du)).2.userBoundScale = lp.userBoundScale ∧
    (changeColBoundsInterface opts lp 0 ((n : ℤ) - 1) (some dl)
      (some du)).2.userCostScale = lp.userCostScale := by
  have htL : ((some dl).getD []).take ((n : ℤ) - 1 - 0 + 1).toNat = dl := by
    simp only [Option.getD_some]
    have hnn : ((n : ℤ) - 1 - 0 + 1).toNat = n := by omega
    rw [hnn, ← hdl, List.take_length]
  have htU : ((some du).getD []).take ((n : ℤ) - 1 - 0 + 1).toNat = du := by
    simp only [Option.getD_some]
    have hnn : ((n : ℤ) - 1 - 0 + 1).toNat = n := by omega
    rw [hnn, ← hdu, List.take_length]
  simp only [changeColBoundsInterface]
  by_cases hz : ((n : ℤ) - 1 - 0 + 1) ≤ 0
  · rw [if_pos hz]
    have hn0 : n = 0 := by omega
    subst hn0
    have h1 : dl = [] := List.length_eq_zero.mp hdl
    have h2 : du = [] := List.length_eq_zero.mp hdu
    have h3 : lp.colLower = [] := List.length_eq_zero.mp hlenL
    have h4 : lp.colUpper = [] := List.length_eq_zero.mp hlenU
    exact ⟨by rw [h3, h1], by rw [h4, h2], rfl, rfl, rfl, rfl, rfl, rfl⟩
  · rw [if_neg hz]
    rw [if_neg (by simp :
      ¬(((some dl).isNone || (some du).isNone) = true))]
    rw [if_neg (by rw [hscale]; simp :
      ¬((decide (lp.userBoundScale ≠ 0) &&
        !boundScaleOk
          (assessBoundsN opts.infiniteBound
            (((some dl).getD []).take ((n : ℤ) - 1 - 0 + 1).toNat)
            (((some du).getD []).take ((n : ℤ) - 1 - 0 + 1).toNat)).1
          (assessBoundsN opts.infiniteBound
            (((some dl).getD []).take ((n : ℤ) - 1 - 0 + 1).toNat)
            (((some du).getD []).take ((n : ℤ) - 1 - 0 + 1).toNat)).2
          lp.userBoundScale opts.infiniteBound) = true))]
    refine ⟨?_, ?_, rfl, rfl, rfl, rfl, rfl, rfl⟩
    · show replaceFrom lp.colLower ((0 : ℤ)).toNat
        (if lp.userBoundScale ≠ 0 then
          (((assessBoundsN opts.infiniteBound
            (((some dl).getD []).take ((n : ℤ) - 1 - 0 + 1).toNat)
            (((some du).getD []).take ((n : ℤ) - 1 - 0 + 1).toNat)).1).map
              (XR.scaleBy (pow2 lp.userBoundScale)))
        else (assessBoundsN opts.infiniteBound
            (((some dl).getD []).take ((n : ℤ) - 1 - 0 + 1).toNat)
            (((some du).getD []).take ((n : ℤ) - 1 - 0 + 1).toNat)).1) = dl
      rw [hscale]
      rw [if_neg (by simp)]
      simp only [assessBoundsN, htL, htU, hsnL]
      exact replaceFrom_zero_of_length_eq _ _ (hdl.trans hlenL.symm)
    · show replaceFrom lp.colUpper ((0 : ℤ)).toNat
        (if lp.userBoundScale ≠ 0 then
          (((assessBoundsN opts.infiniteBound
            (((some dl).getD []).take ((n : ℤ) - 1 - 0 + 1).toNat)
            (((some du).getD []).take ((n : ℤ) - 1 - 0 + 1).toNat)).2).map
              (XR.scaleBy (pow2 lp.userBoundScale)))
        else (assessBoundsN opts.infiniteBound
            (((some dl).getD []).take ((n : ℤ) - 1 - 0 + 1).toNat)
            (((some du).getD []).take ((n : ℤ) - 1 - 0 + 1).toNat)).2) = du
      rw [hscale]
      rw [if_neg (by simp)]
      simp only [assessBoundsN, htL, htU, hsnU]
      exact replaceFrom_zero_of_length_eq _ _ (hdu.trans hlenU.symm)

/-- Writing a full-length integrality vector through
`changeIntegralityInterface` installs it verbatim. -/
theorem changeIntegrality_restore (lp : Lp) (n : ℕ) (data : List VarType)
    (hd : data.length = n) (hlen : lp.integrality.length = n) :
    (changeIntegralityInterface lp 0 ((n : ℤ) - 1)
      (some data)).2.integrality = data ∧
    (changeIntegralityInterface lp 0 ((n : ℤ) - 1)
      (some data)).2.colCost = lp.colCost ∧
    (changeIntegralityInterface lp 0 ((n : ℤ) - 1)
      (some data)).2.colLower = lp.colLower ∧
    (changeIntegralityInterface lp 0 ((n : ℤ) - 1)
      (some data)).2.colUpper = lp.colUpper ∧
    (changeIntegralityInterface lp 0 ((n : ℤ) - 1)
      (some data)).2.rowLower = lp.rowLower ∧
    (changeIntegralityInterface lp 0 ((n : ℤ) - 1)
      (some data)).2.rowUpper = lp.rowUpper ∧
    (changeIntegralityInterface lp 0 ((n : ℤ) - 1)
      (some data)).2.userBoundScale = lp.userBoundScale ∧
    (changeIntegralityInterface lp 0 ((n : ℤ) - 1)
      (some data)).2.userCostScale = lp.userCostScale := by
  simp only [changeIntegralityInterface]
  by_cases hz : ((n : ℤ) - 1 - 0 + 1) ≤ 0
  · rw [if_pos hz]
    have hn0 : n = 0 := by omega
    subst hn0
    have h1 : data = [] := List.length_eq_zero.mp hd
    have h2 : lp.integrality = [] := List.length_eq_zero.mp hlen
    exact ⟨by rw [h2, h1], rfl, rfl, rfl, rfl, rfl, rfl, rfl⟩
  · rw [if_neg hz]
    rw [if_neg (by simp : ¬((some data).isNone = true))]
    refine ⟨?_, rfl, rfl, rfl, rfl, rfl, rfl, rfl⟩
    show replaceFrom lp.integrality ((0 : ℤ)).toNat
      (((some data).getD []).take ((n : ℤ) - 1 - 0 + 1).toNat) = data
    have htake : ((some data).getD []).take ((n : ℤ) - 1 - 0 + 1).toNat
        = data := by
      simp only [Option.getD_some]
      have hnn : ((n : ℤ) - 1 - 0 + 1).toNat = n := by omega
      rw [hnn, ← hd, List.take_length]
    rw [htake]
    exact replaceFrom_zero_of_length_eq _ _ (hd.trans hlen.symm)

/-- On a state that extends the entry model, `elasticityFilterReturn`
with the saved entry data restores the entry columns, bounds,
integrality and rows exactly — provided the user scale exponents are
zero and the entry bounds are already normalized. -/
theorem efReturn_spec (opts : HOptions) (st : HStatus) (fm : Bool)
    (lp₀ lp' : Lp) (hwf : EfWf lp₀) (hext : EfExtends lp₀ lp')
    (hb0 : lp₀.userBoundScale = 0) (hc0 : lp₀.userCostScale = 0)
    (hnL : lp₀.colLower.map (snapBound opts.infiniteBound) = lp₀.colLower)
    (hnU : lp₀.colUpper.map (snapBound opts.infiniteBound) = lp₀.colUpper) :
    ∀ r, r = (elasticityFilterReturn opts st fm lp₀.numCol lp₀.numRow
      lp₀.colCost lp₀.colLower lp₀.colUpper lp₀.integrality lp').2 →
      r.colCost = lp₀.colCost ∧ r.colLower = lp₀.colLower ∧
      r.colUpper = lp₀.colUpper ∧ r.integrality = lp₀.integrality ∧
      r.rowLower = lp₀.rowLower ∧ r.rowUpper = lp₀.rowUpper := by
  intro r hr
  subst hr
  set LP1 := deleteRowsInterface lp' (lp₀.numRow : ℤ)
    ((lp'.numRow : ℤ) - 1) with hLP1
  set LP2 := deleteColsInterface LP1 (lp₀.numCol : ℤ)
    ((LP1.numCol : ℤ) - 1) with hLP2
  set LP3 := (changeCostsInterface opts LP2 0 ((lp₀.numCol : ℤ) - 1)
    (some lp₀.colCost)).2 with hLP3
  set LP4 := (changeColBoundsInterface opts LP3 0 ((lp₀.numCol : ℤ) - 1)
    (some lp₀.colLower) (some lp₀.colUpper)).2 with hLP4
  have hunf : (elasticityFilterReturn opts st fm lp₀.numCol lp₀.numRow
      lp₀.colCost lp₀.colLower lp₀.colUpper lp₀.integrality lp').2
      = (if lp₀.integrality.length ≠ 0 then
          (changeIntegralityInterface LP4 0 ((lp₀.numCol : ℤ) - 1)
            (some lp₀.integrality)).2
        else LP4) := rfl
  rw [hunf]
  have hD1 := deleteRows_restore lp₀ lp' hext.geR hext.lenR hext.takeL
    hext.takeU
  rw [← hLP1] at hD1
  obtain ⟨a1, a2, a3, a4, a5, a6, a7, a8⟩ := hD1
  have hD2 := deleteCols_take LP1 lp₀.numCol
    (by rw [a4, a3]; exact hext.lenL)
    (by rw [a5, a3]; exact hext.lenU)
    (by
      by_cases hi : lp₀.integrality = []
      · exact Or.inl (by rw [a6]; exact hext.intE hi)
      · exact Or.inr (by rw [a6, a3]; exact hext.intN hi))
  rw [← hLP2] at hD2
  obtain ⟨b1, b2, b3, b4, b5, b6, b7, b8⟩ := hD2
  have hD3 := changeCosts_restore opts LP2 lp₀.numCol lp₀.colCost rfl
    (by
      rw [b1, a3, List.length_take]
      exact Nat.min_eq_left hext.geC)
    (by rw [b8, a8, hext.ucs]; exact hc0)
  rw [← hLP3] at hD3
  obtain ⟨c1, c2, c3, c4, c5, c6, c7, c8⟩ := hD3
  have hD4 := changeColBounds_restore opts LP3 lp₀.numCol lp₀.colLower
    lp₀.colUpper hwf.lenL hwf.lenU
    (by
      rw [c2, b2, a4, List.length_take]
      exact Nat.min_eq_left (by rw [hext.lenL]; exact hext.geC))
    (by
      rw [c3, b3, a5, List.length_take]
      exact Nat.min_eq_left (by rw [hext.lenU]; exact hext.geC))
    (by rw [c7, b7, a7, hext.ubs]; exact hb0)
    hnL hnU
  rw [← hLP4] at hD4
  obtain ⟨d1, d2, d3, d4, d5, d6, d7, d8⟩ := hD4
  by_cases hi : lp₀.integrality.length ≠ 0
  · rw [if_pos hi]
    have hde : lp₀.integrality ≠ [] := by
      intro he
      rw [he] at hi
      exact hi rfl
    have hdlen : lp₀.integrality.length = lp₀.numCol := by
      rcases hwf.intOk with he | hn
      · exact absurd he hde
      · exact hn
    have hD5 := changeIntegrality_restore LP4 lp₀.numCol lp₀.integrality
      hdlen
      (by
        rw [d4, c4, b4, a6, List.length_take]
        exact Nat.min_eq_left (by rw [hext.intN hde]; exact hext.geC))
    obtain ⟨e1, e2, e3, e4, e5, e6, e7, e8⟩ := hD5
    refine ⟨?_, ?_, ?_, e1, ?_, ?_⟩
    · rw [e2, d3, c1]
    · rw [e3, d1]
    · rw [e4, d2]
    · rw [e5, d5, c5, b5, a1]
    · rw [e6, d6, c6, b6, a2]
  · rw [if_neg hi]
    have hde : lp₀.integrality = [] := by
      by_contra hcon
      exact hi (fun he => hcon (List.length_eq_zero.mp he))
    refine ⟨?_, d1, d2, ?_, ?_, ?_⟩
    · rw [d3, c1]
    · rw [d4, c4, b4, a6, hext.intE hde, hde]
      simp
    · rw [d5, c5, b5, a1]
    · rw [d6, c6, b6, a2]

/-- The column sweep keeps one e-variable cost per e-variable and aligned
e-row bound vectors. -/
theorem efColStep_lens (lp : Lp) (gL gU : ℚ) (lL lU : Option (List ℚ))
    (s : EfCols) (i : ℕ)
    (h1 : s.ecol_cost.length = s.col_of_ecol.length)
    (h2 : s.erow_upper.length = s.erow_lower.length) :
    (efColStep lp gL gU lL lU s i).ecol_cost.length
      = (efColStep lp gL gU lL lU s i).col_of_ecol.length ∧
    (efColStep lp gL gU lL lU s i).erow_upper.length
      = (efColStep lp gL gU lL lU s i).erow_lower.length := by
  simp only [efColStep]
  split_ifs <;> simp [h1, h2]

theorem efCols_lens (lp : Lp) (gL gU : ℚ) (lL lU : Option (List ℚ))
    (idxs : List ℕ) :
    ∀ s : EfCols, s.ecol_cost.length = s.col_of_ecol.length →
      s.erow_upper.length = s.erow_lower.length →
      ((idxs.foldl (efColStep lp gL gU lL lU) s).ecol_cost.length
        = (idxs.foldl (efColStep lp gL gU lL lU) s).col_of_ecol.length ∧
      (idxs.foldl (efColStep lp gL gU lL lU) s).erow_upper.length
        = (idxs.foldl (efColStep lp gL gU lL lU) s).erow_lower.length) := by
  induction idxs with
  | nil => exact fun s h1 h2 => ⟨h1, h2⟩
  | cons i rest ih =>
    intro s h1 h2
    obtain ⟨g1, g2⟩ := efColStep_lens lp gL gU lL lU s i h1 h2
    exact ih (efColStep lp gL gU lL lU s i) g1 g2

/-- **C1** (corrected).  When the user scale exponents are zero and the
stored bounds are normalized (as the class invariant maintains), every
return of `elasticityFilter` — oracle exhaustion, a failed first solve,
the no-refinement path, and every exit of the filter loop — restores the
model exactly: the entry dimensions, column costs, column bounds,
integrality and row bounds.  Under a nonzero user cost scale the claim
fails: the restoration path re-applies the scaling to the saved costs
(see the counterexample). -/
theorem elasticity_filter_claim (opts : HOptions) (gLower gUpper gRhs : ℚ)
    (lLower lUpper lRhs : Option (List ℚ)) (getInfeasibleRow : Bool)
    (oracle : List SolveOut) (lp : Lp) (hwf : EfWf lp)
    (hb0 : lp.userBoundScale = 0) (hc0 : lp.userCostScale = 0)
    (hnL : lp.colLower.map (snapBound opts.infiniteBound) = lp.colLower)
    (hnU : lp.colUpper.map (snapBound opts.infiniteBound) = lp.colUpper) :
    (elasticityFilter opts gLower gUpper gRhs lLower lUpper lRhs
      getInfeasibleRow oracle lp).2.numCol = lp.numCol ∧
    (elasticityFilter opts gLower gUpper gRhs lLower lUpper lRhs
      getInfeasibleRow oracle lp).2.numRow = lp.numRow ∧
    (elasticityFilter opts gLower gUpper gRhs lLower lUpper lRhs
      getInfeasibleRow oracle lp).2.colCost = lp.colCost ∧
    (elasticityFilter opts gLower gUpper gRhs lLower lUpper lRhs
      getInfeasibleRow oracle lp).2.colLower = lp.colLower ∧
    (elasticityFilter opts gLower gUpper gRhs lLower lUpper lRhs
      getInfeasibleRow oracle lp).2.colUpper = lp.colUpper ∧
    (elasticityFilter opts gLower gUpper gRhs lLower lUpper lRhs
      getInfeasibleRow oracle lp).2.integrality = lp.integrality ∧
    (elasticityFilter opts gLower gUpper gRhs lLower lUpper lRhs
      getInfeasibleRow oracle lp).2.rowLower = lp.rowLower ∧
    (elasticityFilter opts gLower gUpper gRhs lLower lUpper lRhs
      getInfeasibleRow oracle lp).2.rowUpper = lp.rowUpper := by
  set lpA := (changeCostsInterface opts lp 0 ((lp.numCol : ℤ) - 1)
    (some (List.replicate lp.numCol (XR.fin 0)))).2 with hA
  set lpB := (if getInfeasibleRow && !lpA.integrality.isEmpty then
    (changeIntegralityInterface lpA 0 ((lpA.numCol : ℤ) - 1)
      (some (List.replicate lp.numCol VarType.kContinuous))).2
  else lpA) with hB
  set ec := (List.range lpB.numCol).foldl
    (efColStep lpB gLower gUpper lLower lUpper)
    ⟨[], [], [], [], [], [], [], []⟩ with hec
  set lpC := (if (lLower.isSome || decide (0 ≤ gLower)) ||
      (lUpper.isSome || decide (0 ≤ gUpper)) then
    (addRowsInterface opts
      (addColsInterface opts
        (changeColBoundsInterface opts lpB 0 ((lpB.numCol : ℤ) - 1)
          (some ec.col_lower) (some ec.col_upper)).2
        (ec.col_of_ecol.length : ℤ) (some ec.ecol_cost)
        (some (List.replicate ec.col_of_ecol.length (XR.fin 0)))
        (some (List.replicate ec.col_of_ecol.length kHighsInf))
        0 none none none).2
      (ec.erow_lower.length : ℤ) (some ec.erow_lower) (some ec.erow_upper)
      (ec.erow_value.length : ℤ) (some []) (some [])
      (some ec.erow_value)).2
  else lpB) with hC
  set er := (List.range lp.numRow).foldl (efRowStep lpC gRhs lRhs)
    ⟨[], [], [], []⟩ with her
  set lpD := (if lRhs.isSome || decide (0 ≤ gRhs) then
    (addColsInterface opts lpC (er.ecol_cost.length : ℤ)
      (some er.ecol_cost)
      (some (List.replicate er.ecol_cost.length (XR.fin 0)))
      (some (List.replicate er.ecol_cost.length kHighsInf))
      (er.ecol_value.length : ℤ) (some []) (some [])
      (some er.ecol_value)).2
  else lpC) with hD
  set OUT := (match oracle with
    | [] => ((.kError, false, lpD) : HStatus × Bool × Lp)
    | o :: rest =>
      if o.runStatus ≠ HStatus.kOk then (o.runStatus, false, lpD)
      else if !getInfeasibleRow then (.kOk, false, lpD)
      else efLoop opts ec.col_of_ecol.length er.row_of_ecol.length
        lpB.numCol lpC.numCol
        ((lLower.isSome || decide (0 ≤ gLower)) ||
          (lUpper.isSome || decide (0 ≤ gUpper)))
        (lRhs.isSome || decide (0 ≤ gRhs))
        lpD o.colValue rest) with hOUT
  have hunf : elasticityFilter opts gLower gUpper gRhs lLower lUpper lRhs
      getInfeasibleRow oracle lp
      = elasticityFilterReturn opts OUT.1 OUT.2.1 lp.numCol lp.numRow
        lp.colCost lp.colLower lp.colUpper lp.integrality OUT.2.2 := rfl
  have hrefl : EfExtends lp lp := EfExtends_refl lp hwf
  have hA' : EfExtends lp lpA :=
    EfExtends_changeCosts opts lp _ _ _ hrefl
  have hB' : EfExtends lp lpB := by
    rw [hB]
    split_ifs
    · exact EfExtends_changeIntegrality lpA _ _ _ hA'
    · exact hA'
  have hlens := efCols_lens lpB gLower gUpper lLower lUpper
    (List.range lpB.numCol) ⟨[], [], [], [], [], [], [], []⟩ rfl rfl
  have hC' : EfExtends lp lpC := by
    rw [hC]
    split_ifs
    · exact EfExtends_addRows opts _ ec.erow_lower.length ec.erow_lower
        ec.erow_upper (le_refl _) (le_of_eq hlens.2.symm) _ _ _ _
        (EfExtends_addCols opts _ ec.col_of_ecol.length ec.ecol_cost
          (List.replicate ec.col_of_ecol.length (XR.fin 0))
          (List.replicate ec.col_of_ecol.length kHighsInf)
          (le_of_eq hlens.1.symm) (by simp) (by simp) 0 none none none hwf
          (EfExtends_changeColBounds opts lpB 0 ((lpB.numCol : ℤ) - 1)
            (some ec.col_lower) (some ec.col_upper) hB'))
    · exact hB'
  have hD' : EfExtends lp lpD := by
    rw [hD]
    split_ifs
    · exact EfExtends_addCols opts lpC er.ecol_cost.length er.ecol_cost
        (List.replicate er.ecol_cost.length (XR.fin 0))
        (List.replicate er.ecol_cost.length kHighsInf)
        (le_refl _) (by simp) (by simp) _ _ _ _ hwf hC'
    · exact hC'
  have hOUT' : EfExtends lp OUT.2.2 := by
    rw [hOUT]
    rcases oracle with _ | ⟨o, rest⟩
    · exact hD'
    · show EfExtends lp
        (if o.runStatus ≠ HStatus.kOk then
          ((o.runStatus, false, lpD) : HStatus × Bool × Lp)
        else if !getInfeasibleRow then (.kOk, false, lpD)
        else efLoop opts ec.col_of_ecol.length er.row_of_ecol.length
          lpB.numCol lpC.numCol
          ((lLower.isSome || decide (0 ≤ gLower)) ||
            (lUpper.isSome || decide (0 ≤ gUpper)))
          (lRhs.isSome || decide (0 ≤ gRhs))
          lpD o.colValue rest).2.2
      split_ifs
      · exact hD'
      · exact hD'
      · exact EfExtends_efLoop opts _ _ _ _ _ _ rest lpD o.colValue hD'
  obtain ⟨r1, r2, r3, r4, r5, r6⟩ := efReturn_spec opts OUT.1 OUT.2.1 lp
    OUT.2.2 hwf hOUT' hb0 hc0 hnL hnU
    (elasticityFilter opts gLower gUpper gRhs lLower lUpper lRhs
      getInfeasibleRow oracle lp).2
    (by rw [hunf])
  refine ⟨?_, ?_, r1, r2, r3, r4, r5, r6⟩
  · unfold Lp.numCol
    rw [r1]
  · unfold Lp.numRow
    rw [r5]

/-- A one-column, one-row model with zero user scales for the C1
witness. -/
def lpEfWitness : Lp :=
  ⟨[XR.fin 1], [XR.fin 0], [XR.fin 1], [], [XR.fin 0], [XR.fin 1],
    ObjSense.kMinimize, 0, 0, false, []⟩

/-- Witness for C1: on the concrete model (penalties allowing only row
elasticity, no refinement, empty oracle) the filter hands back the entry
cost vector. -/
theorem elasticity_filter_claim_witness :
    (elasticityFilter optsDefault (-1) (-1) 1 none none none false []
      lpEfWitness).2.colCost = lpEfWitness.colCost :=
  (elasticity_filter_claim optsDefault (-1) (-1) 1 none none none false []
    lpEfWitness ⟨rfl, rfl, rfl, Or.inl rfl⟩ rfl rfl
    (by norm_num [snapBound, optsDefault, lpEfWitness])
    (by norm_num [snapBound, optsDefault, lpEfWitness])).2.2.1

/-- The same model but entered under user cost scale exponent one. -/
def lpEfScaled : Lp :=
  ⟨[XR.fin 1], [XR.fin 0], [XR.fin 1], [], [], [],
    ObjSense.kMinimize, 0, 1, false, []⟩

/-- Counterexample to claim C1 as stated: with user cost scale exponent
one, the cost that `elasticityFilter` restores on return is twice the
entry cost — `elasticityFilterReturn` feeds the saved internal costs back
through `changeColsCost`, which re-applies the user scaling. -/
theorem elasticity_filter_counterexample :
    lpEfScaled.colCost = [XR.fin 1] ∧
    (elasticityFilter optsDefault (-1) (-1) 1 none none none false []
      lpEfScaled).2.colCost = [XR.fin 2] ∧
    (elasticityFilter optsDefault (-1) (-1) 1 none none none false []
      lpEfScaled).2.colCost ≠ lpEfScaled.colCost := by
  refine ⟨rfl, ?_, ?_⟩
  · norm_num [elasticityFilter, elasticityFilterReturn,
      changeCostsInterface, changeColBoundsInterface,
      changeIntegralityInterface, addColsInterface, addRowsInterface,
      deleteRowsInterface, deleteColsInterface, efColStep, efRowStep,
      replaceFrom, deleteInterval, assessBoundsN, snapBound, costScaleOk,
      boundScaleOk, scaledValueOk, pow2, hasInfiniteCostIn, assessMatrixOk,
      XR.scaleBy, XR.fabs, XR.ble, XR.blt, Lp.numCol, Lp.numRow,
      optsDefault, lpEfScaled, kHighsInf]
  · intro hcon
    have h2 : (elasticityFilter optsDefault (-1) (-1) 1 none none none
        false [] lpEfScaled).2.colCost = [XR.fin 2] := by
      norm_num [elasticityFilter, elasticityFilterReturn,
        changeCostsInterface, changeColBoundsInterface,
        changeIntegralityInterface, addColsInterface, addRowsInterface,
        deleteRowsInterface, deleteColsInterface, efColStep, efRowStep,
        replaceFrom, deleteInterval, assessBoundsN, snapBound, costScaleOk,
        boundScaleOk, scaledValueOk, pow2, hasInfiniteCostIn, assessMatrixOk,
        XR.scaleBy, XR.fabs, XR.ble, XR.blt, Lp.numCol, Lp.numRow,
        optsDefault, lpEfScaled, kHighsInf]
    rw [hcon] at h2
    norm_num [lpEfScaled] at h2

end HighsSpec
